import Mathlib

/-!
Verification of the hypergraph core of discopy (src/discopy/hypergraph.py).

We shallowly embed the `Hypergraph` data structure and its operations over a
concrete category of atomic string labels: type sequences are lists of labels,
boxes carry a name, a domain, a codomain and a dagger flag.  The `pushout`
helper, the type sequence and the box factories live outside the provided
sources, so they are modelled from the spec where needed (each such definition
says so in its doc comment).  Everything else is translated directly from
`hypergraph.py`.
-/

namespace Discopy

/-- Atomic object labels.  The plain frobenius objects of the library have no
winding flag, so the adjoint of a label is itself. -/
abbrev Ob := String

/-- Type sequences are lists of atomic labels (`frobenius.Ty`). -/
abbrev Ty := List Ob

/-- Modelled from the spec: the operation ("box") capability of section 6.
A box is an opaque operation with a `dom` and `cod` type sequence and a
`dagger()` involution, embedded as a name, the two type sequences and a
dagger flag. -/
structure Box where
  name : String
  dom : Ty
  cod : Ty
  dg : Bool := false
deriving DecidableEq, Repr

/-- Modelled from the spec: `box.dagger()` swaps `dom` and `cod`. -/
def Box.dagger (b : Box) : Box := ⟨b.name, b.cod, b.dom, !b.dg⟩

/-- Error kinds of section 7 of the spec: `AxiomError` for type mismatches,
`ShapeError` (a generic value error in the source) for a wires length
mismatch, `BijectionError` for a bijection request on a non-bijective
hypergraph, and a key error for a missing spider type. -/
inductive HErr where
  | valueError
  | axiomError
  | keyError
  | bijectionError
deriving DecidableEq, Repr

/-- The hypergraph data: `dom`, `cod`, `boxes`, the flat `wires` list from
ports to spiders, the list of spider types (indexed by spider id after the
canonical relabeling of the constructor) and the `offsets` hints. -/
structure Hypergraph where
  dom : Ty
  cod : Ty
  boxes : List Box
  wires : List Nat
  spider_types : List Ob
  offsets : List (Option Nat)
deriving DecidableEq, Repr

namespace Hypergraph

/-- The number of spiders, `len(self.spider_types)`. -/
def n_spiders (h : Hypergraph) : Nat := h.spider_types.length

/-- The types of the ports in canonical port order: one port per element of
`dom`, then for each box its domain ports followed by its codomain ports,
then one port per element of `cod`.  This is the `obj` field of the nodes
returned by the `ports` property. -/
def portTypes (dom cod : Ty) (boxes : List Box) : Ty :=
  dom ++ (boxes.map fun b => b.dom ++ b.cod).flatten ++ cod

/-- Port types of a hypergraph value. -/
def ports (h : Hypergraph) : Ty := portTypes h.dom h.cod h.boxes

/-- The roles of the ports, in the same order: `true` for source ports
(diagram inputs and box codomains), `false` for sink ports (box domains and
diagram outputs). -/
def portRoles (dom cod : Ty) (boxes : List Box) : List Bool :=
  List.replicate dom.length true
    ++ (boxes.map fun b =>
        List.replicate b.dom.length false
          ++ List.replicate b.cod.length true).flatten
    ++ List.replicate cod.length false

/-- Helper for `box_wires`: slice the wire segments of each box out of the
flat wires list, starting at index `i`. -/
def boxWiresAux (wires : List Nat) : List Box → Nat → List (List Nat × List Nat)
  | [], _ => []
  | b :: bs, i =>
    ((wires.drop i).take b.dom.length,
     (wires.drop (i + b.dom.length)).take b.cod.length)
      :: boxWiresAux wires bs (i + b.dom.length + b.cod.length)

/-- The wires connecting the boxes: for each box, the pair of its domain
wires and codomain wires, sliced out of `wires` (the `box_wires` property). -/
def box_wires (h : Hypergraph) : List (List Nat × List Nat) :=
  boxWiresAux h.wires h.boxes h.dom.length

end Hypergraph

/-- Dedup keeping first occurrences: the relabeling base
`sorted(set(wires), key=wires.index)` of the constructor. -/
def firstOccs : List Nat → List Nat
  | [] => []
  | s :: w => s :: (firstOccs w).filter (fun t => t ≠ s)

/-- Last-assignment-wins lookup in an association list, matching the python
dict built by successive assignments. -/
def dlookup (st : List (Nat × Ob)) (s : Nat) : Option Ob :=
  (st.reverse.find? (fun p => p.1 == s)).map Prod.snd

/-- The keys of the dict, as a deduplicated list. -/
def dkeys (st : List (Nat × Ob)) : List Nat := firstOccs (st.map Prod.fst)

/-- The full relabeling list of the constructor: spiders in order of first
occurrence along `wires`, followed by the remaining declared spiders in
ascending order (`sorted(set(spider_types) - set(relabeling))`). -/
def relabelingOf (wires : List Nat) (keys : List Nat) : List Nat :=
  firstOccs wires
    ++ ((firstOccs keys).filter
        (fun s => decide (s ∉ firstOccs wires))).insertionSort (· ≤ ·)

/-- The canonical-labelling invariant on a wires list: the first occurrences
of spider ids along the list are exactly `0, 1, 2, ...` in order. -/
def CanonicalW (w : List Nat) : Prop :=
  firstOccs w = List.range (firstOccs w).length

/-- Look up every spider of the relabeling in the dict; `none` models the
key error python would raise on a wire labelling a spider with no declared
type. -/
def typesOf (st : List (Nat × Ob)) : List Nat → Option (List Ob)
  | [] => some []
  | s :: rest => do
    let t ← dlookup st s
    let ts ← typesOf st rest
    pure (t :: ts)

/-- Modelled from the spec: `pushout(m, n, left_boundary, right_boundary)`
from discopy.utils (not under src/).  Union-find over `m + n` elements,
identifying `left_boundary[i]` with `m + right_boundary[i]`, then classes
are numbered in increasing order of first appearance scanning `0..m+n`.
Embedded as merge-by-relabel followed by first-occurrence canonicalization,
which realizes exactly that determinism contract. -/
def pushout (m n : Nat) (lb rb : List Nat) : List Nat × List Nat :=
  let labels := (lb.zip rb).foldl
    (fun labels p =>
      let la := labels.getD p.1 p.1
      let lbv := labels.getD (m + p.2) (m + p.2)
      labels.map (fun x => if x = lbv then la else x))
    (List.range (m + n))
  let canon := firstOccs labels
  let final := labels.map (fun s => canon.indexOf s)
  (final.take m, final.drop m)

/-- The label list computed by the union-find fold of `pushout`, before
canonicalization: each of the `m + n` elements carries the representative
label of its class. -/
def poLabels (m n : Nat) (lb rb : List Nat) : List Nat :=
  (lb.zip rb).foldl
    (fun labels p =>
      let la := labels.getD p.1 p.1
      let lbv := labels.getD (m + p.2) (m + p.2)
      labels.map (fun x => if x = lbv then la else x))
    (List.range (m + n))

/-- The canonicalized label list of `pushout`: classes are renumbered in
order of first appearance. -/
def poFinal (m n : Nat) (lb rb : List Nat) : List Nat :=
  (poLabels m n lb rb).map
    (fun s => (firstOccs (poLabels m n lb rb)).indexOf s)

/-- Invariant of the union-find fold of `pushout` with left boundary
`0, ..., k-1`, after processing the right-boundary prefix `pre`: unprocessed
left elements keep their own label, each processed left element shares its
label with its partner, untouched right elements keep fresh labels, and
distinct right elements always carry distinct labels. -/
def PoInv (k n : Nat) (pre : List Nat) (L : List Nat) : Prop :=
  (∀ v ∈ pre, v < n)
  ∧ L.length = k + n
  ∧ (∀ x, pre.length ≤ x → x < k → L.getD x 0 = x)
  ∧ (∀ x, x < pre.length → L.getD x 0 = L.getD (k + pre.getD x 0) 0)
  ∧ (∀ v, v < n → v ∉ pre → L.getD (k + v) 0 = k + v)
  ∧ (∀ v, v ∈ pre → L.getD (k + v) 0 < pre.length)
  ∧ (∀ v w, v < n → w < n → L.getD (k + v) 0 = L.getD (k + w) 0 → v = w)
  ∧ (∀ v, v < n → L.getD (k + v) 0 < pre.length ∨ L.getD (k + v) 0 = k + v)

namespace Hypergraph

/-- One `set.add` on one side of one spider entry: append the position if it
is not already present (positions are only ever added once, so this matches
python set semantics including cardinality). -/
def addTo (res : List (List Nat × List Nat)) (side : Bool) (spider pos : Nat) :
    List (List Nat × List Nat) :=
  match res.get? spider with
  | none => res
  | some (ins, outs) =>
    if side then
      res.set spider (if pos ∈ ins then ins else ins ++ [pos], outs)
    else
      res.set spider (ins, if pos ∈ outs then outs else outs ++ [pos])

/-- Add every spider of a segment, with consecutive positions from `base`. -/
def addAll (res : List (List Nat × List Nat)) (side : Bool) :
    List Nat → Nat → List (List Nat × List Nat)
  | [], _ => res
  | s :: rest, base => addAll (addTo res side s base) side rest (base + 1)

/-- Process the box segments of `spider_wires`, threading the port counter. -/
def swBoxes (res : List (List Nat × List Nat)) :
    List (List Nat × List Nat) → Nat → List (List Nat × List Nat) × Nat
  | [], n_ports => (res, n_ports)
  | (dom_wires, cod_wires) :: rest, n_ports =>
    let res := addAll res false dom_wires n_ports
    let res := addAll res true cod_wires (n_ports + dom_wires.length)
    swBoxes res rest (n_ports + dom_wires.length + cod_wires.length)

/-- The input and output wires of each spider (the `spider_wires` property):
for each spider, the set of its source ports and the set of its sink ports,
represented as duplicate-free lists in insertion order. -/
def spider_wires (h : Hypergraph) : List (List Nat × List Nat) :=
  let res := List.replicate h.n_spiders ([], [])
  let res := addAll res true (h.wires.take h.dom.length) 0
  let (res, n_ports) := swBoxes res h.box_wires h.dom.length
  addAll res false (h.wires.drop (h.wires.length - h.cod.length)) n_ports

/-- The type check of the constructor: every port of every spider must carry
the spider's type (labels have no winding flag here, so the adjoint of a
type is itself). -/
def typeCheck (h : Hypergraph) : Bool :=
  (h.spider_types.zip h.spider_wires).all fun p =>
    (p.2.1 ++ p.2.2).all fun i => h.ports.getD i "" == p.1

/-- The constructor `Hypergraph.__init__`: checks the wires length, relabels
the spiders canonically (first occurrence order along `wires`, then the
remaining declared spiders in ascending order), rebuilds the spider types
along the relabeling, and type checks every port against its spider. -/
def mkH (dom cod : Ty) (boxes : List Box) (wires : List Nat)
    (st : List (Nat × Ob)) (offsets : Option (List (Option Nat)) := none) :
    Except HErr Hypergraph :=
  if wires.length ≠ (portTypes dom cod boxes).length then .error .valueError
  else
    let rlb := relabelingOf wires (st.map Prod.fst)
    match typesOf st rlb with
    | none => .error .keyError
    | some types =>
      let h : Hypergraph :=
        ⟨dom, cod, boxes, wires.map (fun s => rlb.indexOf s), types,
         offsets.getD (List.replicate boxes.length none)⟩
      if h.typeCheck then .ok h else .error .axiomError

/-- The identity hypergraph `Hypergraph.id(dom)`: no boxes and wires
`(0, ..., k-1, 0, ..., k-1)`; the spider types are computed from the ports
as in the source when `spider_types is None`. -/
def idH (dom : Ty) : Except HErr Hypergraph :=
  let wires := List.range dom.length ++ List.range dom.length
  mkH dom dom [] wires (wires.zip (portTypes dom dom []))

/-- Sequential composition `Hypergraph.then`: requires `self.cod ==
other.dom`, else `AxiomError`; pushes out the two boundaries and remaps
both wire lists and both spider type dicts through the resulting maps. -/
def thenH (f g : Hypergraph) : Except HErr Hypergraph :=
  if f.cod ≠ g.dom then .error .axiomError
  else
    let self_boundary := f.wires.drop (f.wires.length - f.cod.length)
    let other_boundary := g.wires.take g.dom.length
    let lr := pushout f.n_spiders g.n_spiders self_boundary other_boundary
    let wires :=
      (f.wires.take (f.wires.length - f.cod.length)).map (fun i => lr.1.getD i 0)
        ++ (g.wires.drop g.dom.length).map (fun i => lr.2.getD i 0)
    let st :=
      (f.spider_types.enum.map fun p => (lr.1.getD p.1 0, p.2))
        ++ (g.spider_types.enum.map fun p => (lr.2.getD p.1 0, p.2))
    mkH f.dom g.cod (f.boxes ++ g.boxes) wires st (some (f.offsets ++ g.offsets))

/-- Parallel composition `Hypergraph.tensor`: disjoint union, shifting the
other hypergraph's spider ids by `self.n_spiders`. -/
def tensor (f g : Hypergraph) : Except HErr Hypergraph :=
  let dom_wires := f.wires.take f.dom.length
    ++ (g.wires.take g.dom.length).map (f.n_spiders + ·)
  let box_wires := ((f.wires.drop f.dom.length).take
      (f.wires.length - f.dom.length - f.cod.length))
    ++ (((g.wires.drop g.dom.length).take
      (g.wires.length - g.dom.length - g.cod.length))).map (f.n_spiders + ·)
  let cod_wires := f.wires.drop (f.wires.length - f.cod.length)
    ++ (g.wires.drop (g.wires.length - g.cod.length)).map (f.n_spiders + ·)
  mkH (f.dom ++ g.dom) (f.cod ++ g.cod) (f.boxes ++ g.boxes)
    (dom_wires ++ box_wires ++ cod_wires)
    (f.spider_types ++ g.spider_types).enum (some (f.offsets ++ g.offsets))

/-- Dagger `Hypergraph.dagger`, called with `[::-1]`: reverse and dagger the
boxes, swap each box's wire segments and the outer wire segments. -/
def dagger (h : Hypergraph) : Except HErr Hypergraph :=
  let dom_wires := h.wires.drop (h.wires.length - h.cod.length)
  let bw := (h.box_wires.reverse.map fun p => p.2 ++ p.1).flatten
  let cod_wires := h.wires.take h.dom.length
  mkH h.cod h.dom (h.boxes.reverse.map Box.dagger) (dom_wires ++ bw ++ cod_wires)
    h.spider_types.enum (some h.offsets.reverse)

/-- The swap hypergraph `Hypergraph.swap(left, right)`. -/
def swap (left right : Ty) : Except HErr Hypergraph :=
  let dom := left ++ right
  let cod := right ++ left
  let wires := List.range dom.length
    ++ List.range' left.length right.length ++ List.range left.length
  mkH dom cod [] wires (wires.zip (portTypes dom cod []))

/-- The spider hypergraph `Hypergraph.spiders(n_legs_in, n_legs_out, typ)`:
one spider per atomic type of `typ`, fanning to all the legs. -/
def spiders (n_legs_in n_legs_out : Nat) (typ : Ty) : Except HErr Hypergraph :=
  let dom := (List.replicate n_legs_in typ).flatten
  let cod := (List.replicate n_legs_out typ).flatten
  let wires :=
    (List.replicate (n_legs_in + n_legs_out) (List.range typ.length)).flatten
  mkH dom cod [] wires typ.enum

/-- Turn a box into a hypergraph (`Hypergraph.from_box`, used by
`to_hypergraph`): binary spiders for each wire of the box. -/
def from_box (b : Box) : Except HErr Hypergraph :=
  let wires := List.range b.dom.length ++ List.range b.dom.length
    ++ List.range' b.dom.length b.cod.length
    ++ List.range' b.dom.length b.cod.length
  mkH b.dom b.cod [b] wires (b.dom ++ b.cod).enum

/-- The zero-legged spiders (`scalar_spiders`). -/
def scalar_spiders (h : Hypergraph) : List Nat :=
  (List.range h.n_spiders).filter (fun i => h.wires.count i == 0)

/-- Bijectivity check: each spider is connected to two or zero ports. -/
def is_bijective (h : Hypergraph) : Bool :=
  (List.range h.n_spiders).all fun i =>
    h.wires.count i == 0 || h.wires.count i == 2

/-- Monogamy check: each spider's source and sink sets have equal sizes,
summing to zero or two. -/
def is_monogamous (h : Hypergraph) : Bool :=
  h.spider_wires.all fun p =>
    p.1.length == p.2.length
      && (p.1.length + p.2.length == 0 || p.1.length + p.2.length == 2)

/-- Polygyny check: each non-scalar spider has exactly one source port. -/
def is_polygynous (h : Hypergraph) : Bool :=
  h.spider_wires.all fun p =>
    (p.1 ++ p.2).isEmpty || p.1.length == 1

/-- Last-assignment-wins lookup for the port pairing dict of `bijection`. -/
def dlookupN (d : List (Nat × Nat)) (k : Nat) : Option Nat :=
  (d.reverse.find? (fun p => p.1 == k)).map Prod.snd

/-- The pairing dict of the `bijection` property: for each source port whose
spider occurs again later, record the first later occurrence as its target
and record the reverse entry. -/
def bijectionDict (w : List Nat) : List (Nat × Nat) :=
  (List.range w.length).foldl
    (fun d source =>
      match (w.drop (source + 1)).findIdx? (fun t => t == w.getD source 0) with
      | none => d
      | some j => d ++ [(source, j + source + 1), (j + source + 1, source)])
    []

/-- The `bijection` property: fails on a non-bijective hypergraph, else
returns the pairing listed over the sorted dict keys. -/
def bijection (h : Hypergraph) : Except HErr (List Nat) :=
  if ¬ h.is_bijective then .error .bijectionError
  else
    let d := bijectionDict h.wires
    .ok (((firstOccs (d.map Prod.fst)).insertionSort (· ≤ ·)).map
      (fun k => (dlookupN d k).getD 0))

/-- The pair of dict entries contributed by one source port in the
`bijection` fold: empty when the port's spider does not occur again later,
else the forward and backward pairing with the first later occurrence. -/
def bdContrib (w : List Nat) (source : Nat) : List (Nat × Nat) :=
  match (w.drop (source + 1)).findIdx? (fun t => t == w.getD source 0) with
  | none => []
  | some j => [(source, j + source + 1), (j + source + 1, source)]

/-- The sorted pair of positions of a spider that occurs exactly twice in a
wires list: p and q are the only positions holding that spider's label. -/
def IsPair (w : List Nat) (p q : Nat) : Prop :=
  p < q ∧ q < w.length ∧ w.getD q 0 = w.getD p 0
    ∧ ∀ r, r < w.length → w.getD r 0 = w.getD p 0 → r = p ∨ r = q

/-- The kind and depth of the node at a given port index, as carried by the
`Node` values of the `ports` property. -/
inductive PortNode where
  | input : Nat → PortNode
  | box_dom : Nat → Nat → PortNode
  | box_cod : Nat → Nat → PortNode
  | output : Nat → PortNode
deriving DecidableEq, Repr

/-- Walk the boxes to locate a port past the diagram inputs. -/
def portNodeAux : List Box → Nat → Nat → PortNode
  | [], _, j => .output j
  | b :: bs, d, j =>
    if j < b.dom.length then .box_dom d j
    else if j < b.dom.length + b.cod.length then .box_cod d (j - b.dom.length)
    else portNodeAux bs (d + 1) (j - b.dom.length - b.cod.length)

/-- The node of the port at index `i` (kind, depth and index), as used by
`make_bijective` through `self.ports[...]`. -/
def portNode (h : Hypergraph) (i : Nat) : PortNode :=
  if i < h.dom.length then .input i
  else portNodeAux h.boxes 0 (i - h.dom.length)

/-- Modelled from the spec: `spider_factory(n_in, n_out, typ)` of the box
capability contract of section 6 (the `frobenius.Spider` factory is not
under src/): a spider box whose domain is `n_in` legs and whose codomain is
`n_out` legs of the atomic type `typ`. -/
def spiderFactory (n_in n_out : Nat) (typ : Ob) : Box :=
  ⟨"Spider", List.replicate n_in typ, List.replicate n_out typ, false⟩

/-- The index of the last spider whose leg count is neither 0 nor 2, i.e.
the spider the `reversed(...)` scan of `make_bijective` rewrites. -/
def mbFind (h : Hypergraph) : Option Nat :=
  (List.range h.n_spiders).reverse.find? fun s =>
    let p := h.spider_wires.getD s ([], [])
    !(p.1.length + p.2.length == 0 || p.1.length + p.2.length == 2)

/-- One rewrite step of `make_bijective` at spider `s`: insert a spider box
realizing the fan-in/fan-out at the computed depth, redirect each old port
of `s` to a fresh per-leg spider, wire the new box to the same fresh
spiders, delete the old spider and shift the labels above it. -/
def mbStep (h : Hypergraph) (s : Nat) : Except HErr Hypergraph :=
  let p := h.spider_wires.getD s ([], [])
  let input_wires := p.1
  let output_wires := p.2
  let n_legs := input_wires.length + output_wires.length
  let typ := h.spider_types.getD s ""
  let depth :=
    if input_wires ≠ [] then
      match portNode h (input_wires.foldr max 0) with
      | .input _ => 0
      | .box_dom d _ => d + 1
      | .box_cod d _ => d + 1
      | .output _ => h.boxes.length
    else
      match portNode h (output_wires.foldr min (h.wires.length)) with
      | .input _ => 0
      | .box_dom d _ => d
      | .box_cod d _ => d
      | .output _ => h.boxes.length
  let boxes := h.boxes.take depth
    ++ [spiderFactory input_wires.length output_wires.length typ]
    ++ h.boxes.drop depth
  let offsets := h.offsets.take depth ++ [none] ++ h.offsets.drop depth
  let union := (input_wires ++ output_wires).insertionSort (· ≤ ·)
  let wires := union.enum.foldl
    (fun w q => w.set q.2 (h.n_spiders + q.1)) h.wires
  let i := h.dom.length
    + (((h.box_wires.take depth).map fun q => q.1.length + q.2.length).sum)
  let wires := wires.take i ++ List.range' h.n_spiders n_legs ++ wires.drop i
  let spider_types := (h.spider_types ++ List.replicate n_legs typ).eraseIdx s
  let wires := wires.map (fun w => if w > s then w - 1 else w)
  mkH h.dom h.cod boxes wires spider_types.enum (some offsets)

/-- Fuel-indexed iteration of the `make_bijective` recursion.  With enough
fuel (one unit per rewritten spider) this is exactly the recursion of the
source, which rewrites one violating spider and recurses on the result. -/
def mbFuel : Nat → Hypergraph → Except HErr Hypergraph
  | 0, h => .ok h
  | fuel + 1, h =>
    match mbFind h with
    | none => .ok h
    | some s => mbStep h s >>= mbFuel fuel

/-- Introduce spider boxes to make the hypergraph bijective
(`make_bijective`): every rewrite step removes one violating spider and
creates only degree-two spiders, so `n_spiders` units of fuel always reach
the fixed point reached by the recursion of the source. -/
def make_bijective (h : Hypergraph) : Except HErr Hypergraph :=
  mbFuel h.n_spiders h

/-- The port roles of a hypergraph value. -/
def roles (h : Hypergraph) : List Bool := portRoles h.dom h.cod h.boxes

/-- Reference reading of the wiring: the positions at which spider `s`
appears with role `side`, starting from index `i`. -/
def selPos (s : Nat) (side : Bool) : List (Nat × Bool) → Nat → List Nat
  | [], _ => []
  | q :: rest, i =>
    (if q.1 = s ∧ q.2 = side then [i] else []) ++ selPos s side rest (i + 1)

/-- Flattened processing order of `spider_wires`: one job per port, in
increasing port order, carrying the port's spider and role. -/
def swJobs (res : List (List Nat × List Nat)) :
    List (Nat × Bool) → Nat → List (List Nat × List Nat)
  | [], _ => res
  | q :: rest, i => swJobs (addTo res q.2 q.1 i) rest (i + 1)

/-- The per-port jobs contributed by the box segments of `spider_wires`:
domain ports are sinks, codomain ports are sources. -/
def jobsOfBoxes (bw : List (List Nat × List Nat)) : List (Nat × Bool) :=
  (bw.map (fun p =>
    p.1.map (fun s => (s, false)) ++ p.2.map (fun s => (s, true)))).flatten

/-- The number of source ports of spider `s`: ports of kind input or box
codomain whose wire names `s`. -/
def sourceCount (h : Hypergraph) (s : Nat) : Nat :=
  ((h.wires.zip h.roles).filter (fun q => q.1 == s && q.2)).length

/-- The number of sink ports of spider `s`: ports of kind box domain or
output whose wire names `s`. -/
def sinkCount (h : Hypergraph) (s : Nat) : Nat :=
  ((h.wires.zip h.roles).filter (fun q => q.1 == s && !q.2)).length

/-- A well-formed hypergraph value: as many wires as ports, canonically
labelled spiders that all carry a declared type, and type-correct wiring.
Every value produced by the constructor satisfies this. -/
def Valid (h : Hypergraph) : Prop :=
  h.wires.length = h.ports.length ∧ CanonicalW h.wires
    ∧ (firstOccs h.wires).length ≤ h.n_spiders ∧ h.typeCheck = true

instance : DecidablePred Valid := fun h => by
  unfold Valid CanonicalW; infer_instance

/-- The number of spiders violating bijectivity, i.e. of degree neither 0
nor 2; the termination measure of `make_bijective`. -/
def badCount (h : Hypergraph) : Nat :=
  ((List.range h.n_spiders).filter
    (fun s => !(h.wires.count s == 0 || h.wires.count s == 2))).length

/-- Per-port type agreement of a port type list against a wires list under
a spider type lookup; the constructor's type check in pre-relabeling form. -/
def PreCheck (pts : Ty) (w : List Nat) (lk : Nat → Ob) : Prop :=
  ∀ i, i < w.length → pts.getD i "" = lk (w.getD i 0)

/-- The sorted list of positions of `w` carrying the spider `s`; the order
in which `make_bijective` redirects the ports of the spider it removes. -/
def posOf (w : List Nat) (s : Nat) : List Nat :=
  selPos s true (w.map (fun v => (v, true))) 0

/-- Concrete example value: the identity hypergraph on the atomic type x,
exactly as produced by the constructor. -/
def exIdX : Hypergraph := ⟨["x"], ["x"], [], [0, 0], ["x"], []⟩

/-- Concrete example: a single box f from x to y@y, as a hypergraph. -/
def exF2 : Hypergraph :=
  ⟨["x"], ["y", "y"], [⟨"f", ["x"], ["y", "y"], false⟩],
   [0, 0, 1, 2, 1, 2], ["x", "y", "y"], [none]⟩

/-- Concrete example: a single box g from y@y to z, as a hypergraph. -/
def exG2 : Hypergraph :=
  ⟨["y", "y"], ["z"], [⟨"g", ["y", "y"], ["z"], false⟩],
   [0, 1, 0, 1, 2, 2], ["y", "y", "z"], [none]⟩

/-- Concrete example: the tensor of `exF2` and `exG2`. -/
def exF2G2 : Hypergraph :=
  ⟨["x", "y", "y"], ["y", "y", "z"],
   [⟨"f", ["x"], ["y", "y"], false⟩, ⟨"g", ["y", "y"], ["z"], false⟩],
   [0, 1, 2, 0, 3, 4, 1, 2, 5, 3, 4, 5],
   ["x", "y", "y", "y", "y", "z"], [none, none]⟩

/-- Concrete example: a single box f from x to y, as a hypergraph. -/
def exFb : Hypergraph :=
  ⟨["x"], ["y"], [⟨"f", ["x"], ["y"], false⟩],
   [0, 0, 1, 1], ["x", "y"], [none]⟩

/-- Concrete example: a single box g from y to z, as a hypergraph. -/
def exGb : Hypergraph :=
  ⟨["y"], ["z"], [⟨"g", ["y"], ["z"], false⟩],
   [0, 0, 1, 1], ["y", "z"], [none]⟩

/-- Concrete example: the tensor of `exFb` and `exGb`. -/
def exFbGb : Hypergraph :=
  ⟨["x", "y"], ["y", "z"],
   [⟨"f", ["x"], ["y"], false⟩, ⟨"g", ["y"], ["z"], false⟩],
   [0, 1, 0, 2, 1, 3, 2, 3], ["x", "y", "y", "z"], [none, none]⟩

/-- The hypergraph values reachable through the public constructor or any
operator.  Every operator (`idH`, `thenH`, `tensor`, `dagger`, `swap`,
`spiders`, `from_box`, the rewrite steps of the normalization passes)
returns a value built by the constructor `mkH`; the only operator that can
return a value it did not itself construct is the fixed point of
`make_bijective`, which returns its input unchanged. -/
inductive Reachable : Hypergraph → Prop where
  | mk {dom cod : Ty} {boxes : List Box} {wires : List Nat}
      {st : List (Nat × Ob)} {offs : Option (List (Option Nat))}
      {h : Hypergraph} :
      mkH dom cod boxes wires st offs = .ok h → Reachable h
  | mb {h h' : Hypergraph} :
      Reachable h → make_bijective h = .ok h' → Reachable h'

end Hypergraph

/-! ### Properties of the first-occurrence dedup and the canonical relabeling -/

theorem mem_firstOccs {w : List Nat} {x : Nat} : x ∈ firstOccs w ↔ x ∈ w := by
  induction w with
  | nil => simp [firstOccs]
  | cons s w ih =>
    simp only [firstOccs, List.mem_cons, List.mem_filter]
    constructor
    · rintro (rfl | ⟨hx, _⟩)
      · exact .inl rfl
      · exact .inr (ih.1 hx)
    · rintro (rfl | hx)
      · exact .inl rfl
      · by_cases hxs : x = s
        · exact .inl hxs
        · exact .inr ⟨ih.2 hx, by simpa using hxs⟩

theorem nodup_firstOccs (w : List Nat) : (firstOccs w).Nodup := by
  induction w with
  | nil => simp [firstOccs]
  | cons s w ih =>
    simp only [firstOccs, List.nodup_cons]
    refine ⟨fun hmem => ?_, ih.filter _⟩
    simp only [List.mem_filter, decide_eq_true_eq] at hmem
    exact hmem.2 rfl

theorem firstOccs_map_injOn {f : Nat → Nat} {w : List Nat}
    (hf : ∀ a ∈ w, ∀ b ∈ w, f a = f b → a = b) :
    firstOccs (w.map f) = (firstOccs w).map f := by
  induction w with
  | nil => simp [firstOccs]
  | cons s w ih =>
    simp only [List.map_cons, firstOccs]
    have hf' : ∀ a ∈ w, ∀ b ∈ w, f a = f b → a = b := fun a ha b hb =>
      hf a (List.mem_cons_of_mem _ ha) b (List.mem_cons_of_mem _ hb)
    rw [ih hf']
    congr 1
    rw [List.filter_map]
    congr 1
    apply List.filter_congr
    intro a ha
    have haw : a ∈ w := mem_firstOccs.1 ha
    simp only [Function.comp_apply, decide_eq_decide]
    constructor
    · intro hfa has
      exact hfa (has ▸ rfl)
    · intro has hfa
      exact has (hf a (List.mem_cons_of_mem _ haw) s (List.mem_cons_self _ _) hfa)

theorem map_indexOf_self_nodup {l : List Nat} (hl : l.Nodup) :
    l.map (fun s => l.indexOf s) = List.range l.length := by
  apply List.ext_getElem
  · simp
  · intro i h1 h2
    simp only [List.getElem_map, List.getElem_range]
    exact List.indexOf_getElem hl i (by simpa using h1)

theorem firstOccs_map_indexOf (w : List Nat) :
    firstOccs (w.map fun s => (firstOccs w).indexOf s)
      = List.range (firstOccs w).length := by
  rw [firstOccs_map_injOn, map_indexOf_self_nodup (nodup_firstOccs w)]
  intro a ha b hb
  exact (List.indexOf_inj (mem_firstOccs.2 ha) (mem_firstOccs.2 hb)).1

theorem indexOf_range {s k : Nat} (h : s < k) : (List.range k).indexOf s = s := by
  induction k with
  | zero => omega
  | succ k ih =>
    rw [List.range_succ]
    rcases Nat.lt_or_ge s k with hk | hk
    · rw [List.indexOf_append_of_mem (by simpa using hk)]
      exact ih hk
    · have hsk : s = k := by omega
      subst hsk
      rw [List.indexOf_append_of_not_mem (by simp), List.length_range]
      simp [List.indexOf_cons_self]

theorem canonicalW_map_indexOf {w : List Nat} (h : CanonicalW w) :
    (w.map fun s => (firstOccs w).indexOf s) = w := by
  have : ∀ s ∈ w, (firstOccs w).indexOf s = s := by
    intro s hs
    have : s ∈ firstOccs w := mem_firstOccs.2 hs
    rw [CanonicalW] at h
    rw [h] at this ⊢
    exact indexOf_range (by simpa using this)
  calc w.map (fun s => (firstOccs w).indexOf s) = w.map id := by
        exact List.map_congr_left this
    _ = w := List.map_id w

theorem firstOccs_of_nodup {l : List Nat} (hl : l.Nodup) : firstOccs l = l := by
  induction l with
  | nil => rfl
  | cons a l ih =>
    rw [List.nodup_cons] at hl
    rw [firstOccs, ih hl.2, List.filter_eq_self.2]
    intro b hb
    simp only [decide_eq_true_eq]
    rintro rfl
    exact hl.1 hb

/-! ### Dict lookup lemmas -/

theorem dlookup_cons (p : Nat × Ob) (st : List (Nat × Ob)) (s : Nat) :
    dlookup (p :: st) s =
      match dlookup st s with
      | some t => some t
      | none => if p.1 = s then some p.2 else none := by
  unfold dlookup
  rw [List.reverse_cons, List.find?_append]
  cases hf : List.find? (fun q => q.1 == s) st.reverse with
  | none =>
    by_cases hp : p.1 = s
    · simp [hp, List.find?_cons]
    · have hb : (p.1 == s) = false := beq_eq_false_iff_ne.2 hp
      simp [hb, hp, List.find?_cons]
  | some q => rfl

theorem dlookup_eq_none {st : List (Nat × Ob)} {s : Nat} :
    dlookup st s = none ↔ s ∉ st.map Prod.fst := by
  unfold dlookup
  rw [Option.map_eq_none', List.find?_eq_none]
  constructor
  · intro hall hmem
    rcases List.mem_map.1 hmem with ⟨q, hq, hqs⟩
    exact hall q (List.mem_reverse.2 hq) (by simp [hqs])
  · intro hmem q hq hqs
    exact hmem (List.mem_map.2 ⟨q, List.mem_reverse.1 hq, by simpa using hqs⟩)

theorem dlookup_enumFrom (ts : List Ob) (n i : Nat) (h : i < ts.length) :
    dlookup (List.enumFrom n ts) (n + i) = some (ts.getD i "") := by
  induction ts generalizing n i with
  | nil => simp at h
  | cons t ts ih =>
    rw [List.enumFrom_cons, dlookup_cons]
    cases i with
    | zero =>
      have hnone : dlookup (List.enumFrom (n + 1) ts) (n + 0) = none := by
        rw [dlookup_eq_none]
        intro hmem
        rcases List.mem_map.1 hmem with ⟨q, hq, hqs⟩
        obtain ⟨q1, q2⟩ := q
        have := List.mem_enumFrom hq
        simp only at hqs
        omega
      rw [hnone]
      simp
    | succ i =>
      have := ih (n + 1) i (by simpa using h)
      have heq : n + 1 + i = n + (i + 1) := by omega
      rw [heq] at this
      simp [this]

theorem dlookup_enum {ts : List Ob} {i : Nat} (h : i < ts.length) :
    dlookup ts.enum i = some (ts.getD i "") := by
  have := dlookup_enumFrom ts 0 i h
  simpa using this

theorem dlookup_enum_isSome_iff {ts : List Ob} {s : Nat} :
    (dlookup ts.enum s).isSome ↔ s < ts.length := by
  constructor
  · intro hs
    by_contra hlt
    have : dlookup ts.enum s = none := by
      rw [dlookup_eq_none, List.enum_map_fst]
      simpa using hlt
    rw [this] at hs
    simp at hs
  · intro hs
    rw [dlookup_enum hs]
    rfl

/-! ### Lemmas about the type list computation -/

theorem typesOf_nil (st : List (Nat × Ob)) : typesOf st [] = some [] := rfl

theorem typesOf_cons (st : List (Nat × Ob)) (s : Nat) (l : List Nat) :
    typesOf st (s :: l) =
      match dlookup st s with
      | none => none
      | some t =>
        match typesOf st l with
        | none => none
        | some ts => some (t :: ts) := by
  show (do
    let t ← dlookup st s
    let ts ← typesOf st l
    pure (t :: ts)) = _
  cases dlookup st s <;> cases typesOf st l <;> rfl

theorem typesOf_length {st : List (Nat × Ob)} {l : List Nat} {ts : List Ob}
    (h : typesOf st l = some ts) : ts.length = l.length := by
  induction l generalizing ts with
  | nil => rw [typesOf_nil] at h; cases h; rfl
  | cons s l ih =>
    rw [typesOf_cons] at h
    cases h1 : dlookup st s with
    | none => rw [h1] at h; cases h
    | some t =>
      rw [h1] at h
      cases h2 : typesOf st l with
      | none => rw [h2] at h; cases h
      | some ts2 =>
        rw [h2] at h
        cases h
        simp [ih h2]

theorem typesOf_isSome_mem {st : List (Nat × Ob)} {l : List Nat} {ts : List Ob}
    (h : typesOf st l = some ts) : ∀ s ∈ l, (dlookup st s).isSome := by
  induction l generalizing ts with
  | nil => intro s hs; simp at hs
  | cons a l ih =>
    rw [typesOf_cons] at h
    intro s hs
    cases h1 : dlookup st a with
    | none => rw [h1] at h; cases h
    | some t =>
      rw [h1] at h
      cases h2 : typesOf st l with
      | none => rw [h2] at h; cases h
      | some ts2 =>
        rcases List.mem_cons.1 hs with rfl | hs2
        · simp [h1]
        · exact ih h2 s hs2

theorem typesOf_of_all_some {st : List (Nat × Ob)} {l : List Nat}
    (h : ∀ s ∈ l, (dlookup st s).isSome) :
    typesOf st l = some (l.map fun s => (dlookup st s).getD "") := by
  induction l with
  | nil => rfl
  | cons a l ih =>
    rw [typesOf_cons]
    have ha := h a (List.mem_cons_self _ _)
    cases h1 : dlookup st a with
    | none => rw [h1] at ha; simp at ha
    | some t =>
      rw [ih fun s hs => h s (List.mem_cons_of_mem _ hs)]
      simp [h1]

theorem typesOf_enum_range (ts : List Ob) :
    typesOf ts.enum (List.range ts.length) = some ts := by
  rw [typesOf_of_all_some]
  · congr 1
    apply List.ext_getElem
    · simp
    · intro i h1 h2
      simp only [List.getElem_map, List.getElem_range]
      rw [dlookup_enum (by simpa using h1)]
      simp [List.getD_eq_getElem?_getD, List.getElem?_eq_getElem h2]
  · intro s hs
    rw [dlookup_enum_isSome_iff]
    simpa using hs

/-! ### The relabeling of the constructor -/

theorem filter_range_not_mem_range {k n : Nat} (h : k ≤ n) :
    (List.range n).filter (fun s => decide (s ∉ List.range k))
      = List.range' k (n - k) := by
  induction n with
  | zero =>
    have : k = 0 := Nat.le_zero.1 h
    subst this
    rfl
  | succ n ih =>
    by_cases hk : k ≤ n
    · rw [List.range_succ, List.filter_append, ih hk]
      have hmem : (n ∉ List.range k) := by simp; omega
      have : (n + 1) - k = (n - k) + 1 := by omega
      rw [this, List.range'_concat]
      simp only [List.filter_cons, List.filter_nil]
      rw [if_pos (by simpa using hmem)]
      congr 2
      omega
    · have hkn : k = n + 1 := by omega
      subst hkn
      rw [Nat.sub_self]
      simp only [List.range'_zero, List.filter_eq_nil_iff]
      intro a ha
      simp only [decide_eq_true_eq, Decidable.not_not]
      exact ha

theorem sorted_le_range'_one (s n : Nat) :
    List.Sorted (· ≤ ·) (List.range' s n) := by
  have := List.pairwise_lt_range' s n 1 (by omega)
  exact this.imp fun h => Nat.le_of_lt h

theorem relabelingOf_range {w : List Nat} {n : Nat} (hcan : CanonicalW w)
    (hk : (firstOccs w).length ≤ n) :
    relabelingOf w (List.range n) = List.range n := by
  unfold relabelingOf
  rw [firstOccs_of_nodup (List.nodup_range n)]
  rw [hcan, filter_range_not_mem_range (by simpa [List.length_range] using hk)]
  rw [List.Sorted.insertionSort_eq (sorted_le_range'_one _ _)]
  rw [hcan] at hk
  simp only [List.length_range] at hk
  rw [List.range_eq_range' n, List.range_eq_range' (firstOccs w).length]
  have := List.range'_append 0 (firstOccs w).length (n - (firstOccs w).length) 1
  simp only [Nat.one_mul, Nat.zero_add] at this
  have h2 : n - (firstOccs w).length + (firstOccs w).length = n := by omega
  rw [h2] at this
  exact this

/-! ### Constructor inversion and the canonical-label invariant -/

theorem mkH_ok_elim {dom cod : Ty} {boxes : List Box} {wires : List Nat}
    {st : List (Nat × Ob)} {offs : Option (List (Option Nat))} {h : Hypergraph}
    (hmk : Hypergraph.mkH dom cod boxes wires st offs = .ok h) :
    h.dom = dom ∧ h.cod = cod ∧ h.boxes = boxes
      ∧ h.wires = wires.map (fun s =>
          (relabelingOf wires (st.map Prod.fst)).indexOf s)
      ∧ typesOf st (relabelingOf wires (st.map Prod.fst)) = some h.spider_types
      ∧ wires.length = (Hypergraph.portTypes dom cod boxes).length
      ∧ h.typeCheck = true
      ∧ h.offsets = offs.getD (List.replicate boxes.length none) := by
  unfold Hypergraph.mkH at hmk
  split at hmk
  · cases hmk
  · rename_i hlen
    dsimp only at hmk
    split at hmk
    · cases hmk
    · rename_i types hty
      split at hmk
      · rename_i htc
        cases hmk
        refine ⟨rfl, rfl, rfl, rfl, hty, by omega, htc, rfl⟩
      · cases hmk

theorem mkH_wires_canonical {wires : List Nat} {keys : List Nat} :
    wires.map (fun s => (relabelingOf wires keys).indexOf s)
      = wires.map (fun s => (firstOccs wires).indexOf s) := by
  apply List.map_congr_left
  intro s hs
  unfold relabelingOf
  exact List.indexOf_append_of_mem (mem_firstOccs.2 hs)

theorem mkH_valid {dom cod : Ty} {boxes : List Box} {wires : List Nat}
    {st : List (Nat × Ob)} {offs : Option (List (Option Nat))} {h : Hypergraph}
    (hmk : Hypergraph.mkH dom cod boxes wires st offs = .ok h) :
    h.Valid := by
  obtain ⟨hd, hc, hb, hw, hty, hlen, htc, _⟩ := mkH_ok_elim hmk
  rw [mkH_wires_canonical] at hw
  have hcanon : CanonicalW h.wires := by
    rw [hw, CanonicalW, firstOccs_map_indexOf]
    simp
  refine ⟨?_, hcanon, ?_, htc⟩
  · rw [hw]
    simp only [List.length_map]
    rw [Hypergraph.ports, hd, hc, hb]
    exact hlen
  · have hlenty := typesOf_length hty
    have h1 : (firstOccs h.wires).length ≤ (relabelingOf wires (st.map Prod.fst)).length := by
      rw [hw, firstOccs_map_indexOf]
      unfold relabelingOf
      simp only [List.length_range, List.length_append]
      omega
    rw [Hypergraph.n_spiders, hlenty]
    exact h1

theorem mkH_canonical_pair {dom cod : Ty} {boxes : List Box} {wires : List Nat}
    {ts : List Ob} {offs : Option (List (Option Nat))} {h : Hypergraph}
    (hcan : CanonicalW wires)
    (hmk : Hypergraph.mkH dom cod boxes wires ts.enum offs = .ok h) :
    h.wires = wires ∧ h.spider_types = ts := by
  obtain ⟨_, _, _, hw, hty, _, _, _⟩ := mkH_ok_elim hmk
  rw [List.enum_map_fst] at hw hty
  have hk : (firstOccs wires).length ≤ ts.length := by
    rcases Nat.eq_zero_or_pos (firstOccs wires).length with h0 | h0
    · omega
    · have hmem : (firstOccs wires).length - 1 ∈ firstOccs wires := by
        rw [hcan]
        simp only [List.mem_range, List.length_range]
        omega
      have : ((firstOccs wires).length - 1) ∈ relabelingOf wires (List.range ts.length) := by
        unfold relabelingOf
        exact List.mem_append_left _ hmem
      have hsome := typesOf_isSome_mem hty _ this
      rw [dlookup_enum_isSome_iff] at hsome
      omega
  rw [relabelingOf_range hcan hk] at hw hty
  constructor
  · rw [hw]
    have : ∀ s ∈ wires, (List.range ts.length).indexOf s = s := by
      intro s hs
      have : s ∈ firstOccs wires := mem_firstOccs.2 hs
      rw [hcan] at this
      simp only [List.mem_range] at this
      exact indexOf_range (by omega)
    calc wires.map (fun s => (List.range ts.length).indexOf s)
        = wires.map id := List.map_congr_left this
      _ = wires := List.map_id wires
  · rw [typesOf_enum_range] at hty
    exact (Option.some_inj.1 hty).symm

theorem canonical_invariant {h : Hypergraph}
    (hv : CanonicalW h.wires) (hb : (firstOccs h.wires).length ≤ h.n_spiders) :
    (∀ v ∈ h.wires, v < h.n_spiders)
      ∧ CanonicalW h.wires
      ∧ (∀ v, v < h.n_spiders → v ∉ h.wires → ∀ u ∈ h.wires, u < v) := by
  have hmem : ∀ v ∈ h.wires, v < (firstOccs h.wires).length := by
    intro v hvw
    have : v ∈ firstOccs h.wires := mem_firstOccs.2 hvw
    rw [hv] at this
    simpa using this
  refine ⟨fun v hvw => lt_of_lt_of_le (hmem v hvw) hb, hv, ?_⟩
  intro v _ hvnot u huw
  have hu := hmem u huw
  have hvge : (firstOccs h.wires).length ≤ v := by
    by_contra hlt
    exact hvnot (mem_firstOccs.1 (hv ▸ List.mem_range.2 (by omega)))
  omega

theorem mbStep_as_mkH (h : Hypergraph) (s : Nat) :
    ∃ dom cod boxes wires st offs,
      Hypergraph.mbStep h s = Hypergraph.mkH dom cod boxes wires st offs := by
  unfold Hypergraph.mbStep
  exact ⟨_, _, _, _, _, _, rfl⟩

theorem mbFuel_reach {n : Nat} {h h' : Hypergraph}
    (hmb : Hypergraph.mbFuel n h = .ok h') :
    h' = h ∨ ∃ dom cod boxes wires st offs,
      Hypergraph.mkH dom cod boxes wires st offs = .ok h' := by
  induction n generalizing h with
  | zero =>
    rw [Hypergraph.mbFuel] at hmb
    exact .inl (Except.ok.inj hmb).symm
  | succ n ih =>
    rw [Hypergraph.mbFuel] at hmb
    cases hf : Hypergraph.mbFind h with
    | none =>
      rw [hf] at hmb
      exact .inl (Except.ok.inj hmb).symm
    | some s =>
      rw [hf] at hmb
      dsimp only at hmb
      cases hs : Hypergraph.mbStep h s with
      | error e => rw [hs] at hmb; cases hmb
      | ok h1 =>
        rw [hs] at hmb
        simp only [Bind.bind, Except.bind] at hmb
        rcases ih hmb with rfl | hex
        · right
          obtain ⟨dom, cod, boxes, wires, st, offs, heq⟩ := mbStep_as_mkH h s
          rw [heq] at hs
          exact ⟨dom, cod, boxes, wires, st, offs, hs⟩
        · exact .inr hex

theorem reachable_valid {h : Hypergraph} (hr : h.Reachable) :
    CanonicalW h.wires ∧ (firstOccs h.wires).length ≤ h.n_spiders := by
  induction hr with
  | mk hmk =>
    obtain ⟨_, hc, hk, _⟩ := mkH_valid hmk
    exact ⟨hc, hk⟩
  | mb hr hmb ih =>
    rcases mbFuel_reach hmb with rfl | ⟨_, _, _, _, _, _, hmk⟩
    · exact ih
    · obtain ⟨_, hc, hk, _⟩ := mkH_valid hmk
      exact ⟨hc, hk⟩

/-! ### Claim C5: canonicalization is canonical and idempotent -/

/-- C5: constructing a hypergraph from an already-canonical
`(wires, spider_types)` pair (spiders named in order of first occurrence
along the wires, declared-but-unreferenced scalar spiders labeled last,
i.e. the spider types passed as an enumerated list) reproduces exactly the
same `(wires, spider_types)` pair; and for every input, the constructed
wires list spider ids in order of first occurrence, followed by scalar
spiders that are larger than every occurring id. -/
theorem C5_canonicalization :
    (∀ (dom cod : Ty) (boxes : List Box) (wires : List Nat) (ts : List Ob)
        (offs : Option (List (Option Nat))) (h : Hypergraph),
        CanonicalW wires →
        Hypergraph.mkH dom cod boxes wires ts.enum offs = .ok h →
        h.wires = wires ∧ h.spider_types = ts)
    ∧ (∀ (dom cod : Ty) (boxes : List Box) (wires : List Nat)
        (st : List (Nat × Ob)) (offs : Option (List (Option Nat)))
        (h : Hypergraph),
        Hypergraph.mkH dom cod boxes wires st offs = .ok h →
        CanonicalW h.wires
          ∧ ∀ v, v < h.n_spiders → v ∉ h.wires → ∀ u ∈ h.wires, u < v) := by
  constructor
  · intro _ _ _ _ _ _ _ hcan hmk
    exact mkH_canonical_pair hcan hmk
  · intro _ _ _ _ _ _ h hmk
    obtain ⟨_, hc, hk, _⟩ := mkH_valid hmk
    obtain ⟨_, h2, h3⟩ := canonical_invariant hc hk
    exact ⟨h2, h3⟩

/-- Witness for C5 at a concrete canonical input. -/
theorem C5_canonicalization_witness :
    CanonicalW [0, 0]
      ∧ Hypergraph.exIdX.wires = [0, 0]
      ∧ Hypergraph.exIdX.spider_types = ["x"] :=
  ⟨rfl,
   C5_canonicalization.1 ["x"] ["x"] [] [0, 0] ["x"] none Hypergraph.exIdX rfl rfl⟩

/-! ### Claim C9: the canonical-label invariant on reachable values -/

/-- C9: every hypergraph value reachable through the public constructor or
any operator satisfies the canonical-label invariant: every wires entry is
a spider index below `n_spiders`, first occurrences along the wires are
exactly `0, 1, 2, ...` in order, and every spider id absent from the wires
(a scalar spider) is larger than every id that occurs. -/
theorem C9_reachable_invariant (h : Hypergraph) (hr : h.Reachable) :
    (∀ v ∈ h.wires, v < h.n_spiders)
      ∧ CanonicalW h.wires
      ∧ (∀ v, v < h.n_spiders → v ∉ h.wires → ∀ u ∈ h.wires, u < v) := by
  obtain ⟨hc, hk⟩ := reachable_valid hr
  exact canonical_invariant hc hk

/-- Witness for C9 at a concrete constructor output. -/
theorem C9_reachable_invariant_witness :
    (∀ v ∈ Hypergraph.exIdX.wires, v < Hypergraph.exIdX.n_spiders)
      ∧ CanonicalW Hypergraph.exIdX.wires
      ∧ (∀ v, v < Hypergraph.exIdX.n_spiders → v ∉ Hypergraph.exIdX.wires →
          ∀ u ∈ Hypergraph.exIdX.wires, u < v) :=
  C9_reachable_invariant Hypergraph.exIdX
    (.mk (show Hypergraph.mkH ["x"] ["x"] [] [0, 0] (["x"] : List Ob).enum none
      = .ok Hypergraph.exIdX from rfl))

/-! ### Characterization of the spider wires computation -/

namespace Hypergraph

theorem zip_replicate_right (xs : List Nat) (v : Bool) :
    xs.zip (List.replicate xs.length v) = xs.map (fun x => (x, v)) := by
  induction xs with
  | nil => rfl
  | cons a l ih => simp [List.replicate_succ, ih]

theorem addAll_eq_swJobs (seg : List Nat) (res : List (List Nat × List Nat))
    (side : Bool) (base : Nat) :
    addAll res side seg base = swJobs res (seg.map (fun s => (s, side))) base := by
  induction seg generalizing res base with
  | nil => rfl
  | cons s seg ih => simp only [addAll, swJobs, List.map_cons, ih]

theorem swJobs_append (l1 l2 : List (Nat × Bool))
    (res : List (List Nat × List Nat)) (i : Nat) :
    swJobs res (l1 ++ l2) i = swJobs (swJobs res l1 i) l2 (i + l1.length) := by
  induction l1 generalizing res i with
  | nil => rfl
  | cons q l1 ih =>
    simp only [List.cons_append, swJobs, List.append_eq, ih, List.length_cons]
    have : i + 1 + l1.length = i + (l1.length + 1) := by omega
    rw [this]

theorem zip_replicate_of_length (xs : List Nat) (n : Nat) (v : Bool)
    (h : xs.length = n) :
    xs.zip (List.replicate n v) = xs.map (fun x => (x, v)) := by
  subst h
  exact zip_replicate_right xs v

theorem swBoxes_eq_swJobs (bw : List (List Nat × List Nat))
    (res : List (List Nat × List Nat)) (np : Nat) :
    swBoxes res bw np
      = (swJobs res (jobsOfBoxes bw) np,
         np + (bw.map (fun p => p.1.length + p.2.length)).sum) := by
  induction bw generalizing res np with
  | nil => rfl
  | cons p bw ih =>
    obtain ⟨dw, cw⟩ := p
    simp only [swBoxes, ih, addAll_eq_swJobs]
    rw [Prod.mk.injEq]
    refine ⟨?_, ?_⟩
    · simp only [jobsOfBoxes, List.map_cons, List.flatten_cons]
      rw [swJobs_append, swJobs_append]
      have h1 : np + (dw.map (fun s => (s, false))).length = np + dw.length := by
        simp
      have h2 : np + ((dw.map fun s => (s, false))
          ++ (cw.map fun s => (s, true))).length
          = np + dw.length + cw.length := by
        simp only [List.length_append, List.length_map]
        omega
      rw [h1, h2]
    · simp only [List.map_cons, List.sum_cons]
      omega

theorem portTypes_length (dom cod : Ty) (boxes : List Box) :
    (portTypes dom cod boxes).length
      = dom.length + (boxes.map (fun b => b.dom.length + b.cod.length)).sum
        + cod.length := by
  simp only [portTypes, List.length_append, List.length_flatten, List.map_map]
  have : List.map (List.length ∘ fun b => b.dom ++ b.cod) boxes
      = List.map (fun b => b.dom.length + b.cod.length) boxes :=
    List.map_congr_left (by intro b _; simp)
  rw [this]

theorem portRoles_length (dom cod : Ty) (boxes : List Box) :
    (portRoles dom cod boxes).length
      = dom.length + (boxes.map (fun b => b.dom.length + b.cod.length)).sum
        + cod.length := by
  simp only [portRoles, List.length_append, List.length_flatten, List.map_map,
    List.length_replicate]
  have : List.map (List.length ∘ fun b =>
        List.replicate b.dom.length false ++ List.replicate b.cod.length true)
        boxes
      = List.map (fun b => b.dom.length + b.cod.length) boxes :=
    List.map_congr_left (by intro b _; simp)
  rw [this]

theorem boxWiresAux_lengths (boxes : List Box) (wires : List Nat) (i : Nat)
    (hle : i + (boxes.map (fun b => b.dom.length + b.cod.length)).sum
      ≤ wires.length) :
    (boxWiresAux wires boxes i).map (fun p => (p.1.length, p.2.length))
      = boxes.map (fun b => (b.dom.length, b.cod.length)) := by
  induction boxes generalizing i with
  | nil => rfl
  | cons b bs ih =>
    simp only [List.map_cons, List.sum_cons] at hle ⊢
    rw [boxWiresAux]
    simp only [List.map_cons, List.cons.injEq]
    refine ⟨?_, ih (i + b.dom.length + b.cod.length) (by omega)⟩
    rw [Prod.mk.injEq]
    simp only [List.length_take, List.length_drop]
    constructor <;> omega

theorem zip_boxSegments (boxes : List Box) (wires : List Nat) (i : Nat)
    (hle : i + (boxes.map (fun b => b.dom.length + b.cod.length)).sum
      ≤ wires.length) :
    ((wires.drop i).take
        ((boxes.map (fun b => b.dom.length + b.cod.length)).sum)).zip
      ((boxes.map fun b => List.replicate b.dom.length false
          ++ List.replicate b.cod.length true).flatten)
      = jobsOfBoxes (boxWiresAux wires boxes i) := by
  induction boxes generalizing i with
  | nil => simp [jobsOfBoxes, boxWiresAux]
  | cons b bs ih =>
    simp only [List.map_cons, List.sum_cons, List.flatten_cons] at hle ⊢
    rw [boxWiresAux]
    have hsplit : (wires.drop i).take
        (b.dom.length + b.cod.length
          + (bs.map (fun b => b.dom.length + b.cod.length)).sum)
        = (wires.drop i).take b.dom.length
          ++ ((wires.drop (i + b.dom.length)).take b.cod.length
          ++ (wires.drop (i + b.dom.length + b.cod.length)).take
              ((bs.map (fun b => b.dom.length + b.cod.length)).sum)) := by
      rw [List.take_add, List.take_add, List.drop_drop, List.drop_drop,
        List.append_assoc]
      have e2 : i + (b.dom.length + b.cod.length)
          = i + b.dom.length + b.cod.length := by omega
      rw [e2]
    rw [hsplit]
    have hd : ((wires.drop i).take b.dom.length).length = b.dom.length := by
      simp only [List.length_take, List.length_drop]
      omega
    have hc : ((wires.drop (i + b.dom.length)).take b.cod.length).length
        = b.cod.length := by
      simp only [List.length_take, List.length_drop]
      omega
    rw [List.append_assoc]
    have hz1 := @List.zip_append Nat Bool
      ((wires.drop i).take b.dom.length)
      ((wires.drop (i + b.dom.length)).take b.cod.length
        ++ (wires.drop (i + b.dom.length + b.cod.length)).take
            ((bs.map (fun b => b.dom.length + b.cod.length)).sum))
      (List.replicate b.dom.length false)
      (List.replicate b.cod.length true
        ++ (bs.map fun b => List.replicate b.dom.length false
            ++ List.replicate b.cod.length true).flatten)
      (by simp [hd])
    rw [hz1]
    have hz2 := @List.zip_append Nat Bool
      ((wires.drop (i + b.dom.length)).take b.cod.length)
      ((wires.drop (i + b.dom.length + b.cod.length)).take
          ((bs.map (fun b => b.dom.length + b.cod.length)).sum))
      (List.replicate b.cod.length true)
      ((bs.map fun b => List.replicate b.dom.length false
          ++ List.replicate b.cod.length true).flatten)
      (by simp [hc])
    rw [hz2]
    rw [zip_replicate_of_length _ _ _ hd, zip_replicate_of_length _ _ _ hc]
    rw [jobsOfBoxes, List.map_cons, List.flatten_cons, ← jobsOfBoxes]
    rw [ih (i + b.dom.length + b.cod.length) (by omega)]
    simp [List.append_assoc]

theorem selPos_nil (s : Nat) (side : Bool) (i : Nat) :
    selPos s side [] i = [] := rfl

theorem selPos_cons (s : Nat) (side : Bool) (q : Nat × Bool)
    (l : List (Nat × Bool)) (i : Nat) :
    selPos s side (q :: l) i
      = (if q.1 = s ∧ q.2 = side then [i] else []) ++ selPos s side l (i + 1) :=
  rfl

theorem addTo_length (res : List (List Nat × List Nat)) (side : Bool)
    (w i : Nat) : (addTo res side w i).length = res.length := by
  unfold addTo
  cases hg : res.get? w with
  | none => rfl
  | some p =>
    obtain ⟨ins, outs⟩ := p
    cases side <;> simp [List.length_set]

theorem addTo_getD_ne (res : List (List Nat × List Nat)) (side : Bool)
    (w i s : Nat) (hne : s ≠ w) :
    (addTo res side w i).getD s ([], []) = res.getD s ([], []) := by
  have hkey : ∀ (v : List Nat × List Nat),
      (res.set w v).getD s ([], []) = res.getD s ([], []) := by
    intro v
    rw [List.getD_eq_getElem?_getD, List.getD_eq_getElem?_getD,
      List.getElem?_set_ne (fun heq => hne heq.symm)]
  unfold addTo
  cases hg : res.get? w with
  | none => rfl
  | some p =>
    obtain ⟨ins, outs⟩ := p
    cases side <;> simp only [Bool.false_eq_true, if_true, if_false, ite_true,
      ite_false] <;> exact hkey _

theorem addTo_getD_self (res : List (List Nat × List Nat)) (side : Bool)
    (w i : Nat) (hw : w < res.length)
    (hni : i ∉ (res.getD w ([], [])).1) (hno : i ∉ (res.getD w ([], [])).2) :
    (addTo res side w i).getD w ([], [])
      = (if side then ((res.getD w ([], [])).1 ++ [i], (res.getD w ([], [])).2)
         else ((res.getD w ([], [])).1, (res.getD w ([], [])).2 ++ [i])) := by
  have hres : res.getD w ([], []) = res[w] := by
    rw [List.getD_eq_getElem?_getD, List.getElem?_eq_getElem hw]
    rfl
  rw [hres] at hni hno ⊢
  unfold addTo
  rw [List.get?_eq_getElem?, List.getElem?_eq_getElem hw]
  rcases hrw : res[w] with ⟨ins, outs⟩
  rw [hrw] at hni hno
  cases side <;> simp [hni, hno] <;> (rw [List.getElem?_set_self hw]; rfl)

/-- Freshness bound: every recorded position in the accumulator is below the
next position to be processed. -/
def ResBounded (res : List (List Nat × List Nat)) (i : Nat) : Prop :=
  ∀ p ∈ res, (∀ x ∈ p.1, x < i) ∧ (∀ x ∈ p.2, x < i)

theorem resBounded_addTo {res : List (List Nat × List Nat)} {i : Nat}
    (hb : ResBounded res i) (side : Bool) (w : Nat) :
    ResBounded (addTo res side w i) (i + 1) := by
  intro p hp
  unfold addTo at hp
  have hof : ∀ q ∈ res, (∀ x ∈ q.1, x < i + 1) ∧ (∀ x ∈ q.2, x < i + 1) := by
    intro q hq
    obtain ⟨h1, h2⟩ := hb q hq
    exact ⟨fun x hx => Nat.lt_succ_of_lt (h1 x hx),
           fun x hx => Nat.lt_succ_of_lt (h2 x hx)⟩
  cases hg : res.get? w with
  | none => rw [hg] at hp; exact hof p hp
  | some q =>
    obtain ⟨ins, outs⟩ := q
    have hmemq : (ins, outs) ∈ res := by
      rw [List.get?_eq_getElem?] at hg
      exact List.getElem?_mem hg
    obtain ⟨hbi, hbo⟩ := hb _ hmemq
    rw [hg] at hp
    replace hp : p ∈
        if side = true then
          res.set w (if i ∈ ins then ins else ins ++ [i], outs)
        else res.set w (ins, if i ∈ outs then outs else outs ++ [i]) := hp
    split at hp <;> rcases List.mem_or_eq_of_mem_set hp with hmem | rfl
    · exact hof p hmem
    · refine ⟨?_, fun x hx => Nat.lt_succ_of_lt (hbo x hx)⟩
      intro x hx
      split at hx
      · exact Nat.lt_succ_of_lt (hbi x hx)
      · rcases List.mem_append.1 hx with hx | hx
        · exact Nat.lt_succ_of_lt (hbi x hx)
        · simp only [List.mem_singleton] at hx
          omega
    · exact hof p hmem
    · refine ⟨fun x hx => Nat.lt_succ_of_lt (hbi x hx), ?_⟩
      intro x hx
      split at hx
      · exact Nat.lt_succ_of_lt (hbo x hx)
      · rcases List.mem_append.1 hx with hx | hx
        · exact Nat.lt_succ_of_lt (hbo x hx)
        · simp only [List.mem_singleton] at hx
          omega

theorem swJobs_length (jobs : List (Nat × Bool)) :
    ∀ (res : List (List Nat × List Nat)) (i : Nat),
    (swJobs res jobs i).length = res.length := by
  induction jobs with
  | nil => intro res i; rfl
  | cons q rest ih =>
    intro res i
    rw [swJobs, ih, addTo_length]

theorem swJobs_getD (jobs : List (Nat × Bool)) :
    ∀ (i : Nat) (res : List (List Nat × List Nat)),
    ResBounded res i → ∀ s, s < res.length →
    (swJobs res jobs i).getD s ([], [])
      = ((res.getD s ([], [])).1 ++ selPos s true jobs i,
         (res.getD s ([], [])).2 ++ selPos s false jobs i) := by
  induction jobs with
  | nil =>
    intro i res _ s _
    simp [swJobs, selPos_nil]
  | cons q rest ih =>
    intro i res hb s hs
    obtain ⟨w, r⟩ := q
    rw [swJobs]
    have hlen : s < (addTo res r w i).length := by rw [addTo_length]; exact hs
    rw [ih (i + 1) _ (resBounded_addTo hb r w) s hlen]
    rw [selPos_cons, selPos_cons]
    by_cases hsw : s = w
    · subst hsw
      have hgd : res.getD s ([], []) = res[s] := by
        rw [List.getD_eq_getElem?_getD, List.getElem?_eq_getElem hs]
        rfl
      have hmem : res[s] ∈ res := List.getElem_mem hs
      obtain ⟨hb1, hb2⟩ := hb _ hmem
      have hni : i ∉ (res.getD s ([], [])).1 := by
        rw [hgd]; intro hmemi; exact absurd (hb1 i hmemi) (by omega)
      have hno : i ∉ (res.getD s ([], [])).2 := by
        rw [hgd]; intro hmemi; exact absurd (hb2 i hmemi) (by omega)
      rw [addTo_getD_self res r s i hs hni hno]
      cases r <;> simp
    · rw [addTo_getD_ne res r w i s hsw]
      have hfalse1 : ¬ (w = s ∧ r = true) := fun hc => hsw hc.1.symm
      have hfalse2 : ¬ (w = s ∧ r = false) := fun hc => hsw hc.1.symm
      rw [if_neg hfalse1, if_neg hfalse2]
      simp

theorem box_wires_sum (h : Hypergraph)
    (hle : h.dom.length
        + (h.boxes.map (fun b => b.dom.length + b.cod.length)).sum
      ≤ h.wires.length) :
    (h.box_wires.map (fun p => p.1.length + p.2.length)).sum
      = (h.boxes.map (fun b => b.dom.length + b.cod.length)).sum := by
  have hlens := boxWiresAux_lengths h.boxes h.wires h.dom.length hle
  have h1 : h.box_wires.map (fun p => p.1.length + p.2.length)
      = (h.box_wires.map (fun p => (p.1.length, p.2.length))).map
          (fun q => q.1 + q.2) := by
    rw [List.map_map]
    rfl
  rw [box_wires] at h1 ⊢
  rw [h1, hlens, List.map_map]
  rfl

theorem roles_flatten_length (boxes : List Box) :
    ((boxes.map fun b => List.replicate b.dom.length false
        ++ List.replicate b.cod.length true).flatten).length
      = (boxes.map (fun b => b.dom.length + b.cod.length)).sum := by
  rw [List.length_flatten, List.map_map]
  have : List.map (List.length ∘ fun b =>
        List.replicate b.dom.length false ++ List.replicate b.cod.length true)
        boxes
      = List.map (fun b => b.dom.length + b.cod.length) boxes :=
    List.map_congr_left (by intro b _; simp)
  rw [this]

theorem zip_tiling (h : Hypergraph) (hlen : h.wires.length = h.ports.length) :
    h.wires.zip h.roles
      = ((h.wires.take h.dom.length).map (fun s => (s, true))
        ++ (jobsOfBoxes h.box_wires
        ++ (h.wires.drop (h.wires.length - h.cod.length)).map
            (fun s => (s, false)))) := by
  have hports := portTypes_length h.dom h.cod h.boxes
  rw [ports] at hlen
  have hw2 := List.take_append_drop
    ((h.boxes.map (fun b => b.dom.length + b.cod.length)).sum)
    (h.wires.drop h.dom.length)
  have hw1 := List.take_append_drop h.dom.length h.wires
  have hw : h.wires = h.wires.take h.dom.length
      ++ (((h.wires.drop h.dom.length).take
            ((h.boxes.map (fun b => b.dom.length + b.cod.length)).sum))
        ++ ((h.wires.drop h.dom.length).drop
            ((h.boxes.map (fun b => b.dom.length + b.cod.length)).sum))) := by
    rw [hw2, hw1]
  have hroles : h.roles = List.replicate h.dom.length true
      ++ (((h.boxes.map fun b => List.replicate b.dom.length false
            ++ List.replicate b.cod.length true).flatten)
        ++ List.replicate h.cod.length false) := by
    rw [roles, portRoles, List.append_assoc]
  have htake_len : (h.wires.take h.dom.length).length = h.dom.length := by
    simp only [List.length_take]
    omega
  have hmid_len : ((h.wires.drop h.dom.length).take
      ((h.boxes.map (fun b => b.dom.length + b.cod.length)).sum)).length
      = (h.boxes.map (fun b => b.dom.length + b.cod.length)).sum := by
    simp only [List.length_take, List.length_drop]
    omega
  conv_lhs => rw [hw, hroles]
  rw [List.zip_append (by rw [htake_len, List.length_replicate])]
  rw [List.zip_append (by rw [hmid_len, roles_flatten_length])]
  rw [zip_replicate_of_length _ _ _ htake_len]
  rw [zip_boxSegments h.boxes h.wires h.dom.length (by omega)]
  rw [← box_wires]
  have hdrop_eq : (h.wires.drop h.dom.length).drop
      ((h.boxes.map (fun b => b.dom.length + b.cod.length)).sum)
      = h.wires.drop (h.wires.length - h.cod.length) := by
    rw [List.drop_drop]
    congr 1
    omega
  rw [hdrop_eq]
  rw [zip_replicate_of_length _ _ _ (by simp only [List.length_drop]; omega)]

theorem spider_wires_unfold (h : Hypergraph) :
    h.spider_wires
      = addAll (swBoxes (addAll (List.replicate h.n_spiders ([], []))
            true (h.wires.take h.dom.length) 0) h.box_wires h.dom.length).1
          false (h.wires.drop (h.wires.length - h.cod.length))
          (swBoxes (addAll (List.replicate h.n_spiders ([], []))
            true (h.wires.take h.dom.length) 0) h.box_wires h.dom.length).2 := by
  rfl

theorem spider_wires_char (h : Hypergraph)
    (hlen : h.wires.length = h.ports.length) :
    h.spider_wires = (List.range h.n_spiders).map
      (fun s => (selPos s true (h.wires.zip h.roles) 0,
                 selPos s false (h.wires.zip h.roles) 0)) := by
  have hports := portTypes_length h.dom h.cod h.boxes
  have hlen2 := hlen
  rw [ports] at hlen2
  have hsum := box_wires_sum h (by omega)
  have htake_len : (h.wires.take h.dom.length).length = h.dom.length := by
    simp only [List.length_take]
    omega
  have hfold : h.spider_wires
      = swJobs (List.replicate h.n_spiders ([], [])) (h.wires.zip h.roles) 0 := by
    rw [spider_wires_unfold, addAll_eq_swJobs, addAll_eq_swJobs,
      swBoxes_eq_swJobs]
    rw [zip_tiling h hlen, swJobs_append, swJobs_append]
    have e1 : (0 : Nat) + ((h.wires.take h.dom.length).map
        (fun s => (s, true))).length = h.dom.length := by
      rw [List.length_map, htake_len]
      omega
    have e2 : (jobsOfBoxes h.box_wires).length
        = (h.box_wires.map (fun p => p.1.length + p.2.length)).sum := by
      rw [jobsOfBoxes, List.length_flatten, List.map_map]
      have : List.map (List.length ∘ fun p =>
            List.map (fun s => (s, false)) p.1 ++ List.map (fun s => (s, true)) p.2)
            h.box_wires
          = List.map (fun p => p.1.length + p.2.length) h.box_wires :=
        List.map_congr_left (by intro p _; simp)
      rw [this]
    rw [e1, e2]
  rw [hfold]
  have hb0 : ResBounded (List.replicate h.n_spiders ([], [])) 0 := by
    intro p hp
    rw [List.mem_replicate] at hp
    rw [hp.2]
    exact ⟨fun x hx => by simp at hx, fun x hx => by simp at hx⟩
  apply List.ext_getElem
  · rw [swJobs_length, List.length_replicate, List.length_map,
      List.length_range]
  · intro i h1 h2
    have hi : i < h.n_spiders := by
      rw [swJobs_length, List.length_replicate] at h1
      exact h1
    have hgd := swJobs_getD (h.wires.zip h.roles) 0
      (List.replicate h.n_spiders ([], [])) hb0 i
      (by rw [List.length_replicate]; exact hi)
    have hrep : (List.replicate h.n_spiders (([], []) : List Nat × List Nat)).getD
        i ([], []) = ([], []) := by
      rw [List.getD_eq_getElem?_getD, List.getElem?_replicate, if_pos hi]
      rfl
    rw [hrep] at hgd
    simp only [List.nil_append] at hgd
    have hleft : (swJobs (List.replicate h.n_spiders ([], []))
        (h.wires.zip h.roles) 0)[i]
        = (swJobs (List.replicate h.n_spiders ([], []))
            (h.wires.zip h.roles) 0).getD i ([], []) := by
      rw [List.getD_eq_getElem?_getD, List.getElem?_eq_getElem h1]
      rfl
    rw [hleft, hgd]
    rw [List.getElem_map, List.getElem_range]

theorem selPos_length (s : Nat) (side : Bool) (l : List (Nat × Bool)) :
    ∀ i, (selPos s side l i).length
      = l.countP (fun q => decide (q.1 = s) && decide (q.2 = side)) := by
  induction l with
  | nil => intro i; rfl
  | cons q rest ih =>
    intro i
    rw [selPos_cons, List.length_append, ih (i + 1), List.countP_cons]
    by_cases hc : q.1 = s ∧ q.2 = side
    · rw [if_pos hc]
      simp only [List.length_singleton]
      rw [if_pos (by simp [hc.1, hc.2])]
      omega
    · rw [if_neg hc]
      simp only [List.length_nil]
      rw [if_neg (by
        simp only [Bool.and_eq_true, decide_eq_true_eq]
        exact fun hand => hc hand)]
      omega

theorem sourceCount_eq_selPos (h : Hypergraph) (s : Nat) :
    sourceCount h s = (selPos s true (h.wires.zip h.roles) 0).length := by
  rw [sourceCount, ← List.countP_eq_length_filter, selPos_length]
  apply List.countP_congr
  intro q _
  cases hq : q.2 <;> simp [hq]

theorem sinkCount_eq_selPos (h : Hypergraph) (s : Nat) :
    sinkCount h s = (selPos s false (h.wires.zip h.roles) 0).length := by
  rw [sinkCount, ← List.countP_eq_length_filter, selPos_length]
  apply List.countP_congr
  intro q _
  cases hq : q.2 <;> simp [hq]

end Hypergraph

theorem mem_selPos (s : Nat) (side : Bool) (l : List (Nat × Bool)) :
    ∀ (i x : Nat), x ∈ Hypergraph.selPos s side l i
      ↔ ∃ j, j < l.length ∧ l[j]? = some (s, side) ∧ x = i + j := by
  induction l with
  | nil =>
    intro i x
    simp [Hypergraph.selPos_nil]
  | cons q rest ih =>
    intro i x
    rw [Hypergraph.selPos_cons, List.mem_append]
    constructor
    · rintro (hx | hx)
      · by_cases hc : q.1 = s ∧ q.2 = side
        · rw [if_pos hc] at hx
          simp only [List.mem_singleton] at hx
          subst hx
          refine ⟨0, by simp, ?_, by omega⟩
          simp only [List.getElem?_cons_zero, Option.some_inj]
          obtain ⟨h1, h2⟩ := hc
          obtain ⟨q1, q2⟩ := q
          simp only at h1 h2
          rw [h1, h2]
        · rw [if_neg hc] at hx
          simp at hx
      · rcases (ih (i + 1) x).1 hx with ⟨j, hj, hjs, rfl⟩
        refine ⟨j + 1, by simpa using hj, by simpa using hjs, by omega⟩
    · rintro ⟨j, hj, hjs, rfl⟩
      cases j with
      | zero =>
        left
        simp only [List.getElem?_cons_zero, Option.some_inj] at hjs
        rw [if_pos (by rw [hjs]; exact ⟨rfl, rfl⟩)]
        simp
      | succ j =>
        right
        refine (ih (i + 1) (i + (j + 1))).2 ⟨j, by simpa using hj, ?_, by omega⟩
        simpa using hjs

theorem typesOf_getD {st : List (Nat × Ob)} {l : List Nat} {ts : List Ob}
    (h : typesOf st l = some ts) :
    ∀ j, j < l.length → ts.getD j "" = (dlookup st (l.getD j 0)).getD "" := by
  induction l generalizing ts with
  | nil => intro j hj; simp at hj
  | cons a l ih =>
    rw [typesOf_cons] at h
    intro j hj
    cases h1 : dlookup st a with
    | none => rw [h1] at h; cases h
    | some t =>
      rw [h1] at h
      cases h2 : typesOf st l with
      | none => rw [h2] at h; cases h
      | some ts2 =>
        rw [h2] at h
        cases h
        cases j with
        | zero => simp [h1]
        | succ j =>
          have := ih h2 j (by simpa using hj)
          simpa using this

theorem zip_types_map_range (ts : List Ob)
    (f : Nat → (List Nat × List Nat)) :
    ts.zip ((List.range ts.length).map f)
      = (List.range ts.length).map (fun s => (ts.getD s "", f s)) := by
  apply List.ext_getElem
  · simp
  · intro i h1 h2
    have hi : i < ts.length := by simpa using h2
    rw [List.getElem_zip, List.getElem_map, List.getElem_map,
      List.getElem_range]
    have : ts.getD i "" = ts[i] := by
      rw [List.getD_eq_getElem?_getD, List.getElem?_eq_getElem hi]
      rfl
    rw [this]

theorem roles_length (h : Hypergraph) : h.roles.length = h.ports.length := by
  rw [Hypergraph.roles, Hypergraph.ports, Hypergraph.portRoles_length,
    Hypergraph.portTypes_length]

theorem typeCheck_iff (h : Hypergraph)
    (hlen : h.wires.length = h.ports.length)
    (hvals : ∀ v ∈ h.wires, v < h.n_spiders) :
    h.typeCheck = true ↔ ∀ i, i < h.wires.length →
      h.ports.getD i "" = h.spider_types.getD (h.wires.getD i 0) "" := by
  have hzlen : (h.wires.zip h.roles).length = h.wires.length := by
    rw [List.length_zip, roles_length h, hlen]
    omega
  rw [Hypergraph.typeCheck, Hypergraph.spider_wires_char h hlen]
  rw [show h.n_spiders = h.spider_types.length from rfl, zip_types_map_range]
  rw [List.all_eq_true]
  have hzget : ∀ j, j < h.wires.length →
      (h.wires.zip h.roles)[j]? = some (h.wires.getD j 0, h.roles.getD j false) := by
    intro j hj
    have hj2 : j < (h.wires.zip h.roles).length := by omega
    rw [List.getElem?_eq_getElem hj2, List.getElem_zip]
    have e1 : h.wires.getD j 0 = h.wires[j] := by
      rw [List.getD_eq_getElem?_getD, List.getElem?_eq_getElem hj]
      rfl
    have hj3 : j < h.roles.length := by rw [roles_length h]; omega
    have e2 : h.roles.getD j false = h.roles[j] := by
      rw [List.getD_eq_getElem?_getD, List.getElem?_eq_getElem hj3]
      rfl
    rw [e1, e2]
  constructor
  · intro hall i hi
    have hs : h.wires.getD i 0 < h.n_spiders := by
      apply hvals
      rw [List.getD_eq_getElem?_getD, List.getElem?_eq_getElem hi]
      exact List.getElem_mem hi
    have hmem := hall _ (List.mem_map.2
      ⟨h.wires.getD i 0, List.mem_range.2 hs, rfl⟩)
    simp only [List.all_eq_true, List.mem_append, beq_iff_eq] at hmem
    have hiin : i ∈ Hypergraph.selPos (h.wires.getD i 0) (h.roles.getD i false)
        (h.wires.zip h.roles) 0 := by
      rw [mem_selPos]
      exact ⟨i, by omega, hzget i hi, by omega⟩
    cases hrole : h.roles.getD i false
    · rw [hrole] at hiin
      exact hmem i (.inr hiin)
    · rw [hrole] at hiin
      exact hmem i (.inl hiin)
  · intro hpre p hp
    rcases List.mem_map.1 hp with ⟨s, hsmem, rfl⟩
    simp only [List.all_eq_true, List.mem_append, beq_iff_eq]
    intro i hi
    have hsel : ∃ side, i ∈ Hypergraph.selPos s side (h.wires.zip h.roles) 0 := by
      rcases hi with hi | hi
      · exact ⟨true, hi⟩
      · exact ⟨false, hi⟩
    obtain ⟨side, hside⟩ := hsel
    rw [mem_selPos] at hside
    obtain ⟨j, hj, hjs, rfl⟩ := hside
    have hjlt : j < h.wires.length := by omega
    rw [hzget j hjlt] at hjs
    have hws : h.wires.getD j 0 = s := by
      have := Option.some_inj.1 hjs
      exact congrArg Prod.fst this
    have := hpre j hjlt
    rw [hws] at this
    simpa using this

theorem dlookup_isSome_iff {st : List (Nat × Ob)} {s : Nat} :
    (dlookup st s).isSome ↔ s ∈ st.map Prod.fst := by
  constructor
  · intro hs
    by_contra hmem
    rw [dlookup_eq_none.2 hmem] at hs
    simp at hs
  · intro hmem
    cases h : dlookup st s with
    | none => exact absurd hmem (dlookup_eq_none.1 h)
    | some t => rfl

theorem mkH_ok_of_preCheck {dom cod : Ty} {boxes : List Box}
    {wires : List Nat} {st : List (Nat × Ob)}
    (offs : Option (List (Option Nat)))
    (hlen : wires.length = (Hypergraph.portTypes dom cod boxes).length)
    (hkeys : ∀ v ∈ wires, (dlookup st v).isSome)
    (hpre : ∀ i, i < wires.length →
      (Hypergraph.portTypes dom cod boxes).getD i ""
        = (dlookup st (wires.getD i 0)).getD "") :
    ∃ h, Hypergraph.mkH dom cod boxes wires st offs = .ok h := by
  have hall : ∀ s ∈ relabelingOf wires (st.map Prod.fst),
      (dlookup st s).isSome := by
    intro s hs
    rcases List.mem_append.1 hs with hs | hs
    · exact hkeys s (mem_firstOccs.1 hs)
    · have hmem : s ∈ (firstOccs (st.map Prod.fst)).filter
          (fun s => decide (s ∉ firstOccs wires)) :=
        (List.perm_insertionSort _ _).mem_iff.1 hs
      have : s ∈ st.map Prod.fst :=
        mem_firstOccs.1 (List.mem_of_mem_filter hmem)
      exact dlookup_isSome_iff.2 this
  unfold Hypergraph.mkH
  rw [if_neg (by omega)]
  dsimp only
  rw [typesOf_of_all_some hall]
  set rlb := relabelingOf wires (st.map Prod.fst) with hrelab
  set h0 : Hypergraph :=
    ⟨dom, cod, boxes, wires.map (fun s => rlb.indexOf s),
     rlb.map (fun s => (dlookup st s).getD ""),
     offs.getD (List.replicate boxes.length none)⟩ with hh0
  have hwlen : h0.wires.length = h0.ports.length := by
    show (wires.map _).length = _
    rw [List.length_map]
    exact hlen
  have hnsp : h0.n_spiders = rlb.length := by
    show (rlb.map _).length = _
    rw [List.length_map]
  have hvals : ∀ v ∈ h0.wires, v < h0.n_spiders := by
    intro v hv
    rcases List.mem_map.1 hv with ⟨w, hw, rfl⟩
    rw [hnsp]
    exact List.indexOf_lt_length.2 (List.mem_append_left _ (mem_firstOccs.2 hw))
  have htc : h0.typeCheck = true := by
    rw [typeCheck_iff h0 hwlen hvals]
    intro i hi
    rw [hwlen] at hi
    have hi2 : i < wires.length := by
      rw [hlen]
      exact hi
    have hw : h0.wires.getD i 0 = rlb.indexOf (wires.getD i 0) := by
      show (wires.map _).getD i 0 = _
      rw [List.getD_eq_getElem?_getD, List.getElem?_map,
        List.getElem?_eq_getElem hi2]
      simp only [Option.map_some', Option.getD_some]
      rw [List.getD_eq_getElem?_getD, List.getElem?_eq_getElem hi2]
      rfl
    have hmemw : wires.getD i 0 ∈ wires := by
      rw [List.getD_eq_getElem?_getD, List.getElem?_eq_getElem hi2]
      exact List.getElem_mem hi2
    have hmemrel : wires.getD i 0 ∈ rlb :=
      List.mem_append_left _ (mem_firstOccs.2 hmemw)
    have hidx : rlb.indexOf (wires.getD i 0) < rlb.length :=
      List.indexOf_lt_length.2 hmemrel
    have hty : h0.spider_types.getD (rlb.indexOf (wires.getD i 0)) ""
        = (dlookup st (wires.getD i 0)).getD "" := by
      show (rlb.map _).getD _ "" = _
      rw [List.getD_eq_getElem?_getD, List.getElem?_map,
        List.getElem?_eq_getElem hidx]
      simp only [Option.map_some', Option.getD_some]
      rw [List.getElem_indexOf hidx]
    rw [hw, hty]
    show (Hypergraph.portTypes dom cod boxes).getD i "" = _
    exact hpre i hi2
  refine ⟨h0, ?_⟩
  show (if h0.typeCheck = true then Except.ok h0
    else Except.error HErr.axiomError) = Except.ok h0
  rw [if_pos htc]

theorem relabelingOf_range_length {w : List Nat} {n : Nat}
    (hvals : ∀ v ∈ w, v < n) :
    (relabelingOf w (List.range n)).length = n := by
  unfold relabelingOf
  rw [List.length_append, firstOccs_of_nodup (List.nodup_range n)]
  rw [(List.perm_insertionSort _ _).length_eq]
  have hsub : ∀ a ∈ firstOccs w, a ∈ List.range n := by
    intro a ha
    rw [List.mem_range]
    exact hvals a (mem_firstOccs.1 ha)
  have hsplit := (List.length_eq_length_filter_add
    (l := List.range n) (fun s => decide (s ∈ firstOccs w)))
  have hcompl : (List.range n).filter (fun s => !decide (s ∈ firstOccs w))
      = (List.range n).filter (fun s => decide (s ∉ firstOccs w)) := by
    apply List.filter_congr
    intro a _
    simp
  have hin : ((List.range n).filter
      (fun s => decide (s ∈ firstOccs w))).length = (firstOccs w).length := by
    apply List.Perm.length_eq
    rw [List.perm_ext_iff_of_nodup ((List.nodup_range n).filter _)
      (nodup_firstOccs w)]
    intro a
    rw [List.mem_filter]
    simp only [decide_eq_true_eq]
    constructor
    · exact fun hp => hp.2
    · intro ha
      exact ⟨hsub a ha, ha⟩
  rw [List.length_range] at hsplit
  rw [hcompl, hin] at hsplit
  omega

theorem getD_merge_nat (w : List Nat) (i : Nat) (hi : i < w.length) :
    w.getD i 0 = w[i] := by
  rw [List.getD_eq_getElem?_getD, List.getElem?_eq_getElem hi]
  rfl

theorem getD_mem_nat (w : List Nat) (i : Nat) (hi : i < w.length) :
    w.getD i 0 ∈ w := by
  rw [getD_merge_nat w i hi]
  exact List.getElem_mem hi

theorem preCheck_append {pts1 pts2 : Ty} {w1 w2 : List Nat} {lk : Nat → Ob}
    (hl : w1.length = pts1.length)
    (h1 : Hypergraph.PreCheck pts1 w1 lk) (h2 : Hypergraph.PreCheck pts2 w2 lk) :
    Hypergraph.PreCheck (pts1 ++ pts2) (w1 ++ w2) lk := by
  intro i hi
  rw [List.length_append] at hi
  rw [List.getD_eq_getElem?_getD, List.getD_eq_getElem?_getD,
    List.getElem?_append, List.getElem?_append]
  by_cases hc : i < w1.length
  · rw [if_pos hc, if_pos (by omega)]
    have := h1 i hc
    rw [List.getD_eq_getElem?_getD, List.getD_eq_getElem?_getD] at this
    exact this
  · rw [if_neg (by omega), if_neg (by omega), hl]
    have := h2 (i - w1.length) (by omega)
    rw [List.getD_eq_getElem?_getD, List.getD_eq_getElem?_getD, hl] at this
    exact this

theorem preCheck_slice {pts : Ty} {w : List Nat} {lk : Nat → Ob}
    (h : Hypergraph.PreCheck pts w lk) (a b : Nat) :
    Hypergraph.PreCheck ((pts.drop a).take b) ((w.drop a).take b) lk := by
  intro i hi
  have hib : i < b := by
    have := List.length_take b (w.drop a)
    omega
  have hiw : a + i < w.length := by
    simp only [List.length_take, List.length_drop] at hi
    omega
  have e1 : ((pts.drop a).take b).getD i "" = pts.getD (a + i) "" := by
    rw [List.getD_eq_getElem?_getD, List.getElem?_take, if_pos hib,
      List.getElem?_drop, ← List.getD_eq_getElem?_getD]
  have e2 : ((w.drop a).take b).getD i 0 = w.getD (a + i) 0 := by
    rw [List.getD_eq_getElem?_getD, List.getElem?_take, if_pos hib,
      List.getElem?_drop, ← List.getD_eq_getElem?_getD]
  rw [e1, e2]
  exact h (a + i) hiw

theorem preCheck_shift {pts : Ty} {w : List Nat} {fT gT : Ty}
    (h : Hypergraph.PreCheck pts w (fun v => gT.getD v "")) :
    Hypergraph.PreCheck pts (w.map (fT.length + ·))
      (fun v => (fT ++ gT).getD v "") := by
  intro i hi
  rw [List.length_map] at hi
  have e1 : (w.map (fT.length + ·)).getD i 0 = fT.length + w.getD i 0 := by
    rw [List.getD_eq_getElem?_getD, List.getElem?_map,
      List.getElem?_eq_getElem hi]
    simp only [Option.map_some', Option.getD_some]
    rw [getD_merge_nat w i hi]
  rw [e1]
  have e2 : (fT ++ gT).getD (fT.length + w.getD i 0) ""
      = gT.getD (w.getD i 0) "" := by
    rw [List.getD_eq_getElem?_getD,
      List.getElem?_append_right (by omega)]
    rw [Nat.add_sub_cancel_left, ← List.getD_eq_getElem?_getD]
  show pts.getD i "" = (fT ++ gT).getD (fT.length + w.getD i 0) ""
  rw [e2]
  exact h i hi

theorem preCheck_keepLow {pts : Ty} {w : List Nat} {fT gT : Ty}
    (hb : ∀ v ∈ w, v < fT.length)
    (h : Hypergraph.PreCheck pts w (fun v => fT.getD v "")) :
    Hypergraph.PreCheck pts w (fun v => (fT ++ gT).getD v "") := by
  intro i hi
  have hv : w.getD i 0 < fT.length := hb _ (getD_mem_nat w i hi)
  have e : (fT ++ gT).getD (w.getD i 0) "" = fT.getD (w.getD i 0) "" := by
    rw [List.getD_eq_getElem?_getD, List.getElem?_append, if_pos hv,
      ← List.getD_eq_getElem?_getD]
  show pts.getD i "" = (fT ++ gT).getD (w.getD i 0) ""
  rw [e]
  exact h i hi

theorem boxTypes_flatten_length (boxes : List Box) :
    ((boxes.map fun b => b.dom ++ b.cod).flatten).length
      = (boxes.map (fun b => b.dom.length + b.cod.length)).sum := by
  rw [List.length_flatten, List.map_map]
  have : List.map (List.length ∘ fun b => b.dom ++ b.cod) boxes
      = List.map (fun b => b.dom.length + b.cod.length) boxes :=
    List.map_congr_left (by intro b _; simp)
  rw [this]

/-- The three wire segments of a valid hypergraph, with their port type
segments, all satisfy the per-port check against the spider types. -/
theorem valid_preCheck (h : Hypergraph) (hv : h.Valid) :
    Hypergraph.PreCheck h.ports h.wires
      (fun v => h.spider_types.getD v "") := by
  obtain ⟨hlen, hcan, hk, htc⟩ := hv
  have hvals : ∀ v ∈ h.wires, v < h.n_spiders := by
    intro v hvw
    have : v ∈ firstOccs h.wires := mem_firstOccs.2 hvw
    rw [hcan] at this
    rw [List.mem_range] at this
    omega
  intro i hi
  exact (typeCheck_iff h hlen hvals).1 htc i hi

theorem valid_wire_bound (h : Hypergraph) (hv : h.Valid) :
    ∀ v ∈ h.wires, v < h.n_spiders := by
  obtain ⟨_, hcan, hk, _⟩ := hv
  intro v hvw
  have : v ∈ firstOccs h.wires := mem_firstOccs.2 hvw
  rw [hcan] at this
  rw [List.mem_range] at this
  omega

theorem dlookup_enum_getD (ts : List Ob) (v : Nat) :
    (dlookup ts.enum v).getD "" = ts.getD v "" := by
  by_cases hv : v < ts.length
  · rw [dlookup_enum hv]
    rfl
  · have hnone : dlookup ts.enum v = none := by
      rw [dlookup_eq_none, List.enum_map_fst]
      simpa using hv
    rw [hnone, List.getD_eq_getElem?_getD, List.getElem?_eq_none (by omega)]

theorem tensor_ok (f g : Hypergraph) (hf : f.Valid) (hg : g.Valid) :
    ∃ h, Hypergraph.tensor f g = .ok h
      ∧ h.dom = f.dom ++ g.dom ∧ h.cod = f.cod ++ g.cod
      ∧ h.boxes = f.boxes ++ g.boxes
      ∧ h.n_spiders = f.n_spiders + g.n_spiders := by
  have hflen0 := hf.1
  have hglen0 := hg.1
  rw [Hypergraph.ports, Hypergraph.portTypes_length] at hflen0 hglen0
  have hfb := boxTypes_flatten_length f.boxes
  have hgb := boxTypes_flatten_length g.boxes
  have hfbound := valid_wire_bound f hf
  have hgbound := valid_wire_bound g hg
  -- the wire segments
  set fdW := f.wires.take f.dom.length with hfdW
  set gdW := (g.wires.take g.dom.length).map (f.n_spiders + ·) with hgdW
  set fbW := (f.wires.drop f.dom.length).take
    (f.wires.length - f.dom.length - f.cod.length) with hfbW
  set gbW := ((g.wires.drop g.dom.length).take
    (g.wires.length - g.dom.length - g.cod.length)).map
    (f.n_spiders + ·) with hgbW
  set fcW := f.wires.drop (f.wires.length - f.cod.length) with hfcW
  set gcW := (g.wires.drop (g.wires.length - g.cod.length)).map
    (f.n_spiders + ·) with hgcW
  have htdef : Hypergraph.tensor f g
      = Hypergraph.mkH (f.dom ++ g.dom) (f.cod ++ g.cod)
          (f.boxes ++ g.boxes)
          ((fdW ++ gdW) ++ ((fbW ++ gbW) ++ (fcW ++ gcW)))
          (f.spider_types ++ g.spider_types).enum
          (some (f.offsets ++ g.offsets)) := by
    rw [Hypergraph.tensor]
    congr 1
    simp only [List.append_assoc]
  -- lengths of the segments
  have hfdW_len : fdW.length = f.dom.length := by
    rw [hfdW, List.length_take]
    omega
  have hgdW_len : gdW.length = g.dom.length := by
    rw [hgdW, List.length_map, List.length_take]
    omega
  have hfbW_len : fbW.length
      = (f.boxes.map (fun b => b.dom.length + b.cod.length)).sum := by
    rw [hfbW, List.length_take, List.length_drop]
    omega
  have hgbW_len : gbW.length
      = (g.boxes.map (fun b => b.dom.length + b.cod.length)).sum := by
    rw [hgbW, List.length_map, List.length_take, List.length_drop]
    omega
  have hfcW_len : fcW.length = f.cod.length := by
    rw [hfcW, List.length_drop]
    omega
  have hgcW_len : gcW.length = g.cod.length := by
    rw [hgcW, List.length_map, List.length_drop]
    omega
  -- bound on all combined wire values
  have hWbound : ∀ v ∈ (fdW ++ gdW) ++ ((fbW ++ gbW) ++ (fcW ++ gcW)),
      v < f.n_spiders + g.n_spiders := by
    intro v hv
    have hfv : ∀ u ∈ f.wires, u < f.n_spiders + g.n_spiders := by
      intro u hu
      have := hfbound u hu
      omega
    have hgv : ∀ w ∈ g.wires, f.n_spiders + w < f.n_spiders + g.n_spiders := by
      intro w hw
      have := hgbound w hw
      omega
    rcases List.mem_append.1 hv with hv | hv
    · rcases List.mem_append.1 hv with hv | hv
      · exact hfv v (List.mem_of_mem_take hv)
      · rcases List.mem_map.1 hv with ⟨u, hu, rfl⟩
        exact hgv u (List.mem_of_mem_take hu)
    · rcases List.mem_append.1 hv with hv | hv
      · rcases List.mem_append.1 hv with hv | hv
        · exact hfv v (List.mem_of_mem_drop (List.mem_of_mem_take hv))
        · rcases List.mem_map.1 hv with ⟨u, hu, rfl⟩
          exact hgv u (List.mem_of_mem_drop (List.mem_of_mem_take hu))
      · rcases List.mem_append.1 hv with hv | hv
        · exact hfv v (List.mem_of_mem_drop hv)
        · rcases List.mem_map.1 hv with ⟨u, hu, rfl⟩
          exact hgv u (List.mem_of_mem_drop hu)
  -- the port type decomposition
  have hports_eq : Hypergraph.portTypes (f.dom ++ g.dom) (f.cod ++ g.cod)
      (f.boxes ++ g.boxes)
      = (f.dom ++ g.dom)
        ++ (((f.boxes.map fun b => b.dom ++ b.cod).flatten
            ++ (g.boxes.map fun b => b.dom ++ b.cod).flatten)
          ++ (f.cod ++ g.cod)) := by
    rw [Hypergraph.portTypes, List.map_append, List.flatten_append,
      List.append_assoc]
  -- per-segment prechecks for f
  have hfPC := valid_preCheck f hf
  have hgPC := valid_preCheck g hg
  have hf_ports : f.ports = (f.dom
      ++ (f.boxes.map fun b => b.dom ++ b.cod).flatten) ++ f.cod := rfl
  have hg_ports : g.ports = (g.dom
      ++ (g.boxes.map fun b => b.dom ++ b.cod).flatten) ++ g.cod := rfl
  have hPC_fd : Hypergraph.PreCheck f.dom fdW
      (fun v => f.spider_types.getD v "") := by
    have := preCheck_slice hfPC 0 f.dom.length
    rw [List.drop_zero, List.drop_zero, hf_ports, List.append_assoc,
      List.take_left] at this
    exact this
  have hPC_fb : Hypergraph.PreCheck
      ((f.boxes.map fun b => b.dom ++ b.cod).flatten) fbW
      (fun v => f.spider_types.getD v "") := by
    have := preCheck_slice hfPC f.dom.length
      (f.wires.length - f.dom.length - f.cod.length)
    rw [hf_ports, List.append_assoc, List.drop_left,
      List.take_left' (by omega)] at this
    exact this
  have hPC_fc : Hypergraph.PreCheck f.cod fcW
      (fun v => f.spider_types.getD v "") := by
    have := preCheck_slice hfPC (f.wires.length - f.cod.length) f.cod.length
    rw [hf_ports, List.drop_left' (by simp only [List.length_append]; omega),
      List.take_of_length_le (le_refl _)] at this
    rw [List.take_of_length_le (by
      simp only [List.length_take, List.length_drop]
      omega)] at this
    exact this
  -- per-segment prechecks for g (sliced, then shifted)
  have hPC_gd0 : Hypergraph.PreCheck g.dom (g.wires.take g.dom.length)
      (fun v => g.spider_types.getD v "") := by
    have := preCheck_slice hgPC 0 g.dom.length
    rw [List.drop_zero, List.drop_zero, hg_ports, List.append_assoc,
      List.take_left] at this
    exact this
  have hPC_gb0 : Hypergraph.PreCheck
      ((g.boxes.map fun b => b.dom ++ b.cod).flatten)
      ((g.wires.drop g.dom.length).take
        (g.wires.length - g.dom.length - g.cod.length))
      (fun v => g.spider_types.getD v "") := by
    have := preCheck_slice hgPC g.dom.length
      (g.wires.length - g.dom.length - g.cod.length)
    rw [hg_ports, List.append_assoc, List.drop_left,
      List.take_left' (by omega)] at this
    exact this
  have hPC_gc0 : Hypergraph.PreCheck g.cod
      (g.wires.drop (g.wires.length - g.cod.length))
      (fun v => g.spider_types.getD v "") := by
    have := preCheck_slice hgPC (g.wires.length - g.cod.length) g.cod.length
    rw [hg_ports, List.drop_left' (by simp only [List.length_append]; omega),
      List.take_of_length_le (le_refl _)] at this
    rw [List.take_of_length_le (by
      simp only [List.length_take, List.length_drop]
      omega)] at this
    exact this
  -- lift everything to the combined spider type lookup
  have hPC_fd2 : Hypergraph.PreCheck f.dom fdW
      (fun v => (f.spider_types ++ g.spider_types).getD v "") :=
    preCheck_keepLow (fun v hv => hfbound v (List.mem_of_mem_take hv)) hPC_fd
  have hPC_fb2 : Hypergraph.PreCheck
      ((f.boxes.map fun b => b.dom ++ b.cod).flatten) fbW
      (fun v => (f.spider_types ++ g.spider_types).getD v "") :=
    preCheck_keepLow (fun v hv => hfbound v
      (List.mem_of_mem_drop (List.mem_of_mem_take hv))) hPC_fb
  have hPC_fc2 : Hypergraph.PreCheck f.cod fcW
      (fun v => (f.spider_types ++ g.spider_types).getD v "") :=
    preCheck_keepLow (fun v hv => hfbound v (List.mem_of_mem_drop hv)) hPC_fc
  have hPC_gd2 : Hypergraph.PreCheck g.dom gdW
      (fun v => (f.spider_types ++ g.spider_types).getD v "") :=
    preCheck_shift hPC_gd0
  have hPC_gb2 : Hypergraph.PreCheck
      ((g.boxes.map fun b => b.dom ++ b.cod).flatten) gbW
      (fun v => (f.spider_types ++ g.spider_types).getD v "") :=
    preCheck_shift hPC_gb0
  have hPC_gc2 : Hypergraph.PreCheck g.cod gcW
      (fun v => (f.spider_types ++ g.spider_types).getD v "") :=
    preCheck_shift hPC_gc0
  -- assemble the full precheck
  have hPC_dom := preCheck_append (by rw [hfdW_len]) hPC_fd2 hPC_gd2
  have hPC_box := preCheck_append (by rw [hfbW_len, hfb]) hPC_fb2 hPC_gb2
  have hPC_cod := preCheck_append (by rw [hfcW_len]) hPC_fc2 hPC_gc2
  have hPC_rest := preCheck_append (by
    simp only [List.length_append]
    rw [hfbW_len, hgbW_len, hfb, hgb]) hPC_box hPC_cod
  have hPC_all := preCheck_append (by
    simp only [List.length_append]
    rw [hfdW_len, hgdW_len]) hPC_dom hPC_rest
  -- apply the constructor success lemma
  have hWlen : ((fdW ++ gdW) ++ ((fbW ++ gbW) ++ (fcW ++ gcW))).length
      = (Hypergraph.portTypes (f.dom ++ g.dom) (f.cod ++ g.cod)
          (f.boxes ++ g.boxes)).length := by
    rw [Hypergraph.portTypes_length, List.map_append, List.sum_append]
    simp only [List.length_append]
    rw [hfdW_len, hgdW_len, hfbW_len, hgbW_len, hfcW_len, hgcW_len]
    omega
  have hkeysW : ∀ v ∈ (fdW ++ gdW) ++ ((fbW ++ gbW) ++ (fcW ++ gcW)),
      (dlookup (f.spider_types ++ g.spider_types).enum v).isSome := by
    intro v hv
    rw [dlookup_enum_isSome_iff]
    rw [List.length_append]
    exact hWbound v hv
  have hpreW : ∀ i, i < ((fdW ++ gdW) ++ ((fbW ++ gbW) ++ (fcW ++ gcW))).length →
      (Hypergraph.portTypes (f.dom ++ g.dom) (f.cod ++ g.cod)
        (f.boxes ++ g.boxes)).getD i ""
      = (dlookup (f.spider_types ++ g.spider_types).enum
          (((fdW ++ gdW) ++ ((fbW ++ gbW) ++ (fcW ++ gcW))).getD i 0)).getD "" := by
    intro i hi
    rw [hports_eq, dlookup_enum_getD]
    exact hPC_all i hi
  obtain ⟨h, hmk⟩ := mkH_ok_of_preCheck (some (f.offsets ++ g.offsets))
    hWlen hkeysW hpreW
  refine ⟨h, by rw [htdef]; exact hmk, ?_⟩
  obtain ⟨hd, hc, hb', hw, hty, _, _, _⟩ := mkH_ok_elim hmk
  refine ⟨hd, hc, hb', ?_⟩
  have hlenty := typesOf_length hty
  have hkeysEq : ((f.spider_types ++ g.spider_types).enum.map Prod.fst)
      = List.range (f.n_spiders + g.n_spiders) := by
    rw [List.enum_map_fst]
    simp [List.length_append, Hypergraph.n_spiders]
  rw [hkeysEq] at hlenty
  rw [relabelingOf_range_length hWbound] at hlenty
  rw [Hypergraph.n_spiders, hlenty]

/-! ### Claim C6: the monogamy predicate -/

/-- C6: `is_monogamous` is true exactly when every spider has as many
source ports (diagram-input and box-codomain ports) as sink ports
(box-domain and diagram-output ports) and the two counts sum to 0 or 2. -/
theorem C6_is_monogamous (h : Hypergraph) (hv : h.Valid) :
    h.is_monogamous = true ↔
      ∀ s < h.n_spiders,
        Hypergraph.sourceCount h s = Hypergraph.sinkCount h s
          ∧ (Hypergraph.sourceCount h s + Hypergraph.sinkCount h s = 0
            ∨ Hypergraph.sourceCount h s + Hypergraph.sinkCount h s = 2) := by
  obtain ⟨hlen, _, _, _⟩ := hv
  rw [Hypergraph.is_monogamous, Hypergraph.spider_wires_char h hlen,
    List.all_eq_true]
  constructor
  · intro hall s hs
    have hmem := hall _ (List.mem_map.2 ⟨s, List.mem_range.2 hs, rfl⟩)
    rw [Hypergraph.sourceCount_eq_selPos, Hypergraph.sinkCount_eq_selPos]
    simp only [Bool.and_eq_true, Bool.or_eq_true, beq_iff_eq] at hmem
    omega
  · intro hcond p hp
    rcases List.mem_map.1 hp with ⟨s, hsmem, rfl⟩
    have hc := hcond s (List.mem_range.1 hsmem)
    rw [Hypergraph.sourceCount_eq_selPos, Hypergraph.sinkCount_eq_selPos] at hc
    simp only [Bool.and_eq_true, Bool.or_eq_true, beq_iff_eq]
    omega

/-- Witness for C6 at a concrete valid hypergraph. -/
theorem C6_is_monogamous_witness :
    Hypergraph.exIdX.is_monogamous = true ↔
      ∀ s < Hypergraph.exIdX.n_spiders,
        Hypergraph.sourceCount Hypergraph.exIdX s
            = Hypergraph.sinkCount Hypergraph.exIdX s
          ∧ (Hypergraph.sourceCount Hypergraph.exIdX s
              + Hypergraph.sinkCount Hypergraph.exIdX s = 0
            ∨ Hypergraph.sourceCount Hypergraph.exIdX s
              + Hypergraph.sinkCount Hypergraph.exIdX s = 2) :=
  C6_is_monogamous Hypergraph.exIdX (by decide)

/-! ### The bijection property -/

theorem findIdx_eq_some_of {p : Nat → Bool} :
    ∀ (l : List Nat) (k : Nat), k < l.length →
    p (l.getD k 0) = true → (∀ m, m < k → p (l.getD m 0) = false) →
    ∀ i, l.findIdx? p i = some (i + k) := by
  intro l
  induction l with
  | nil => intro k hk; simp at hk
  | cons x xs ih =>
    intro k hk hpk hmin i
    rw [List.findIdx?_cons]
    cases k with
    | zero =>
      simp only [List.getD_cons_zero] at hpk
      rw [if_pos hpk]
      simp
    | succ k =>
      have hx : p x = false := by
        have := hmin 0 (by omega)
        simpa using this
      rw [if_neg (by simp [hx])]
      have := ih k (by simpa using hk) (by simpa using hpk)
        (fun m hm => by
          have := hmin (m + 1) (by omega)
          simpa using this) (i + 1)
      rw [this]
      congr 1
      omega

theorem dlookupN_cons (p : Nat × Nat) (d : List (Nat × Nat)) (k : Nat) :
    Hypergraph.dlookupN (p :: d) k =
      match Hypergraph.dlookupN d k with
      | some v => some v
      | none => if p.1 = k then some p.2 else none := by
  unfold Hypergraph.dlookupN
  rw [List.reverse_cons, List.find?_append]
  cases hf : List.find? (fun q => q.1 == k) d.reverse with
  | none =>
    by_cases hp : p.1 = k
    · simp [hp, List.find?_cons]
    · have hb : (p.1 == k) = false := beq_eq_false_iff_ne.2 hp
      simp [hb, hp, List.find?_cons]
  | some q => rfl

theorem dlookupN_eq_none {d : List (Nat × Nat)} {k : Nat} :
    Hypergraph.dlookupN d k = none ↔ k ∉ d.map Prod.fst := by
  unfold Hypergraph.dlookupN
  rw [Option.map_eq_none', List.find?_eq_none]
  constructor
  · intro hall hmem
    rcases List.mem_map.1 hmem with ⟨q, hq, hqs⟩
    exact hall q (List.mem_reverse.2 hq) (by simp [hqs])
  · intro hmem q hq hqs
    exact hmem (List.mem_map.2 ⟨q, List.mem_reverse.1 hq, by simpa using hqs⟩)

theorem dlookupN_of_mem_nodup {d : List (Nat × Nat)}
    (hnd : (d.map Prod.fst).Nodup) {k v : Nat} (hmem : (k, v) ∈ d) :
    Hypergraph.dlookupN d k = some v := by
  induction d with
  | nil => simp at hmem
  | cons e d ih =>
    rw [List.map_cons, List.nodup_cons] at hnd
    rw [dlookupN_cons]
    rcases List.mem_cons.1 hmem with rfl | hmem2
    · have : Hypergraph.dlookupN d k = none := by
        rw [dlookupN_eq_none]
        exact hnd.1
      rw [this]
      simp
    · have hk : k ∈ d.map Prod.fst := List.mem_map.2 ⟨(k, v), hmem2, rfl⟩
      rw [ih hnd.2 hmem2]

theorem foldl_blocks (f : Nat → List (Nat × Nat)) :
    ∀ (L : List Nat) (d0 : List (Nat × Nat)),
    L.foldl (fun d s => d ++ f s) d0 = d0 ++ (L.map f).flatten := by
  intro L
  induction L with
  | nil => intro d0; simp
  | cons a L ih =>
    intro d0
    rw [List.foldl_cons, ih, List.map_cons, List.flatten_cons, List.append_assoc]

theorem bijectionDict_blocks (w : List Nat) :
    Hypergraph.bijectionDict w
      = ((List.range w.length).map (Hypergraph.bdContrib w)).flatten := by
  rw [Hypergraph.bijectionDict]
  have hext : ∀ (L : List Nat) (d0 : List (Nat × Nat)),
      L.foldl (fun d source =>
        match (w.drop (source + 1)).findIdx? (fun t => t == w.getD source 0) with
        | none => d
        | some j => d ++ [(source, j + source + 1), (j + source + 1, source)])
        d0
      = L.foldl (fun d s => d ++ Hypergraph.bdContrib w s) d0 := by
    intro L
    induction L with
    | nil => intro d0; rfl
    | cons a L ih =>
      intro d0
      rw [List.foldl_cons, List.foldl_cons, ih]
      congr 1
      rw [Hypergraph.bdContrib]
      cases hf : (w.drop (a + 1)).findIdx? (fun t => t == w.getD a 0) with
      | none => simp
      | some j => rfl
  rw [hext, foldl_blocks]
  rfl

theorem selPos_lower (s : Nat) (side : Bool) :
    ∀ (l : List (Nat × Bool)) (i : Nat),
    ∀ x ∈ Hypergraph.selPos s side l i, i ≤ x := by
  intro l
  induction l with
  | nil => intro i x hx; simp [Hypergraph.selPos_nil] at hx
  | cons q rest ih =>
    intro i x hx
    rw [Hypergraph.selPos_cons, List.mem_append] at hx
    rcases hx with hx | hx
    · split at hx
      · simp only [List.mem_singleton] at hx
        omega
      · simp at hx
    · have := ih (i + 1) x hx
      omega

theorem selPos_sorted (s : Nat) (side : Bool) :
    ∀ (l : List (Nat × Bool)) (i : Nat),
    List.Sorted (· < ·) (Hypergraph.selPos s side l i) := by
  intro l
  induction l with
  | nil => intro i; simp [Hypergraph.selPos_nil]
  | cons q rest ih =>
    intro i
    rw [Hypergraph.selPos_cons]
    split
    · rw [List.singleton_append, List.sorted_cons]
      exact ⟨fun x hx => lt_of_lt_of_le (by omega) (selPos_lower s side rest (i + 1) x hx),
        ih (i + 1)⟩
    · rw [List.nil_append]
      exact ih (i + 1)

theorem mem_posOfVal {w : List Nat} {s r : Nat} :
    r ∈ Hypergraph.selPos s true (w.map (fun v => (v, true))) 0
      ↔ r < w.length ∧ w.getD r 0 = s := by
  rw [mem_selPos]
  constructor
  · rintro ⟨j, hj, hjs, rfl⟩
    rw [List.length_map] at hj
    rw [List.getElem?_map, List.getElem?_eq_getElem hj] at hjs
    simp only [Option.map_some', Option.some_inj] at hjs
    have : w[j] = s := congrArg Prod.fst hjs
    refine ⟨by omega, ?_⟩
    rw [Nat.zero_add, getD_merge_nat w j hj]
    exact this
  · rintro ⟨hr, hs⟩
    refine ⟨r, by simpa using hr, ?_, by omega⟩
    rw [List.getElem?_map, List.getElem?_eq_getElem hr]
    simp only [Option.map_some', Option.some_inj]
    rw [getD_merge_nat w r hr] at hs
    rw [hs]

theorem length_posOfVal (w : List Nat) (s : Nat) :
    (Hypergraph.selPos s true (w.map (fun v => (v, true))) 0).length
      = w.count s := by
  rw [Hypergraph.selPos_length, List.countP_map, List.count_eq_countP]
  apply List.countP_congr
  intro x _
  simp [Function.comp]

theorem count_two_pair {w : List Nat} {s : Nat} (hc : w.count s = 2) :
    ∃ p q, p < q ∧ q < w.length
      ∧ w.getD p 0 = s ∧ w.getD q 0 = s
      ∧ (∀ r, r < w.length → w.getD r 0 = s → r = p ∨ r = q) := by
  have hlen : (Hypergraph.selPos s true (w.map (fun v => (v, true))) 0).length
      = 2 := by
    rw [length_posOfVal, hc]
  obtain ⟨p, q, hPQ⟩ := List.length_eq_two.1 hlen
  have hsorted := selPos_sorted s true (w.map (fun v => (v, true))) 0
  rw [hPQ] at hsorted
  have hpq : p < q := by
    rw [List.sorted_cons] at hsorted
    exact hsorted.1 q (List.mem_singleton.2 rfl)
  have hp := (mem_posOfVal (w := w) (s := s) (r := p)).1
    (by rw [hPQ]; exact List.mem_cons_self _ _)
  have hq := (mem_posOfVal (w := w) (s := s) (r := q)).1
    (by rw [hPQ]; simp)
  refine ⟨p, q, hpq, hq.1, hp.2, hq.2, ?_⟩
  intro r hr hrs
  have hmem : r ∈ Hypergraph.selPos s true (w.map (fun v => (v, true))) 0 :=
    mem_posOfVal.2 ⟨hr, hrs⟩
  rw [hPQ] at hmem
  simpa using hmem

/-! ### Claim C7: tensor is disjoint union -/

/-- C7 counterexample: the claim's concrete scenario is false on the code.
For the single-box hypergraphs f from x to y@y and g from y@y to z,
`(f @ g)` has 6 spiders, not 4, and its wires are not (0,1,0,2,1,3,2,3). -/
theorem C7_tensor_counterexample :
    Hypergraph.from_box ⟨"f", ["x"], ["y", "y"], false⟩ = .ok Hypergraph.exF2
      ∧ Hypergraph.from_box ⟨"g", ["y", "y"], ["z"], false⟩ = .ok Hypergraph.exG2
      ∧ Hypergraph.tensor Hypergraph.exF2 Hypergraph.exG2 = .ok Hypergraph.exF2G2
      ∧ ¬ (Hypergraph.exF2G2.n_spiders = 4
            ∧ Hypergraph.exF2G2.wires = [0, 1, 0, 2, 1, 3, 2, 3]) := by
  refine ⟨rfl, rfl, rfl, ?_⟩
  intro hcl
  cases hcl.1

/-- C7 (amended): for all valid hypergraphs f and g, the tensor is their
disjoint union: dom, cod and boxes are concatenated and the spider count is
the sum; concretely, for the single-box hypergraphs f from x to y and g
from y to z, `(f @ g).n_spiders == 4` and
`(f @ g).wires == (0, 1, 0, 2, 1, 3, 2, 3)`. -/
theorem C7_tensor :
    (∀ f g : Hypergraph, f.Valid → g.Valid →
      ∃ h, Hypergraph.tensor f g = .ok h
        ∧ h.dom = f.dom ++ g.dom ∧ h.cod = f.cod ++ g.cod
        ∧ h.boxes = f.boxes ++ g.boxes
        ∧ h.n_spiders = f.n_spiders + g.n_spiders)
    ∧ Hypergraph.from_box ⟨"f", ["x"], ["y"], false⟩ = .ok Hypergraph.exFb
    ∧ Hypergraph.from_box ⟨"g", ["y"], ["z"], false⟩ = .ok Hypergraph.exGb
    ∧ Hypergraph.tensor Hypergraph.exFb Hypergraph.exGb = .ok Hypergraph.exFbGb
    ∧ Hypergraph.exFbGb.n_spiders = 4
    ∧ Hypergraph.exFbGb.wires = [0, 1, 0, 2, 1, 3, 2, 3] :=
  ⟨fun f g hf hg => tensor_ok f g hf hg, rfl, rfl, rfl, rfl, rfl⟩

/-- Witness for C7 at a concrete pair of valid hypergraphs. -/
theorem C7_tensor_witness :
    ∃ h, Hypergraph.tensor Hypergraph.exFb Hypergraph.exGb = .ok h
      ∧ h.dom = Hypergraph.exFb.dom ++ Hypergraph.exGb.dom
      ∧ h.cod = Hypergraph.exFb.cod ++ Hypergraph.exGb.cod
      ∧ h.boxes = Hypergraph.exFb.boxes ++ Hypergraph.exGb.boxes
      ∧ h.n_spiders = Hypergraph.exFb.n_spiders + Hypergraph.exGb.n_spiders :=
  C7_tensor.1 Hypergraph.exFb Hypergraph.exGb (by decide) (by decide)

/-! ### Claim C4: dagger involution -/

theorem getD_merge_str (w : Ty) (i : Nat) (hi : i < w.length) :
    w.getD i "" = w[i] := by
  rw [List.getD_eq_getElem?_getD, List.getElem?_eq_getElem hi]
  rfl

theorem getD_take_nat (l : List Nat) (m i : Nat) (h : i < m) :
    (l.take m).getD i 0 = l.getD i 0 := by
  rw [List.getD_eq_getElem?_getD, List.getD_eq_getElem?_getD,
    List.getElem?_take, if_pos h]

theorem getD_drop_nat (l : List Nat) (m i : Nat) :
    (l.drop m).getD i 0 = l.getD (m + i) 0 := by
  rw [List.getD_eq_getElem?_getD, List.getD_eq_getElem?_getD,
    List.getElem?_drop]

theorem hypergraph_eq_of_fields {a b : Hypergraph}
    (h1 : a.dom = b.dom) (h2 : a.cod = b.cod) (h3 : a.boxes = b.boxes)
    (h4 : a.wires = b.wires) (h5 : a.spider_types = b.spider_types)
    (h6 : a.offsets = b.offsets) : a = b := by
  cases a
  cases b
  cases h1
  cases h2
  cases h3
  cases h4
  cases h5
  cases h6
  rfl

theorem boxWiresAux_length (w : List Nat) :
    ∀ (boxes : List Box) (i : Nat),
      (Hypergraph.boxWiresAux w boxes i).length = boxes.length := by
  intro boxes
  induction boxes with
  | nil => intro i; rfl
  | cons b bs ih =>
    intro i
    rw [Hypergraph.boxWiresAux, List.length_cons, ih, List.length_cons]

theorem boxWiresAux_flatten (w : List Nat) :
    ∀ (boxes : List Box) (i : Nat),
      ((Hypergraph.boxWiresAux w boxes i).map fun p => p.1 ++ p.2).flatten
      = (w.drop i).take
          ((boxes.map fun b => b.dom.length + b.cod.length).sum) := by
  intro boxes
  induction boxes with
  | nil => intro i; simp [Hypergraph.boxWiresAux]
  | cons b bs ih =>
    intro i
    rw [Hypergraph.boxWiresAux, List.map_cons, List.flatten_cons, ih,
      List.map_cons, List.sum_cons]
    have h1 : (w.drop i).take (b.dom.length + b.cod.length
          + (bs.map fun b => b.dom.length + b.cod.length).sum)
        = (w.drop i).take (b.dom.length + b.cod.length)
          ++ ((w.drop i).drop (b.dom.length + b.cod.length)).take
            ((bs.map fun b => b.dom.length + b.cod.length).sum) := by
      rw [← List.take_add]
    rw [h1, List.take_add, List.drop_drop, List.drop_drop]
    have e1 : i + b.dom.length = i + b.dom.length := rfl
    have e2 : i + (b.dom.length + b.cod.length)
        = i + b.dom.length + b.cod.length := by omega
    rw [e2, List.append_assoc]

theorem boxWiresAux_mem (w : List Nat) :
    ∀ (boxes : List Box) (i : Nat),
      ∀ p ∈ Hypergraph.boxWiresAux w boxes i,
        (∀ v ∈ p.1, v ∈ w) ∧ (∀ v ∈ p.2, v ∈ w) := by
  intro boxes
  induction boxes with
  | nil => intro i p hp; simp [Hypergraph.boxWiresAux] at hp
  | cons b bs ih =>
    intro i p hp
    rw [Hypergraph.boxWiresAux] at hp
    rcases List.mem_cons.1 hp with rfl | hp
    · constructor
      · intro v hv
        exact List.mem_of_mem_drop (List.mem_of_mem_take hv)
      · intro v hv
        exact List.mem_of_mem_drop (List.mem_of_mem_take hv)
    · exact ih _ p hp

theorem boxWiresAux_exact :
    ∀ (boxes : List Box) (segs : List (List Nat × List Nat))
      (pre rest : List Nat),
      segs.length = boxes.length →
      (∀ q ∈ boxes.zip segs, q.2.1.length = q.1.dom.length
        ∧ q.2.2.length = q.1.cod.length) →
      Hypergraph.boxWiresAux
        (pre ++ (((segs.map fun p => p.1 ++ p.2).flatten) ++ rest)) boxes
        pre.length
      = segs := by
  intro boxes
  induction boxes with
  | nil =>
    intro segs pre rest hlen _
    cases segs with
    | nil => rfl
    | cons s ss => simp at hlen
  | cons b bs ih =>
    intro segs pre rest hlen hq
    cases segs with
    | nil => simp at hlen
    | cons s ss =>
      obtain ⟨s1, s2⟩ := s
      obtain ⟨hs1x, hs2x⟩ := hq (b, (s1, s2))
        (by rw [List.zip_cons_cons]; exact List.mem_cons_self _ _)
      have hs1 : s1.length = b.dom.length := hs1x
      have hs2 : s2.length = b.cod.length := hs2x
      rw [Hypergraph.boxWiresAux]
      have hW : pre ++ ((((s1, s2) :: ss).map fun p => p.1 ++ p.2).flatten
            ++ rest)
          = pre ++ ((s1 ++ (s2 ++ ((ss.map fun p => p.1 ++ p.2).flatten
            ++ rest)))) := by
        rw [List.map_cons, List.flatten_cons]
        simp only [List.append_assoc]
      rw [hW]
      have hdrop1 : (pre ++ (s1 ++ (s2 ++ ((ss.map fun p => p.1 ++ p.2).flatten
            ++ rest)))).drop pre.length
          = s1 ++ (s2 ++ ((ss.map fun p => p.1 ++ p.2).flatten ++ rest)) :=
        List.drop_left _ _
      have htake1 : ((pre ++ (s1 ++ (s2 ++ ((ss.map fun p => p.1 ++ p.2).flatten
            ++ rest)))).drop pre.length).take b.dom.length = s1 := by
        rw [hdrop1, ← hs1, List.take_left]
      have hdrop2 : (pre ++ (s1 ++ (s2 ++ ((ss.map fun p => p.1 ++ p.2).flatten
            ++ rest)))).drop (pre.length + b.dom.length)
          = s2 ++ ((ss.map fun p => p.1 ++ p.2).flatten ++ rest) := by
        rw [← List.drop_drop, hdrop1, ← hs1, List.drop_left]
      have htake2 : ((pre ++ (s1 ++ (s2 ++ ((ss.map fun p => p.1 ++ p.2).flatten
            ++ rest)))).drop (pre.length + b.dom.length)).take b.cod.length
          = s2 := by
        rw [hdrop2, ← hs2, List.take_left]
      congr 1
      · rw [htake1, htake2]
      · have hW2 : pre ++ (s1 ++ (s2 ++ ((ss.map fun p => p.1 ++ p.2).flatten
              ++ rest)))
            = (pre ++ (s1 ++ s2))
              ++ (((ss.map fun p => p.1 ++ p.2).flatten) ++ rest) := by
          simp only [List.append_assoc]
        rw [hW2]
        have hidx : pre.length + b.dom.length + b.cod.length
            = (pre ++ (s1 ++ s2)).length := by
          simp only [List.length_append]
          omega
        rw [hidx]
        exact ih ss (pre ++ (s1 ++ s2)) rest (by simpa using hlen)
          (fun q hqm => hq q
            (by rw [List.zip_cons_cons]; exact List.mem_cons_of_mem _ hqm))

theorem preCheck_flatten {lk : Nat → Ob} :
    ∀ (ps : List (Ty × List Nat)),
      (∀ q ∈ ps, Hypergraph.PreCheck q.1 q.2 lk ∧ q.2.length = q.1.length) →
      Hypergraph.PreCheck ((ps.map Prod.fst).flatten)
        ((ps.map Prod.snd).flatten) lk := by
  intro ps
  induction ps with
  | nil =>
    intro _
    intro i hi
    simp at hi
  | cons q qs ih =>
    intro hall
    rw [List.map_cons, List.map_cons, List.flatten_cons, List.flatten_cons]
    obtain ⟨hpc, hlen⟩ := hall q (List.mem_cons_self _ _)
    exact preCheck_append hlen hpc
      (ih (fun r hr => hall r (List.mem_cons_of_mem _ hr)))

theorem wires_decomp (h : Hypergraph) (hv : h.Valid) :
    h.wires = h.wires.take h.dom.length
      ++ (((h.box_wires.map fun p => p.1 ++ p.2).flatten)
        ++ h.wires.drop (h.wires.length - h.cod.length)) := by
  have hlen := hv.1
  rw [Hypergraph.ports, Hypergraph.portTypes_length] at hlen
  rw [Hypergraph.box_wires, boxWiresAux_flatten]
  conv_lhs => rw [← List.take_append_drop h.dom.length h.wires]
  congr 1
  conv_lhs => rw [← List.take_append_drop
    ((h.boxes.map fun b => b.dom.length + b.cod.length).sum)
    (h.wires.drop h.dom.length)]
  congr 1
  rw [List.drop_drop]
  congr 1
  omega

theorem filter_range_not_lt {k n : Nat} (hkn : k ≤ n) :
    (List.range n).filter (fun s => decide (¬ s < k))
      = List.range' k (n - k) := by
  have hsplit : List.range n = List.range k ++ List.range' k (n - k) := by
    rw [List.range_eq_range' n, List.range_eq_range' k]
    have hth := List.range'_append 0 k (n - k) 1
    rw [Nat.zero_add, Nat.one_mul] at hth
    have hnk : n - k + k = n := by omega
    rw [hnk] at hth
    rw [← hth]
  rw [hsplit, List.filter_append]
  have h1 : (List.range k).filter (fun s => decide (¬ s < k)) = [] := by
    rw [List.filter_eq_nil]
    intro a ha
    rw [List.mem_range] at ha
    simp [ha]
  have h2 : (List.range' k (n - k)).filter (fun s => decide (¬ s < k))
      = List.range' k (n - k) := by
    rw [List.filter_eq_self]
    intro a ha
    rw [List.mem_range'_1] at ha
    simp
    omega
  rw [h1, h2, List.nil_append]

theorem sorted_le_range' (s n : Nat) :
    List.Sorted (· ≤ ·) (List.range' s n) :=
  (List.pairwise_lt_range' s n).imp (fun h => le_of_lt h)

theorem relabelingOf_of_memRange {w : List Nat} {k n : Nat}
    (hval : ∀ v, v ∈ w ↔ v < k) (hkn : k ≤ n) :
    relabelingOf w (List.range n) = firstOccs w ++ List.range' k (n - k)
    ∧ (firstOccs w).length = k := by
  have hfo : ∀ v, v ∈ firstOccs w ↔ v < k := by
    intro v
    rw [mem_firstOccs]
    exact hval v
  have hperm : (firstOccs w).Perm (List.range k) := by
    apply (List.perm_ext_iff_of_nodup (nodup_firstOccs w)
      (List.nodup_range k)).2
    intro v
    rw [List.mem_range]
    exact hfo v
  have hlen : (firstOccs w).length = k := by
    rw [hperm.length_eq, List.length_range]
  refine ⟨?_, hlen⟩
  rw [relabelingOf, firstOccs_of_nodup (List.nodup_range n)]
  congr 1
  have hcong : (List.range n).filter (fun s => decide (s ∉ firstOccs w))
      = (List.range n).filter (fun s => decide (¬ s < k)) := by
    apply List.filter_congr
    intro a _
    rw [decide_eq_decide]
    constructor
    · intro hna
      intro hak
      exact hna ((hfo a).2 hak)
    · intro hna ha
      exact hna ((hfo a).1 ha)
  rw [hcong, filter_range_not_lt hkn]
  exact (sorted_le_range' k (n - k)).insertionSort_eq

theorem perm_range_props {ρ : List Nat} {n : Nat} (hnd : ρ.Nodup)
    (hlen : ρ.length = n) (hmem : ∀ s, s ∈ ρ ↔ s < n) :
    (∀ s, s < n → ρ.getD (ρ.indexOf s) 0 = s ∧ ρ.indexOf s < n)
    ∧ ∀ j, j < n → ρ.indexOf (ρ.getD j 0) = j ∧ ρ.getD j 0 < n := by
  constructor
  · intro s hs
    have hsm : s ∈ ρ := (hmem s).2 hs
    have hidx : ρ.indexOf s < ρ.length := List.indexOf_lt_length.2 hsm
    constructor
    · rw [getD_merge_nat ρ _ hidx]
      exact List.getElem_indexOf hidx
    · omega
  · intro j hj
    have hj2 : j < ρ.length := by omega
    have hval : ρ.getD j 0 = ρ[j] := getD_merge_nat ρ j hj2
    constructor
    · rw [hval]
      exact List.indexOf_getElem hnd j hj2
    · rw [hval]
      exact (hmem _).1 (List.getElem_mem hj2)

theorem bwAux_aligned {lk : Nat → Ob} :
    ∀ (boxes : List Box) (w : List Nat) (i : Nat),
      Hypergraph.PreCheck ((boxes.map fun b => b.dom ++ b.cod).flatten)
        ((w.drop i).take
          ((boxes.map fun b => b.dom.length + b.cod.length).sum)) lk →
      ∀ j (hj : j < boxes.length)
        (hj2 : j < (Hypergraph.boxWiresAux w boxes i).length),
        Hypergraph.PreCheck (boxes[j].dom)
          ((Hypergraph.boxWiresAux w boxes i)[j].1) lk
        ∧ Hypergraph.PreCheck (boxes[j].cod)
          ((Hypergraph.boxWiresAux w boxes i)[j].2) lk := by
  intro boxes
  induction boxes with
  | nil =>
    intro w i _ j hj
    simp at hj
  | cons b bs ih =>
    intro w i hpc j hj hj2
    rw [List.map_cons, List.flatten_cons, List.map_cons, List.sum_cons] at hpc
    have hassoc : (b.dom ++ b.cod) ++ (bs.map fun b => b.dom ++ b.cod).flatten
        = b.dom ++ (b.cod ++ (bs.map fun b => b.dom ++ b.cod).flatten) :=
      List.append_assoc _ _ _
    have hpcd : Hypergraph.PreCheck b.dom ((w.drop i).take b.dom.length) lk := by
      have h0 := preCheck_slice hpc 0 b.dom.length
      rw [List.drop_zero, List.drop_zero, hassoc, List.take_left,
        List.take_take] at h0
      have hmin : b.dom.length ⊓ (b.dom.length + b.cod.length
          + (bs.map fun b => b.dom.length + b.cod.length).sum)
          = b.dom.length := by
        apply min_eq_left
        omega
      rw [hmin] at h0
      exact h0
    have hpcc : Hypergraph.PreCheck b.cod
        ((w.drop (i + b.dom.length)).take b.cod.length) lk := by
      have h1 := preCheck_slice hpc b.dom.length b.cod.length
      rw [hassoc, List.drop_left, List.take_left, List.drop_take,
        List.drop_drop] at h1
      have harith : b.dom.length + b.cod.length
          + (bs.map fun b => b.dom.length + b.cod.length).sum - b.dom.length
          = b.cod.length
            + (bs.map fun b => b.dom.length + b.cod.length).sum := by
        omega
      rw [harith, List.take_take] at h1
      have hmin : b.cod.length ⊓ (b.cod.length
          + (bs.map fun b => b.dom.length + b.cod.length).sum)
          = b.cod.length := by
        apply min_eq_left
        omega
      rw [hmin] at h1
      exact h1
    have hpcrest : Hypergraph.PreCheck
        ((bs.map fun b => b.dom ++ b.cod).flatten)
        ((w.drop (i + b.dom.length + b.cod.length)).take
          ((bs.map fun b => b.dom.length + b.cod.length).sum)) lk := by
      have h2 := preCheck_slice hpc (b.dom.length + b.cod.length)
        ((bs.map fun b => b.dom.length + b.cod.length).sum)
      rw [List.drop_left' (by rw [List.length_append]),
        List.take_of_length_le (le_of_eq (boxTypes_flatten_length bs)),
        List.drop_take, List.drop_drop] at h2
      have harith : b.dom.length + b.cod.length
          + (bs.map fun b => b.dom.length + b.cod.length).sum
          - (b.dom.length + b.cod.length)
          = (bs.map fun b => b.dom.length + b.cod.length).sum := by
        omega
      rw [harith, List.take_take, min_self] at h2
      have harith2 : i + (b.dom.length + b.cod.length)
          = i + b.dom.length + b.cod.length := by omega
      rw [harith2] at h2
      exact h2
    have hunfold : Hypergraph.boxWiresAux w (b :: bs) i
        = ((w.drop i).take b.dom.length,
            (w.drop (i + b.dom.length)).take b.cod.length)
          :: Hypergraph.boxWiresAux w bs (i + b.dom.length + b.cod.length) :=
      rfl
    cases j with
    | zero =>
      simp only [hunfold, List.getElem_cons_zero]
      exact ⟨hpcd, hpcc⟩
    | succ jj =>
      simp only [hunfold, List.getElem_cons_succ]
      have hjj : jj < bs.length := by
        rw [List.length_cons] at hj
        omega
      have hjj2 : jj < (Hypergraph.boxWiresAux w bs
          (i + b.dom.length + b.cod.length)).length := by
        rw [boxWiresAux_length]
        exact hjj
      exact ih w (i + b.dom.length + b.cod.length) hpcrest jj hjj hjj2

theorem boxWires_len_at (boxes : List Box) (w : List Nat) (i : Nat)
    (hle : i + (boxes.map (fun b => b.dom.length + b.cod.length)).sum
      ≤ w.length)
    (j : Nat) (hj : j < boxes.length)
    (hj2 : j < (Hypergraph.boxWiresAux w boxes i).length) :
    (Hypergraph.boxWiresAux w boxes i)[j].1.length = boxes[j].dom.length
    ∧ (Hypergraph.boxWiresAux w boxes i)[j].2.length
        = boxes[j].cod.length := by
  have hmap := Hypergraph.boxWiresAux_lengths boxes w i hle
  have hq := congrArg (fun l => l[j]?) hmap
  simp only at hq
  rw [List.getElem?_map, List.getElem?_map, List.getElem?_eq_getElem hj2,
    List.getElem?_eq_getElem hj] at hq
  simp only [Option.map_some'] at hq
  have hpair := Option.some.inj hq
  exact ⟨congrArg Prod.fst hpair, congrArg Prod.snd hpair⟩

theorem dagger_arg_mem (f : Hypergraph) (hf : f.Valid) :
    ∀ v, v ∈ ((f.wires.drop (f.wires.length - f.cod.length)
        ++ (f.box_wires.reverse.map fun p => p.2 ++ p.1).flatten)
        ++ f.wires.take f.dom.length)
      ↔ v ∈ f.wires := by
  intro v
  constructor
  · intro hv
    rcases List.mem_append.1 hv with hv | hv
    · rcases List.mem_append.1 hv with hv | hv
      · exact List.mem_of_mem_drop hv
      · rcases List.mem_flatten.1 hv with ⟨l, hl, hvl⟩
        rcases List.mem_map.1 hl with ⟨p, hp, rfl⟩
        have hp2 : p ∈ f.box_wires := List.mem_reverse.1 hp
        have hmem := boxWiresAux_mem f.wires f.boxes f.dom.length p hp2
        rcases List.mem_append.1 hvl with hvv | hvv
        · exact hmem.2 v hvv
        · exact hmem.1 v hvv
    · exact List.mem_of_mem_take hv
  · intro hv
    have hdec := wires_decomp f hf
    rw [hdec] at hv
    rcases List.mem_append.1 hv with hv | hv
    · exact List.mem_append_right _ hv
    · rcases List.mem_append.1 hv with hv | hv
      · apply List.mem_append_left
        apply List.mem_append_right
        rcases List.mem_flatten.1 hv with ⟨l, hl, hvl⟩
        rcases List.mem_map.1 hl with ⟨p, hp, rfl⟩
        apply List.mem_flatten.2
        refine ⟨p.2 ++ p.1, List.mem_map.2 ⟨p, List.mem_reverse.2 hp, rfl⟩, ?_⟩
        rcases List.mem_append.1 hvl with h | h
        · exact List.mem_append_right _ h
        · exact List.mem_append_left _ h
      · exact List.mem_append_left _ (List.mem_append_left _ hv)

theorem dagger_fields (f : Hypergraph) (hf : f.Valid) :
    ∃ (h1 : Hypergraph) (ρ : List Nat),
      Hypergraph.dagger f = .ok h1
      ∧ h1.Valid
      ∧ h1.dom = f.cod ∧ h1.cod = f.dom
      ∧ h1.boxes = f.boxes.reverse.map Box.dagger
      ∧ h1.wires = ((f.wires.drop (f.wires.length - f.cod.length)
            ++ (f.box_wires.reverse.map fun p => p.2 ++ p.1).flatten)
            ++ f.wires.take f.dom.length).map (fun s => ρ.indexOf s)
      ∧ h1.spider_types = ρ.map (fun s => f.spider_types.getD s "")
      ∧ h1.offsets = f.offsets.reverse
      ∧ ρ.Nodup ∧ ρ.length = f.n_spiders
      ∧ (∀ v, v ∈ ρ ↔ v < f.n_spiders)
      ∧ (∀ j, j < (firstOccs f.wires).length →
          ρ.getD j 0 < (firstOccs f.wires).length)
      ∧ (∀ j, (firstOccs f.wires).length ≤ j → j < f.n_spiders →
          ρ.getD j 0 = j) := by
  have hflen0 := hf.1
  rw [Hypergraph.ports, Hypergraph.portTypes_length] at hflen0
  have hfb := boxTypes_flatten_length f.boxes
  have hfbound := valid_wire_bound f hf
  have hfPC := valid_preCheck f hf
  have hcan := hf.2.1
  have hkn : (firstOccs f.wires).length ≤ f.n_spiders := hf.2.2.1
  have hf_ports : f.ports = (f.dom
      ++ (f.boxes.map fun b => b.dom ++ b.cod).flatten) ++ f.cod := rfl
  set A := f.wires.drop (f.wires.length - f.cod.length) with hA
  set Bd := (f.box_wires.reverse.map fun p => p.2 ++ p.1).flatten with hBd
  set C := f.wires.take f.dom.length with hC
  set k := (firstOccs f.wires).length with hk
  -- wire values of f are exactly the canonical labels below k
  have hvalw : ∀ v, v ∈ f.wires ↔ v < k := by
    intro v
    rw [← mem_firstOccs]
    rw [CanonicalW] at hcan
    rw [hcan, List.mem_range, ← hk]
  have hval' : ∀ v, v ∈ (A ++ Bd) ++ C ↔ v < k := by
    intro v
    rw [dagger_arg_mem f hf v]
    exact hvalw v
  -- segment lengths
  have hA_len : A.length = f.cod.length := by
    rw [hA, List.length_drop]
    omega
  have hC_len : C.length = f.dom.length := by
    rw [hC, List.length_take]
    omega
  have hbw_len : f.box_wires.length = f.boxes.length := by
    rw [Hypergraph.box_wires, boxWiresAux_length]
  have hbw_lengths := Hypergraph.boxWiresAux_lengths f.boxes f.wires
    f.dom.length (by omega)
  have hBd_len : Bd.length
      = (f.boxes.map (fun b => b.dom.length + b.cod.length)).sum := by
    rw [hBd, List.length_flatten, List.map_map]
    have h1 : (List.length ∘ fun (p : List Nat × List Nat) => p.2 ++ p.1)
        = fun p : List Nat × List Nat => p.2.length + p.1.length := by
      funext p
      simp [Function.comp, List.length_append]
    rw [h1, List.map_reverse, List.sum_reverse]
    have h2 := congrArg (List.map (fun q : Nat × Nat => q.2 + q.1))
      hbw_lengths
    rw [List.map_map, List.map_map] at h2
    have h3 : ((fun q : Nat × Nat => q.2 + q.1)
          ∘ fun p : List Nat × List Nat => (p.1.length, p.2.length))
        = fun p : List Nat × List Nat => p.2.length + p.1.length := by
      funext p
      rfl
    have h4 : ((fun q : Nat × Nat => q.2 + q.1)
          ∘ fun b : Box => (b.dom.length, b.cod.length))
        = fun b : Box => b.cod.length + b.dom.length := by
      funext b
      rfl
    rw [h3, h4] at h2
    rw [show (Hypergraph.boxWiresAux f.wires f.boxes f.dom.length)
        = f.box_wires from rfl] at h2
    rw [h2]
    rw [List.map_congr_left
      (fun b _ => Nat.add_comm b.cod.length b.dom.length)]
  -- the dagger boxes have the same total port count
  have hSd : ((f.boxes.reverse.map Box.dagger).map
        (fun b => b.dom.length + b.cod.length)).sum
      = (f.boxes.map (fun b => b.dom.length + b.cod.length)).sum := by
    rw [List.map_map]
    have h1 : ((fun b : Box => b.dom.length + b.cod.length) ∘ Box.dagger)
        = fun b : Box => b.cod.length + b.dom.length := by
      funext b
      rfl
    rw [h1, List.map_reverse, List.sum_reverse]
    rw [List.map_congr_left
      (fun b _ => Nat.add_comm b.cod.length b.dom.length)]
  -- the constructor call succeeds
  have hlenW : ((A ++ Bd) ++ C).length
      = (Hypergraph.portTypes f.cod f.dom
          (f.boxes.reverse.map Box.dagger)).length := by
    rw [Hypergraph.portTypes_length, hSd]
    simp only [List.length_append]
    rw [hA_len, hC_len, hBd_len]
  have hkeysW : ∀ v ∈ (A ++ Bd) ++ C,
      (dlookup f.spider_types.enum v).isSome := by
    intro v hv
    rw [dlookup_enum_isSome_iff]
    have : v < k := (hval' v).1 hv
    have hkn2 : k ≤ f.spider_types.length := hkn
    omega
  -- per-segment prechecks against the source spider types
  have hPC1 : Hypergraph.PreCheck f.cod A
      (fun v => f.spider_types.getD v "") := by
    have hsl := preCheck_slice hfPC (f.wires.length - f.cod.length)
      f.cod.length
    rw [hf_ports, List.drop_left'
        (by simp only [List.length_append]; rw [hfb]; omega),
      List.take_of_length_le (le_refl _)] at hsl
    rw [List.take_of_length_le (by
      simp only [List.length_take, List.length_drop]
      omega)] at hsl
    exact hsl
  have hPC3 : Hypergraph.PreCheck f.dom C
      (fun v => f.spider_types.getD v "") := by
    have hsl := preCheck_slice hfPC 0 f.dom.length
    rw [List.drop_zero, List.drop_zero, hf_ports, List.append_assoc,
      List.take_left] at hsl
    exact hsl
  have hpcmid : Hypergraph.PreCheck
      ((f.boxes.map fun b => b.dom ++ b.cod).flatten)
      ((f.wires.drop f.dom.length).take
        ((f.boxes.map fun b => b.dom.length + b.cod.length).sum))
      (fun v => f.spider_types.getD v "") := by
    have hsl := preCheck_slice hfPC f.dom.length
      (f.wires.length - f.dom.length - f.cod.length)
    rw [hf_ports, List.append_assoc, List.drop_left,
      List.take_left' (by rw [hfb]; omega)] at hsl
    have harith : f.wires.length - f.dom.length - f.cod.length
        = (f.boxes.map fun b => b.dom.length + b.cod.length).sum := by
      omega
    rw [harith] at hsl
    exact hsl
  have hPC2 : Hypergraph.PreCheck
      (((f.boxes.reverse.map Box.dagger).map fun b => b.dom ++ b.cod).flatten)
      Bd (fun v => f.spider_types.getD v "") := by
    have hps := @preCheck_flatten
      (fun v => f.spider_types.getD v "")
      ((f.boxes.reverse.zip f.box_wires.reverse).map
        (fun q => (q.1.cod ++ q.1.dom, q.2.2 ++ q.2.1)))
      ?_
    · have hfst : (((f.boxes.reverse.zip f.box_wires.reverse).map
            (fun q => (q.1.cod ++ q.1.dom, q.2.2 ++ q.2.1))).map Prod.fst)
          = (f.boxes.reverse.map Box.dagger).map fun b => b.dom ++ b.cod := by
        rw [List.map_map, List.map_map]
        have h1 : (Prod.fst ∘ fun q : Box × (List Nat × List Nat) =>
              ((q.1.cod ++ q.1.dom : Ty), q.2.2 ++ q.2.1))
            = (fun b : Box => b.cod ++ b.dom) ∘ Prod.fst := by
          funext q
          rfl
        have h2 : ((fun b : Box => b.dom ++ b.cod) ∘ Box.dagger)
            = fun b : Box => b.cod ++ b.dom := by
          funext b
          rfl
        rw [h1, h2, ← List.map_map]
        rw [List.map_fst_zip _ _ (by
          rw [List.length_reverse, List.length_reverse, hbw_len])]
      have hsnd : (((f.boxes.reverse.zip f.box_wires.reverse).map
            (fun q => (q.1.cod ++ q.1.dom, q.2.2 ++ q.2.1))).map Prod.snd)
          = f.box_wires.reverse.map fun p => p.2 ++ p.1 := by
        rw [List.map_map]
        have h1 : (Prod.snd ∘ fun q : Box × (List Nat × List Nat) =>
              ((q.1.cod ++ q.1.dom : Ty), q.2.2 ++ q.2.1))
            = (fun p : List Nat × List Nat => p.2 ++ p.1) ∘ Prod.snd := by
          funext q
          rfl
        rw [h1, ← List.map_map]
        rw [List.map_snd_zip _ _ (by
          rw [List.length_reverse, List.length_reverse, hbw_len])]
      rw [hfst, hsnd] at hps
      exact hps
    · intro q hq
      rcases List.mem_map.1 hq with ⟨z, hz, rfl⟩
      obtain ⟨zb, zp⟩ := z
      rcases List.mem_iff_getElem.1 hz with ⟨j, hjlen, hzeq⟩
      have hjz := hjlen
      rw [List.length_zip, List.length_reverse, List.length_reverse,
        hbw_len] at hjz
      have hjb : j < f.boxes.length := lt_of_lt_of_le hjz inf_le_left
      have hjbr : j < f.boxes.reverse.length := by
        rw [List.length_reverse]; exact hjb
      have hjwr : j < f.box_wires.reverse.length := by
        rw [List.length_reverse, hbw_len]; exact hjb
      have hzz := List.getElem_zip (h := hjlen)
      rw [hzeq] at hzz
      have hzb : zb = f.boxes.reverse[j] :=
        congrArg Prod.fst hzz
      have hzp : zp = f.box_wires.reverse[j] :=
        congrArg Prod.snd hzz
      have hrev1 : f.boxes.reverse[j]
          = f.boxes[f.boxes.length - 1 - j] := List.getElem_reverse _
      have hjb2 : f.boxes.length - 1 - j < f.boxes.length := by omega
      have hjw2 : f.boxes.length - 1 - j < f.box_wires.length := by
        rw [hbw_len]
        exact hjb2
      have hrev2 : f.box_wires.reverse[j]
          = f.box_wires[f.boxes.length - 1 - j] := by
        have := List.getElem_reverse
          (l := f.box_wires) (i := j) (by rw [List.length_reverse, hbw_len]; exact hjb)
        rw [this]
        congr 1
        rw [hbw_len]
      have haligned := bwAux_aligned f.boxes f.wires f.dom.length
        (by
          have harith : f.wires.drop f.dom.length
              = f.wires.drop f.dom.length := rfl
          exact hpcmid)
        (f.boxes.length - 1 - j) hjb2
        (by rw [show (Hypergraph.boxWiresAux f.wires f.boxes f.dom.length)
              = f.box_wires from rfl, hbw_len]; exact hjb2)
      have hlens := boxWires_len_at f.boxes f.wires f.dom.length (by omega)
        (f.boxes.length - 1 - j) hjb2
        (by rw [show (Hypergraph.boxWiresAux f.wires f.boxes f.dom.length)
              = f.box_wires from rfl, hbw_len]; exact hjb2)
      have hl1 : (f.box_wires[f.boxes.length - 1 - j]).1.length
          = f.boxes[f.boxes.length - 1 - j].dom.length := hlens.1
      have hl2 : (f.box_wires[f.boxes.length - 1 - j]).2.length
          = f.boxes[f.boxes.length - 1 - j].cod.length := hlens.2
      constructor
      · show Hypergraph.PreCheck (zb.cod ++ zb.dom) (zp.2 ++ zp.1) _
        rw [hzb, hzp, hrev1, hrev2]
        exact preCheck_append hlens.2 haligned.2 haligned.1
      · show (zp.2 ++ zp.1).length = (zb.cod ++ zb.dom).length
        rw [hzb, hzp, hrev1, hrev2]
        simp only [List.length_append]
        rw [hl1, hl2]
  have hPCall : Hypergraph.PreCheck
      ((f.cod ++ ((f.boxes.reverse.map Box.dagger).map
          fun b => b.dom ++ b.cod).flatten) ++ f.dom)
      ((A ++ Bd) ++ C) (fun v => f.spider_types.getD v "") := by
    refine preCheck_append ?_ (preCheck_append ?_ hPC1 hPC2) hPC3
    · simp only [List.length_append]
      rw [hA_len, hBd_len]
      have := boxTypes_flatten_length (f.boxes.reverse.map Box.dagger)
      rw [this, hSd]
    · rw [hA_len]
  have hpreW : ∀ i, i < ((A ++ Bd) ++ C).length →
      (Hypergraph.portTypes f.cod f.dom
        (f.boxes.reverse.map Box.dagger)).getD i ""
      = (dlookup f.spider_types.enum (((A ++ Bd) ++ C).getD i 0)).getD "" := by
    intro i hi
    rw [dlookup_enum_getD]
    exact hPCall i hi
  obtain ⟨h1, hmk1⟩ := mkH_ok_of_preCheck (some f.offsets.reverse)
    hlenW hkeysW hpreW
  have htdef : Hypergraph.dagger f
      = Hypergraph.mkH f.cod f.dom (f.boxes.reverse.map Box.dagger)
          ((A ++ Bd) ++ C) f.spider_types.enum (some f.offsets.reverse) := rfl
  -- the relabeling list in explicit form
  obtain ⟨hρform, hkw'⟩ := relabelingOf_of_memRange hval' hkn
  obtain ⟨hd1, hc1, hb1, hw1, hty1, _, _, hoff1⟩ := mkH_ok_elim hmk1
  rw [List.enum_map_fst] at hw1 hty1
  have hrange : List.range f.spider_types.length
      = List.range f.n_spiders := rfl
  rw [hrange] at hw1 hty1
  set ρ := relabelingOf ((A ++ Bd) ++ C) (List.range f.n_spiders) with hρ
  have hρnodup : ρ.Nodup := by
    rw [hρform, List.nodup_append]
    refine ⟨nodup_firstOccs _, List.nodup_range' _ _, ?_⟩
    intro x hx hx2
    have h1 : x < k := by
      have := mem_firstOccs.1 hx
      exact (hval' x).1 this
    rw [List.mem_range'_1] at hx2
    omega
  have hρlen : ρ.length = f.n_spiders := by
    rw [hρform, List.length_append, hkw', List.length_range']
    omega
  have hρmem : ∀ v, v ∈ ρ ↔ v < f.n_spiders := by
    intro v
    rw [hρform, List.mem_append, List.mem_range'_1]
    constructor
    · intro hv
      rcases hv with hv | hv
      · have : v < k := (hval' v).1 (mem_firstOccs.1 hv)
        omega
      · omega
    · intro hv
      by_cases hvk : v < k
      · exact Or.inl (mem_firstOccs.2 ((hval' v).2 hvk))
      · right
        omega
  have hρlow : ∀ j, j < k → ρ.getD j 0 < k := by
    intro j hj
    have hj2 : j < (firstOccs ((A ++ Bd) ++ C)).length := by
      rw [hkw']
      exact hj
    rw [hρform]
    rw [List.getD_eq_getElem?_getD, List.getElem?_append, if_pos hj2,
      List.getElem?_eq_getElem hj2]
    have : (firstOccs ((A ++ Bd) ++ C))[j] ∈ firstOccs ((A ++ Bd) ++ C) :=
      List.getElem_mem hj2
    have h3 := (hval' _).1 (mem_firstOccs.1 this)
    exact h3
  have hρhigh : ∀ j, k ≤ j → j < f.n_spiders → ρ.getD j 0 = j := by
    intro j hjk hjn
    rw [hρform]
    have hj2 : j - k < (List.range' k (f.n_spiders - k)).length := by
      rw [List.length_range']
      omega
    rw [List.getD_eq_getElem?_getD,
      List.getElem?_append_right (by rw [hkw']; omega)]
    rw [hkw', List.getElem?_eq_getElem hj2]
    simp only [Option.getD_some]
    rw [List.getElem_range']
    omega
  -- the spider types of the dagger
  have hall2 : ∀ s ∈ ρ, (dlookup f.spider_types.enum s).isSome := by
    intro s hs
    rw [dlookup_enum_isSome_iff]
    exact (hρmem s).1 hs
  have hty2 : h1.spider_types = ρ.map (fun s => f.spider_types.getD s "") := by
    have := typesOf_of_all_some hall2
    rw [this] at hty1
    have hinj := Option.some.inj hty1
    rw [← hinj]
    apply List.map_congr_left
    intro s _
    rw [dlookup_enum_getD]
  refine ⟨h1, ρ, by rw [htdef]; exact hmk1, mkH_valid hmk1,
    hd1, hc1, hb1, hw1, hty2, by rw [hoff1]; rfl, hρnodup, hρlen, hρmem,
    hρlow, hρhigh⟩

theorem box_dagger_dagger (b : Box) : (b.dagger).dagger = b := by
  cases b
  simp [Box.dagger, Bool.not_not]

theorem dagger_dagger (f : Hypergraph) (hf : f.Valid) :
    ∃ h1, Hypergraph.dagger f = .ok h1 ∧ Hypergraph.dagger h1 = .ok f := by
  obtain ⟨h1, ρ, hdg, hv1, hd1, hc1, hb1, hw1, hty1, hoff1, hρnd, hρlen,
    hρmem, hρlow, hρhigh⟩ := dagger_fields f hf
  refine ⟨h1, hdg, ?_⟩
  have hflen0 := hf.1
  rw [Hypergraph.ports, Hypergraph.portTypes_length] at hflen0
  have hfb := boxTypes_flatten_length f.boxes
  have hfPC := valid_preCheck f hf
  have hcan := hf.2.1
  have hkn : (firstOccs f.wires).length ≤ f.n_spiders := hf.2.2.1
  set k := (firstOccs f.wires).length with hk
  set A := f.wires.drop (f.wires.length - f.cod.length) with hA
  set Bd := (f.box_wires.reverse.map fun p => p.2 ++ p.1).flatten with hBd
  set C := f.wires.take f.dom.length with hC
  have hvalw : ∀ v, v ∈ f.wires ↔ v < k := by
    intro v
    rw [← mem_firstOccs]
    rw [CanonicalW] at hcan
    rw [hcan, List.mem_range, ← hk]
  -- index-of properties of the dagger relabeling
  obtain ⟨hip1, hip2⟩ := perm_range_props hρnd hρlen hρmem
  have hσlow : ∀ s, s < k → ρ.indexOf s < k := by
    intro s hs
    have hsn : s < f.n_spiders := by omega
    obtain ⟨he, hlt⟩ := hip1 s hsn
    by_contra hge
    have := hρhigh (ρ.indexOf s) (by omega) hlt
    rw [this] at he
    omega
  have hσhigh : ∀ s, k ≤ s → s < f.n_spiders → ρ.indexOf s = s := by
    intro s hks hsn
    have hgd := hρhigh s hks hsn
    have := (hip2 s hsn).1
    rw [hgd] at this
    exact this
  have hσinj : ∀ a b, a < f.n_spiders → b < f.n_spiders →
      ρ.indexOf a = ρ.indexOf b → a = b := by
    intro a b ha hb heq
    have h1 := (hip1 a ha).1
    have h2 := (hip1 b hb).1
    rw [← h1, ← h2, heq]
  -- segment lengths
  have hA_len : A.length = f.cod.length := by
    rw [hA, List.length_drop]
    omega
  have hC_len : C.length = f.dom.length := by
    rw [hC, List.length_take]
    omega
  have hbw_len : f.box_wires.length = f.boxes.length := by
    rw [Hypergraph.box_wires, boxWiresAux_length]
  have hBd_len : Bd.length
      = (f.boxes.map (fun b => b.dom.length + b.cod.length)).sum := by
    rw [hBd, List.length_flatten, List.map_map]
    have h1 : (List.length ∘ fun (p : List Nat × List Nat) => p.2 ++ p.1)
        = fun p : List Nat × List Nat => p.2.length + p.1.length := by
      funext p
      simp [Function.comp, List.length_append]
    rw [h1, List.map_reverse, List.sum_reverse]
    have h2 := congrArg (List.map (fun q : Nat × Nat => q.2 + q.1))
      (Hypergraph.boxWiresAux_lengths f.boxes f.wires f.dom.length (by omega))
    rw [List.map_map, List.map_map] at h2
    have h3 : ((fun q : Nat × Nat => q.2 + q.1)
          ∘ fun p : List Nat × List Nat => (p.1.length, p.2.length))
        = fun p : List Nat × List Nat => p.2.length + p.1.length := by
      funext p
      rfl
    have h4 : ((fun q : Nat × Nat => q.2 + q.1)
          ∘ fun b : Box => (b.dom.length, b.cod.length))
        = fun b : Box => b.cod.length + b.dom.length := by
      funext b
      rfl
    rw [h3, h4] at h2
    rw [show (Hypergraph.boxWiresAux f.wires f.boxes f.dom.length)
        = f.box_wires from rfl] at h2
    rw [h2]
    rw [List.map_congr_left
      (fun b _ => Nat.add_comm b.cod.length b.dom.length)]
  -- the wires of the dagger in segment form
  have hw1seg : h1.wires = (A.map fun s => ρ.indexOf s)
      ++ (((f.box_wires.reverse.map
          (fun p => (p.2.map fun s => ρ.indexOf s,
            p.1.map fun s => ρ.indexOf s))).map
            fun q => q.1 ++ q.2).flatten
        ++ (C.map fun s => ρ.indexOf s)) := by
    rw [hw1, List.map_append, List.map_append, List.append_assoc]
    congr 2
    rw [hBd, List.map_flatten, List.map_map, List.map_map]
    congr 1
    apply List.map_congr_left
    intro p _
    simp [Function.comp, List.map_append]
  -- the box wires of the dagger
  have hbw1 : h1.box_wires
      = f.box_wires.reverse.map
          (fun p => (p.2.map fun s => ρ.indexOf s,
            p.1.map fun s => ρ.indexOf s)) := by
    rw [Hypergraph.box_wires, hb1]
    have hdlen : h1.dom.length = (A.map fun s => ρ.indexOf s).length := by
      rw [hd1, List.length_map, hA_len]
    rw [hdlen]
    have := boxWiresAux_exact (f.boxes.reverse.map Box.dagger)
      (f.box_wires.reverse.map
        (fun p => (p.2.map fun s => ρ.indexOf s,
          p.1.map fun s => ρ.indexOf s)))
      (A.map fun s => ρ.indexOf s) (C.map fun s => ρ.indexOf s)
      (by rw [List.length_map, List.length_map, List.length_reverse,
        List.length_reverse, hbw_len])
      ?_
    · rw [← hw1seg] at this
      exact this
    · intro q hq
      rcases List.mem_iff_getElem.1 hq with ⟨j, hjlen, hzeq⟩
      have hjz := hjlen
      rw [List.length_zip, List.length_map, List.length_map,
        List.length_reverse, List.length_reverse, hbw_len] at hjz
      have hjb : j < f.boxes.length := lt_of_lt_of_le hjz inf_le_left
      have hjbm : j < (f.boxes.reverse.map Box.dagger).length := by
        rw [List.length_map, List.length_reverse]; exact hjb
      have hjwm : j < (f.box_wires.reverse.map
          (fun p : List Nat × List Nat =>
            (p.2.map fun s => ρ.indexOf s,
              p.1.map fun s => ρ.indexOf s))).length := by
        rw [List.length_map, List.length_reverse, hbw_len]; exact hjb
      have hjbr : j < f.boxes.reverse.length := by
        rw [List.length_reverse]; exact hjb
      have hjwr : j < f.box_wires.reverse.length := by
        rw [List.length_reverse, hbw_len]; exact hjb
      have hzz := List.getElem_zip (h := hjlen)
      rw [hzeq] at hzz
      obtain ⟨zb, zp⟩ := q
      have hzb : zb = (f.boxes.reverse.map Box.dagger)[j] :=
        congrArg Prod.fst hzz
      rw [List.getElem_map] at hzb
      have hzp : zp = (f.box_wires.reverse.map
            (fun p : List Nat × List Nat =>
              (p.2.map fun s => ρ.indexOf s,
                p.1.map fun s => ρ.indexOf s)))[j] :=
        congrArg Prod.snd hzz
      rw [List.getElem_map] at hzp
      have hjb2 : f.boxes.length - 1 - j < f.boxes.length := by omega
      have hjw2 : f.boxes.length - 1 - j < f.box_wires.length := by
        rw [hbw_len]
        exact hjb2
      have hrev1 : f.boxes.reverse[j]
          = f.boxes[f.boxes.length - 1 - j] := List.getElem_reverse _
      have hrev2 : f.box_wires.reverse[j]
          = f.box_wires[f.boxes.length - 1 - j] := by
        have := List.getElem_reverse (l := f.box_wires) (i := j)
          (by rw [List.length_reverse, hbw_len]; exact hjb)
        rw [this]
        congr 1
        rw [hbw_len]
      have hlens := boxWires_len_at f.boxes f.wires f.dom.length (by omega)
        (f.boxes.length - 1 - j) hjb2
        (by rw [show (Hypergraph.boxWiresAux f.wires f.boxes f.dom.length)
              = f.box_wires from rfl, hbw_len]; exact hjb2)
      have hl1 : (f.box_wires[f.boxes.length - 1 - j]).1.length
          = f.boxes[f.boxes.length - 1 - j].dom.length := hlens.1
      have hl2 : (f.box_wires[f.boxes.length - 1 - j]).2.length
          = f.boxes[f.boxes.length - 1 - j].cod.length := hlens.2
      constructor
      · show zp.1.length = zb.dom.length
        rw [hzb, hzp, hrev1, hrev2]
        simp only [List.length_map]
        exact hl2
      · show zp.2.length = zb.cod.length
        rw [hzb, hzp, hrev1, hrev2]
        simp only [List.length_map]
        exact hl1
  -- the second dagger call in explicit form
  have hL1 : h1.wires.length = f.wires.length := by
    rw [hw1, List.length_map]
    simp only [List.length_append]
    rw [hA_len, hC_len, hBd_len]
    omega
  have hdag2 : Hypergraph.dagger h1
      = Hypergraph.mkH f.dom f.cod f.boxes
          ((f.wires.map fun s => ρ.indexOf s))
          h1.spider_types.enum (some f.offsets) := by
    have hstep : Hypergraph.dagger h1
        = Hypergraph.mkH h1.cod h1.dom (h1.boxes.reverse.map Box.dagger)
            ((h1.wires.drop (h1.wires.length - h1.cod.length)
              ++ (h1.box_wires.reverse.map fun p => p.2 ++ p.1).flatten)
              ++ h1.wires.take h1.dom.length)
            h1.spider_types.enum (some h1.offsets.reverse) := rfl
    rw [hstep]
    have hA1 : h1.wires.drop (h1.wires.length - h1.cod.length)
        = C.map fun s => ρ.indexOf s := by
      rw [hL1, hc1, hw1seg]
      rw [← List.append_assoc]
      apply List.drop_left'
      simp only [List.length_append, List.length_map, List.length_flatten]
      rw [hA_len, List.map_map, List.map_map]
      have hmid : ∀ p : List Nat × List Nat,
          ((List.length ∘ fun q : List Nat × List Nat => q.1 ++ q.2)
            ∘ fun p : List Nat × List Nat =>
              (p.2.map fun s => ρ.indexOf s, p.1.map fun s => ρ.indexOf s)) p
          = p.2.length + p.1.length := by
        intro p
        simp [Function.comp, List.length_append]
      rw [List.map_congr_left (fun p _ => hmid p),
        List.map_reverse, List.sum_reverse]
      have h2 := congrArg (List.map (fun q : Nat × Nat => q.2 + q.1))
        (Hypergraph.boxWiresAux_lengths f.boxes f.wires f.dom.length
          (by omega))
      rw [List.map_map, List.map_map] at h2
      have h3 : ((fun q : Nat × Nat => q.2 + q.1)
            ∘ fun p : List Nat × List Nat => (p.1.length, p.2.length))
          = fun p : List Nat × List Nat => p.2.length + p.1.length := by
        funext p
        rfl
      have h4 : ((fun q : Nat × Nat => q.2 + q.1)
            ∘ fun b : Box => (b.dom.length, b.cod.length))
          = fun b : Box => b.cod.length + b.dom.length := by
        funext b
        rfl
      rw [h3, h4] at h2
      rw [show (Hypergraph.boxWiresAux f.wires f.boxes f.dom.length)
          = f.box_wires from rfl] at h2
      rw [h2]
      rw [List.map_congr_left
        (fun b _ => Nat.add_comm b.cod.length b.dom.length)]
      omega
    have hC1 : h1.wires.take h1.dom.length = A.map fun s => ρ.indexOf s := by
      rw [hw1seg, hd1]
      apply List.take_left'
      rw [List.length_map, hA_len]
    have hrevrev : h1.box_wires.reverse
        = f.box_wires.map
            (fun p : List Nat × List Nat =>
              (p.2.map fun s => ρ.indexOf s,
                p.1.map fun s => ρ.indexOf s)) := by
      rw [hbw1, ← List.map_reverse, List.reverse_reverse]
    have hBd1 : (h1.box_wires.reverse.map fun p => p.2 ++ p.1).flatten
        = ((f.box_wires.map fun p => p.1 ++ p.2).flatten).map
            fun s => ρ.indexOf s := by
      rw [hrevrev, List.map_map, List.map_flatten, List.map_map]
      congr 1
      apply List.map_congr_left
      intro p _
      simp [Function.comp, List.map_append]
    have hboxes2 : h1.boxes.reverse.map Box.dagger = f.boxes := by
      rw [hb1, ← List.map_reverse, List.reverse_reverse, List.map_map]
      exact (List.map_congr_left
        (fun b _ => box_dagger_dagger b)).trans (List.map_id' f.boxes)
    have hwires2 : (h1.wires.drop (h1.wires.length - h1.cod.length)
          ++ (h1.box_wires.reverse.map fun p => p.2 ++ p.1).flatten)
          ++ h1.wires.take h1.dom.length
        = f.wires.map fun s => ρ.indexOf s := by
      rw [hA1, hC1, hBd1]
      rw [List.append_assoc, ← List.map_append, ← List.map_append]
      congr 1
      exact (wires_decomp f hf).symm
    rw [hA1, hC1, hBd1, hboxes2, hc1, hd1, hoff1, List.reverse_reverse]
    congr 1
    rw [← hA1, ← hC1, ← hBd1]
    exact hwires2
  -- evaluate the second constructor call
  have hn : f.spider_types.length = f.n_spiders := rfl
  have hT1len : h1.spider_types.length = f.n_spiders := by
    rw [hty1, List.length_map, hρlen]
  have hT1getD : ∀ v, v < f.n_spiders →
      h1.spider_types.getD v ""
        = f.spider_types.getD (ρ.getD v 0) "" := by
    intro v hv
    have hv2 : v < (ρ.map (fun s => f.spider_types.getD s "")).length := by
      rw [List.length_map, hρlen]
      exact hv
    rw [hty1, getD_merge_str _ v hv2, List.getElem_map,
      ← getD_merge_nat ρ v (by rw [hρlen]; exact hv)]
  -- values of the remapped wires
  have hw2val : ∀ v, v ∈ (f.wires.map fun s => ρ.indexOf s) ↔ v < k := by
    intro v
    constructor
    · intro hv
      rcases List.mem_map.1 hv with ⟨s, hs, rfl⟩
      exact hσlow s ((hvalw s).1 hs)
    · intro hv
      have hvn : v < f.n_spiders := by omega
      have hgd := hρlow v hv
      refine List.mem_map.2 ⟨ρ.getD v 0, (hvalw _).2 hgd, ?_⟩
      exact (hip2 v hvn).1
  obtain ⟨hρ2form, hρ2k⟩ := relabelingOf_of_memRange hw2val hkn
  have hFO2 : firstOccs (f.wires.map fun s => ρ.indexOf s)
      = (List.range k).map fun s => ρ.indexOf s := by
    have hinjw : ∀ a ∈ f.wires, ∀ b ∈ f.wires,
        ρ.indexOf a = ρ.indexOf b → a = b := by
      intro a ha b hb heq
      exact hσinj a b (by have := (hvalw a).1 ha; omega)
        (by have := (hvalw b).1 hb; omega) heq
    rw [firstOccs_map_injOn hinjw]
    have hcan2 : firstOccs f.wires
        = List.range (firstOccs f.wires).length := hcan
    rw [hcan2, ← hk]
  have hFO2nodup : ((List.range k).map fun s => ρ.indexOf s).Nodup := by
    apply List.Nodup.map_on
    · intro a ha b hb heq
      rw [List.mem_range] at ha hb
      exact hσinj a b (by omega) (by omega) heq
    · exact List.nodup_range k
  -- the second constructor succeeds
  have hlen2 : (f.wires.map fun s => ρ.indexOf s).length
      = (Hypergraph.portTypes f.dom f.cod f.boxes).length := by
    rw [List.length_map]
    exact hf.1
  have hkeys2 : ∀ v ∈ (f.wires.map fun s => ρ.indexOf s),
      (dlookup h1.spider_types.enum v).isSome := by
    intro v hv
    rw [dlookup_enum_isSome_iff, hT1len]
    have := (hw2val v).1 hv
    omega
  have hpre2 : ∀ i, i < (f.wires.map fun s => ρ.indexOf s).length →
      (Hypergraph.portTypes f.dom f.cod f.boxes).getD i ""
      = (dlookup h1.spider_types.enum
          ((f.wires.map fun s => ρ.indexOf s).getD i 0)).getD "" := by
    intro i hi
    rw [List.length_map] at hi
    rw [dlookup_enum_getD]
    have hwv : (f.wires.map fun s => ρ.indexOf s).getD i 0
        = ρ.indexOf (f.wires.getD i 0) := by
      rw [getD_merge_nat _ i (by rw [List.length_map]; exact hi),
        List.getElem_map, ← getD_merge_nat f.wires i hi]
    rw [hwv]
    have hs : f.wires.getD i 0 < k := (hvalw _).1 (getD_mem_nat f.wires i hi)
    have hsn : f.wires.getD i 0 < f.n_spiders := by omega
    rw [hT1getD _ (by have := hσlow _ hs; omega), (hip1 _ hsn).1]
    exact hfPC i hi
  obtain ⟨h2, hmk2⟩ := mkH_ok_of_preCheck (some f.offsets) hlen2 hkeys2 hpre2
  obtain ⟨hd2, hc2, hb2, hw2, hty2, _, _, hoff2⟩ := mkH_ok_elim hmk2
  rw [List.enum_map_fst] at hw2 hty2
  have hrangeT : List.range h1.spider_types.length
      = List.range f.n_spiders := by
    rw [hT1len]
  rw [hrangeT] at hw2 hty2
  -- the relabeling of the second call undoes the first
  have hw2f : h2.wires = f.wires := by
    rw [hw2, List.map_map]
    have hpt : ∀ s ∈ f.wires,
        ((fun s => (relabelingOf (f.wires.map fun s => ρ.indexOf s)
            (List.range f.n_spiders)).indexOf s)
          ∘ fun s => ρ.indexOf s) s = s := by
      intro s hs
      have hsk : s < k := (hvalw s).1 hs
      simp only [Function.comp]
      rw [hρ2form]
      have hmem2 : ρ.indexOf s ∈ firstOccs (f.wires.map fun s => ρ.indexOf s) := by
        rw [hFO2]
        exact List.mem_map.2 ⟨s, List.mem_range.2 hsk, rfl⟩
      rw [List.indexOf_append_of_mem hmem2, hFO2]
      have hsk2 : s < (List.range k).length := by
        rw [List.length_range]
        exact hsk
      have hsm : s < ((List.range k).map fun s => ρ.indexOf s).length := by
        rw [List.length_map]; exact hsk2
      have hplain : ((List.range k).map fun s => ρ.indexOf s)[s]
          = ρ.indexOf s := by
        rw [List.getElem_map, List.getElem_range]
      rw [← hplain]
      exact List.indexOf_getElem hFO2nodup s hsm
    rw [List.map_congr_left hpt, List.map_id']
  -- the spider types of the second call equal the original
  have hall3 : ∀ s ∈ relabelingOf (f.wires.map fun s => ρ.indexOf s)
      (List.range f.n_spiders), (dlookup h1.spider_types.enum s).isSome := by
    intro s hs
    rw [hρ2form, List.mem_append] at hs
    rw [dlookup_enum_isSome_iff, hT1len]
    rcases hs with hs | hs
    · have := (hw2val s).1 (mem_firstOccs.1 hs)
      omega
    · rw [List.mem_range'_1] at hs
      omega
  have hty2f : h2.spider_types = f.spider_types := by
    rw [typesOf_of_all_some hall3] at hty2
    have hinj := Option.some.inj hty2
    refine hinj.symm.trans ?_
    apply List.ext_getElem
    · rw [List.length_map, hρ2form, List.length_append, hρ2k,
        List.length_range']
      rw [← hn]
      omega
    · intro j hj1 hj2
      have hjlt : j < f.n_spiders := by
        rw [← hn]
        rw [List.length_map, hρ2form, List.length_append, hρ2k,
          List.length_range'] at hj1
        omega
      have hjr : j < (relabelingOf (f.wires.map fun s => ρ.indexOf s)
          (List.range f.n_spiders)).length := by
        rw [hρ2form, List.length_append, hρ2k, List.length_range']
        omega
      rw [List.getElem_map]
      rw [dlookup_enum_getD]
      have hval2 : (relabelingOf (f.wires.map fun s => ρ.indexOf s)
          (List.range f.n_spiders)).getD j 0
          = if j < k then ρ.indexOf j else j := by
        rw [hρ2form]
        by_cases hjk : j < k
        · rw [if_pos hjk]
          have hjk2 : j < (firstOccs
              (f.wires.map fun s => ρ.indexOf s)).length := by
            rw [hρ2k]
            exact hjk
          rw [List.getD_eq_getElem?_getD, List.getElem?_append, if_pos hjk2,
            List.getElem?_eq_getElem hjk2]
          simp only [Option.getD_some]
          simp only [hFO2]
          have hjk3 : j < (List.range k).length := by
            rw [List.length_range]
            exact hjk
          rw [List.getElem_map (h := by rw [List.length_map]; exact hjk3),
            List.getElem_range]
        · rw [if_neg hjk]
          have hj3 : j - k < (List.range' k (f.n_spiders - k)).length := by
            rw [List.length_range']
            omega
          rw [List.getD_eq_getElem?_getD,
            List.getElem?_append_right (by rw [hρ2k]; omega)]
          rw [hρ2k, List.getElem?_eq_getElem hj3]
          simp only [Option.getD_some]
          rw [List.getElem_range']
          omega
      rw [← getD_merge_nat _ j hjr, hval2]
      by_cases hjk : j < k
      · rw [if_pos hjk]
        rw [hT1getD _ ((hip1 j hjlt).2), (hip1 j hjlt).1]
        exact getD_merge_str f.spider_types j hj2
      · rw [if_neg hjk]
        rw [hT1getD _ hjlt, hρhigh j (by omega) hjlt]
        exact getD_merge_str f.spider_types j hj2
  have hoff2f : h2.offsets = f.offsets := by
    rw [hoff2]
    rfl
  have hfinal : h2 = f :=
    hypergraph_eq_of_fields hd2 hc2 hb2 hw2f hty2f hoff2f
  rw [hdag2, hmk2, hfinal]

/-- C4: dagger is an involution on valid hypergraphs: taking the dagger
twice returns the original hypergraph on the nose (and in particular up to
the isomorphism-based equality). -/
theorem C4_dagger :
    ∀ f : Hypergraph, f.Valid →
      ∃ h1, Hypergraph.dagger f = .ok h1
        ∧ Hypergraph.dagger h1 = .ok f :=
  fun f hf => dagger_dagger f hf

/-- Witness for C4 at a concrete valid hypergraph. -/
theorem C4_dagger_witness :
    ∃ h1, Hypergraph.dagger Hypergraph.exFb = .ok h1
      ∧ Hypergraph.dagger h1 = .ok Hypergraph.exFb :=
  C4_dagger Hypergraph.exFb (by decide)

/-! ### Claim C1: sequential composition -/

theorem dlookup_eq_of_uniform {st : List (Nat × Ob)} {k : Nat} {t : Ob}
    (hmem : k ∈ st.map Prod.fst)
    (hun : ∀ p ∈ st, p.1 = k → p.2 = t) :
    dlookup st k = some t := by
  have hsome : (dlookup st k).isSome := dlookup_isSome_iff.2 hmem
  rw [dlookup] at hsome ⊢
  cases hf : st.reverse.find? (fun p => p.1 == k) with
  | none =>
    rw [hf] at hsome
    cases hsome
  | some p =>
    have hp1 := List.find?_some hf
    have hpmem : p ∈ st.reverse := List.mem_of_find?_eq_some hf
    have hpt : p.2 = t := hun p (List.mem_reverse.1 hpmem) (by simpa using hp1)
    rw [Option.map_some', hpt]

theorem pushout_eq_poFinal (m n : Nat) (lb rb : List Nat) :
    pushout m n lb rb
      = ((poFinal m n lb rb).take m, (poFinal m n lb rb).drop m) := rfl

theorem poLabels_length (m n : Nat) (lb rb : List Nat) :
    (poLabels m n lb rb).length = m + n := by
  rw [poLabels]
  have hgen : ∀ (ps : List (Nat × Nat)) (labels : List Nat),
      (ps.foldl (fun labels p =>
        let la := labels.getD p.1 p.1
        let lbv := labels.getD (m + p.2) (m + p.2)
        labels.map (fun x => if x = lbv then la else x)) labels).length
      = labels.length := by
    intro ps
    induction ps with
    | nil => intro labels; rfl
    | cons p ps ih =>
      intro labels
      rw [List.foldl_cons, ih, List.length_map]
  rw [hgen, List.length_range]

theorem poFinal_length (m n : Nat) (lb rb : List Nat) :
    (poFinal m n lb rb).length = m + n := by
  rw [poFinal, List.length_map, poLabels_length]

theorem poLabels_compat (m n : Nat) (T : Ty) (lb rb : List Nat)
    (hbd : ∀ p ∈ lb.zip rb, p.1 < m + n ∧ m + p.2 < m + n
      ∧ T.getD p.1 "" = T.getD (m + p.2) "") :
    ∀ x y, x < m + n → y < m + n →
      (poLabels m n lb rb).getD x 0 = (poLabels m n lb rb).getD y 0 →
      T.getD x "" = T.getD y "" := by
  suffices hgen : ∀ (ps : List (Nat × Nat)) (labels : List Nat),
      labels.length = m + n →
      (∀ p ∈ ps, p.1 < m + n ∧ m + p.2 < m + n
        ∧ T.getD p.1 "" = T.getD (m + p.2) "") →
      (∀ x y, x < m + n → y < m + n →
        labels.getD x 0 = labels.getD y 0 → T.getD x "" = T.getD y "") →
      ∀ x y, x < m + n → y < m + n →
        (ps.foldl (fun labels p =>
          let la := labels.getD p.1 p.1
          let lbv := labels.getD (m + p.2) (m + p.2)
          labels.map (fun x => if x = lbv then la else x)) labels).getD x 0
          = (ps.foldl (fun labels p =>
            let la := labels.getD p.1 p.1
            let lbv := labels.getD (m + p.2) (m + p.2)
            labels.map (fun x => if x = lbv then la else x)) labels).getD y 0 →
        T.getD x "" = T.getD y "" by
    intro x y hx hy heq
    rw [poLabels] at heq
    refine hgen (lb.zip rb) (List.range (m + n)) (List.length_range _) hbd
      ?_ x y hx hy heq
    intro x y hx hy heq
    have hxv : (List.range (m + n)).getD x 0 = x := by
      rw [getD_merge_nat _ x (by simpa using hx), List.getElem_range]
    have hyv : (List.range (m + n)).getD y 0 = y := by
      rw [getD_merge_nat _ y (by simpa using hy), List.getElem_range]
    rw [hxv, hyv] at heq
    rw [heq]
  intro ps
  induction ps with
  | nil =>
    intro labels _ _ hinv
    exact hinv
  | cons p ps ih =>
    intro labels hlen hbd2 hinv
    rw [List.foldl_cons]
    obtain ⟨hp1, hp2, hpt⟩ := hbd2 p (List.mem_cons_self _ _)
    have hla : labels.getD p.1 p.1 = labels.getD p.1 0 := by
      rw [List.getD_eq_getElem?_getD, List.getD_eq_getElem?_getD,
        List.getElem?_eq_getElem (by rw [hlen]; exact hp1)]
      rfl
    have hlb : labels.getD (m + p.2) (m + p.2) = labels.getD (m + p.2) 0 := by
      rw [List.getD_eq_getElem?_getD, List.getD_eq_getElem?_getD,
        List.getElem?_eq_getElem (by rw [hlen]; exact hp2)]
      rfl
    have hstep : ∀ z, z < m + n →
        (labels.map (fun x =>
          if x = labels.getD (m + p.2) (m + p.2)
          then labels.getD p.1 p.1 else x)).getD z 0
        = if labels.getD z 0 = labels.getD (m + p.2) (m + p.2)
          then labels.getD p.1 p.1 else labels.getD z 0 := by
      intro z hz
      have hz2 : z < labels.length := by rw [hlen]; exact hz
      rw [getD_merge_nat _ z (by rw [List.length_map]; exact hz2),
        List.getElem_map, ← getD_merge_nat labels z hz2]
    apply ih
    · show (labels.map (fun x =>
          if x = labels.getD (m + p.2) (m + p.2)
          then labels.getD p.1 p.1 else x)).length = m + n
      rw [List.length_map]
      exact hlen
    · intro q hq
      exact hbd2 q (List.mem_cons_of_mem _ hq)
    · intro x y hx hy heq
      replace heq : (labels.map (fun x =>
            if x = labels.getD (m + p.2) (m + p.2)
            then labels.getD p.1 p.1 else x)).getD x 0
          = (labels.map (fun x =>
            if x = labels.getD (m + p.2) (m + p.2)
            then labels.getD p.1 p.1 else x)).getD y 0 := heq
      rw [hstep x hx, hstep y hy] at heq
      by_cases h1 : labels.getD x 0 = labels.getD (m + p.2) (m + p.2)
      · by_cases h2 : labels.getD y 0 = labels.getD (m + p.2) (m + p.2)
        · exact hinv x y hx hy (h1.trans h2.symm)
        · rw [if_pos h1, if_neg h2] at heq
          have e1 : T.getD x "" = T.getD (m + p.2) "" :=
            hinv x (m + p.2) hx hp2 (h1.trans hlb)
          have e2 : T.getD y "" = T.getD p.1 "" :=
            hinv y p.1 hy hp1 (heq.symm.trans hla)
          rw [e1, e2, ← hpt]
      · by_cases h2 : labels.getD y 0 = labels.getD (m + p.2) (m + p.2)
        · rw [if_neg h1, if_pos h2] at heq
          have e1 : T.getD y "" = T.getD (m + p.2) "" :=
            hinv y (m + p.2) hy hp2 (h2.trans hlb)
          have e2 : T.getD x "" = T.getD p.1 "" :=
            hinv x p.1 hx hp1 (heq.trans hla)
          rw [e1, e2, hpt]
        · rw [if_neg h1, if_neg h2] at heq
          exact hinv x y hx hy heq

theorem poFinal_getD (m n : Nat) (lb rb : List Nat) {x : Nat}
    (hx : x < m + n) :
    (poFinal m n lb rb).getD x 0
      = (firstOccs (poLabels m n lb rb)).indexOf
          ((poLabels m n lb rb).getD x 0) := by
  have hx2 : x < (poLabels m n lb rb).length := by
    rw [poLabels_length]
    exact hx
  rw [poFinal, getD_merge_nat _ x (by rw [List.length_map]; exact hx2),
    List.getElem_map, ← getD_merge_nat _ x hx2]

theorem poFinal_compat {m n : Nat} {T : Ty} {lb rb : List Nat}
    (hbd : ∀ p ∈ lb.zip rb, p.1 < m + n ∧ m + p.2 < m + n
      ∧ T.getD p.1 "" = T.getD (m + p.2) "") :
    ∀ x y, x < m + n → y < m + n →
      (poFinal m n lb rb).getD x 0 = (poFinal m n lb rb).getD y 0 →
      T.getD x "" = T.getD y "" := by
  intro x y hx hy heq
  rw [poFinal_getD m n lb rb hx, poFinal_getD m n lb rb hy] at heq
  have hx2 : x < (poLabels m n lb rb).length := by
    rw [poLabels_length]
    exact hx
  have hy2 : y < (poLabels m n lb rb).length := by
    rw [poLabels_length]
    exact hy
  have hmx := getD_mem_nat _ x hx2
  have hmy := getD_mem_nat _ y hy2
  have := (List.indexOf_inj (mem_firstOccs.2 hmx) (mem_firstOccs.2 hmy)).1 heq
  exact poLabels_compat m n T lb rb hbd x y hx hy this

theorem thenH_ok (f g : Hypergraph) (hf : f.Valid) (hg : g.Valid)
    (hcd : f.cod = g.dom) :
    ∃ h, Hypergraph.thenH f g = .ok h
      ∧ h.dom = f.dom ∧ h.cod = g.cod ∧ h.boxes = f.boxes ++ g.boxes := by
  have hflen0 := hf.1
  have hglen0 := hg.1
  rw [Hypergraph.ports, Hypergraph.portTypes_length] at hflen0 hglen0
  have hfb := boxTypes_flatten_length f.boxes
  have hgb := boxTypes_flatten_length g.boxes
  have hfbound := valid_wire_bound f hf
  have hgbound := valid_wire_bound g hg
  have hfPC := valid_preCheck f hf
  have hgPC := valid_preCheck g hg
  have hdg : g.dom.length = f.cod.length := by rw [hcd]
  set sb := f.wires.drop (f.wires.length - f.cod.length) with hsb
  set ob := g.wires.take g.dom.length with hob
  set Fl := poFinal f.n_spiders g.n_spiders sb ob with hFl
  set W1 := (f.wires.take (f.wires.length - f.cod.length)).map
    (fun i => (Fl.take f.n_spiders).getD i 0) with hW1
  set W2 := (g.wires.drop g.dom.length).map
    (fun i => (Fl.drop f.n_spiders).getD i 0) with hW2
  set ST := f.spider_types.enum.map
      (fun p => ((Fl.take f.n_spiders).getD p.1 0, p.2))
    ++ g.spider_types.enum.map
      (fun p => ((Fl.drop f.n_spiders).getD p.1 0, p.2)) with hST
  have hsb_len : sb.length = f.cod.length := by
    rw [hsb, List.length_drop]
    omega
  have hob_len : ob.length = g.dom.length := by
    rw [hob, List.length_take]
    omega
  -- the two boundaries pair up elements of equal declared type
  have hbd : ∀ p ∈ sb.zip ob, p.1 < f.n_spiders + g.n_spiders
      ∧ f.n_spiders + p.2 < f.n_spiders + g.n_spiders
      ∧ (f.spider_types ++ g.spider_types).getD p.1 ""
        = (f.spider_types ++ g.spider_types).getD (f.n_spiders + p.2) "" := by
    intro p hp
    rcases List.mem_iff_getElem.1 hp with ⟨i, hilen, rfl⟩
    have hiz := hilen
    rw [List.length_zip] at hiz
    have hisb : i < sb.length := lt_of_lt_of_le hiz inf_le_left
    have hiob : i < ob.length := lt_of_lt_of_le hiz inf_le_right
    rw [List.getElem_zip]
    have hsbm : sb[i] < f.n_spiders :=
      hfbound _ (List.mem_of_mem_drop (List.getElem_mem hisb))
    have hobm : ob[i] < g.n_spiders :=
      hgbound _ (List.mem_of_mem_take (List.getElem_mem hiob))
    refine ⟨by omega, by omega, ?_⟩
    have hL : (f.spider_types ++ g.spider_types).getD sb[i] ""
        = f.spider_types.getD sb[i] "" :=
      List.getD_append _ _ _ _ hsbm
    have hR : (f.spider_types ++ g.spider_types).getD (f.n_spiders + ob[i]) ""
        = g.spider_types.getD ob[i] "" := by
      have hm : f.spider_types.length = f.n_spiders := rfl
      rw [List.getD_append_right f.spider_types g.spider_types ""
        (f.n_spiders + ob[i]) (by omega)]
      have e : f.n_spiders + ob[i] - f.spider_types.length = ob[i] := by omega
      rw [e]
    have hidx : f.wires.length - f.cod.length + i < f.wires.length := by
      rw [hsb_len] at hisb
      omega
    have e1 : f.ports.getD (f.wires.length - f.cod.length + i) ""
        = f.spider_types.getD
            (f.wires.getD (f.wires.length - f.cod.length + i) 0) "" :=
      hfPC (f.wires.length - f.cod.length + i) hidx
    have e2 : f.wires.getD (f.wires.length - f.cod.length + i) 0 = sb[i] := by
      rw [← getD_drop_nat f.wires (f.wires.length - f.cod.length) i]
      exact getD_merge_nat sb i hisb
    have e3 : f.ports.getD (f.wires.length - f.cod.length + i) ""
        = f.cod.getD i "" := by
      have hfp : f.ports = (f.dom
          ++ (f.boxes.map fun b => b.dom ++ b.cod).flatten) ++ f.cod := rfl
      rw [hfp, List.getD_append_right _ _ _ _
        (by rw [List.length_append, hfb]; omega)]
      congr 1
      rw [List.length_append, hfb]
      omega
    have eL : f.spider_types.getD sb[i] "" = f.cod.getD i "" := by
      rw [← e2, ← e1]
      exact e3
    have hgidx : i < g.wires.length := by
      rw [hob_len] at hiob
      omega
    have e1g : g.ports.getD i ""
        = g.spider_types.getD (g.wires.getD i 0) "" := hgPC i hgidx
    have e2g : g.wires.getD i 0 = ob[i] := by
      rw [← getD_take_nat g.wires g.dom.length i (by rw [← hob_len]; exact hiob)]
      exact getD_merge_nat ob i hiob
    have e3g : g.ports.getD i "" = g.dom.getD i "" := by
      have hgp : g.ports = (g.dom
          ++ (g.boxes.map fun b => b.dom ++ b.cod).flatten) ++ g.cod := rfl
      rw [hgp, List.getD_append _ _ _ _
          (by rw [List.length_append]; rw [hob_len] at hiob; omega),
        List.getD_append _ _ _ _ (by rw [hob_len] at hiob; omega)]
    have eR : g.spider_types.getD ob[i] "" = g.dom.getD i "" := by
      rw [← e2g, ← e1g]
      exact e3g
    rw [hL, hR, eL, eR, hcd]
  have hcompat := poFinal_compat (T := f.spider_types ++ g.spider_types) hbd
  rw [← hFl] at hcompat
  have hτL : ∀ u, u < f.n_spiders →
      (Fl.take f.n_spiders).getD u 0 = Fl.getD u 0 :=
    fun u hu => getD_take_nat Fl f.n_spiders u hu
  have hτR : ∀ v, (Fl.drop f.n_spiders).getD v 0
      = Fl.getD (f.n_spiders + v) 0 :=
    fun v => getD_drop_nat Fl f.n_spiders v
  -- every entry of the spider type dict labels one pushout element
  have hstMem : ∀ p ∈ ST, ∃ x, x < f.n_spiders + g.n_spiders
      ∧ p.1 = Fl.getD x 0
      ∧ p.2 = (f.spider_types ++ g.spider_types).getD x "" := by
    intro p hp
    rcases List.mem_append.1 hp with hp | hp
    · rcases List.mem_map.1 hp with ⟨q, hq, rfl⟩
      obtain ⟨u, t⟩ := q
      obtain ⟨hu, ht⟩ := List.mem_enum hq
      refine ⟨u, lt_of_lt_of_le hu (Nat.le_add_right _ _), hτL u hu, ?_⟩
      rw [ht, List.getD_append _ _ _ _ hu, getD_merge_str f.spider_types u hu]
    · rcases List.mem_map.1 hp with ⟨q, hq, rfl⟩
      obtain ⟨v, t⟩ := q
      obtain ⟨hv, ht⟩ := List.mem_enum hq
      refine ⟨f.n_spiders + v, Nat.add_lt_add_left hv f.n_spiders, hτR v, ?_⟩
      have hm : f.spider_types.length = f.n_spiders := rfl
      rw [ht, List.getD_append_right f.spider_types g.spider_types ""
        (f.n_spiders + v) (by omega)]
      have harith : f.n_spiders + v - f.spider_types.length = v := by
        omega
      rw [harith, getD_merge_str g.spider_types v hv]
  -- the dict lookup of a pushout label returns the merged class's type
  have hlk : ∀ x, x < f.n_spiders + g.n_spiders →
      dlookup ST (Fl.getD x 0)
        = some ((f.spider_types ++ g.spider_types).getD x "") := by
    intro x hx
    apply dlookup_eq_of_uniform
    · by_cases hxm : x < f.n_spiders
      · have hxm2 : x < f.spider_types.length := hxm
        have hmem1 : (x, f.spider_types[x]) ∈ f.spider_types.enum := by
          have := List.getElem_enum f.spider_types x
            (by rw [List.enum_length]; exact hxm2)
          rw [← this]
          exact List.getElem_mem _
        apply List.mem_map.2
        refine ⟨((Fl.take f.n_spiders).getD x 0, f.spider_types[x]),
          List.mem_append_left _
            (List.mem_map.2 ⟨(x, f.spider_types[x]), hmem1, rfl⟩), ?_⟩
        exact hτL x hxm
      · have hv : x - f.n_spiders < g.spider_types.length := by
          have hn : g.spider_types.length = g.n_spiders := rfl
          rw [hn]
          omega
        have hmem1 : (x - f.n_spiders, g.spider_types[x - f.n_spiders])
            ∈ g.spider_types.enum := by
          have := List.getElem_enum g.spider_types (x - f.n_spiders)
            (by rw [List.enum_length]; exact hv)
          rw [← this]
          exact List.getElem_mem _
        apply List.mem_map.2
        refine ⟨((Fl.drop f.n_spiders).getD (x - f.n_spiders) 0,
            g.spider_types[x - f.n_spiders]),
          List.mem_append_right _
            (List.mem_map.2
              ⟨(x - f.n_spiders, g.spider_types[x - f.n_spiders]),
               hmem1, rfl⟩), ?_⟩
        rw [hτR (x - f.n_spiders)]
        have harith : f.n_spiders + (x - f.n_spiders) = x := by omega
        rw [harith]
    · intro p hp hkey
      obtain ⟨z, hz, hz1, hz2⟩ := hstMem p hp
      rw [hz2]
      exact hcompat z x hz hx (by rw [← hz1, hkey])
  -- the constructed call
  have htdef : Hypergraph.thenH f g
      = Hypergraph.mkH f.dom g.cod (f.boxes ++ g.boxes) (W1 ++ W2) ST
          (some (f.offsets ++ g.offsets)) := by
    rw [Hypergraph.thenH, if_neg (by simp [hcd])]
    rfl
  have hW1len : W1.length = f.wires.length - f.cod.length := by
    rw [hW1, List.length_map, List.length_take]
    omega
  have hW2len : W2.length = g.wires.length - g.dom.length := by
    rw [hW2, List.length_map, List.length_drop]
  have hports_eq2 : Hypergraph.portTypes f.dom g.cod (f.boxes ++ g.boxes)
      = (f.dom ++ (f.boxes.map fun b => b.dom ++ b.cod).flatten)
        ++ ((g.boxes.map fun b => b.dom ++ b.cod).flatten ++ g.cod) := by
    rw [Hypergraph.portTypes, List.map_append, List.flatten_append]
    simp only [List.append_assoc]
  have hWlen : (W1 ++ W2).length
      = (Hypergraph.portTypes f.dom g.cod (f.boxes ++ g.boxes)).length := by
    rw [List.length_append, hW1len, hW2len, Hypergraph.portTypes_length,
      List.map_append, List.sum_append]
    omega
  have hkeysW : ∀ v ∈ W1 ++ W2, (dlookup ST v).isSome := by
    intro v hv
    rcases List.mem_append.1 hv with hv | hv
    · rcases List.mem_map.1 hv with ⟨u, hu, rfl⟩
      have hum : u < f.n_spiders := hfbound u (List.mem_of_mem_take hu)
      rw [hτL u hum, hlk u (by omega)]
      rfl
    · rcases List.mem_map.1 hv with ⟨u, hu, rfl⟩
      have hum : u < g.n_spiders := hgbound u (List.mem_of_mem_drop hu)
      rw [hτR u, hlk (f.n_spiders + u) (by omega)]
      rfl
  have hpreW : ∀ i, i < (W1 ++ W2).length →
      (Hypergraph.portTypes f.dom g.cod (f.boxes ++ g.boxes)).getD i ""
      = (dlookup ST ((W1 ++ W2).getD i 0)).getD "" := by
    intro i hi
    rw [List.length_append] at hi
    by_cases hi1 : i < W1.length
    · have hi2 : i < f.wires.length - f.cod.length := by
        rw [hW1len] at hi1
        exact hi1
      have hiL : i < f.wires.length := by omega
      have hub := hfbound _ (getD_mem_nat f.wires i hiL)
      have hwv : (W1 ++ W2).getD i 0 = Fl.getD (f.wires.getD i 0) 0 := by
        rw [List.getD_append _ _ _ _ hi1]
        have h1 : W1.getD i 0
            = (Fl.take f.n_spiders).getD
                ((f.wires.take (f.wires.length - f.cod.length)).getD i 0) 0 := by
          rw [hW1, getD_merge_nat _ i (by rw [← hW1]; exact hi1),
            List.getElem_map,
            ← getD_merge_nat (f.wires.take (f.wires.length - f.cod.length)) i
              (by rw [List.length_take]; omega)]
        rw [h1, getD_take_nat f.wires _ i hi2]
        exact hτL _ hub
      rw [hwv, hlk (f.wires.getD i 0) (by omega), Option.getD_some]
      have hTu : (f.spider_types ++ g.spider_types).getD (f.wires.getD i 0) ""
          = f.spider_types.getD (f.wires.getD i 0) "" :=
        List.getD_append _ _ _ _ hub
      have hpt2 : (Hypergraph.portTypes f.dom g.cod (f.boxes ++ g.boxes)).getD i ""
          = f.ports.getD i "" := by
        rw [hports_eq2, List.getD_append _ _ _ _
          (by rw [List.length_append, hfb]; omega)]
        have hfp : f.ports = (f.dom
            ++ (f.boxes.map fun b => b.dom ++ b.cod).flatten) ++ f.cod := rfl
        rw [hfp, List.getD_append
          (f.dom ++ (f.boxes.map fun b => b.dom ++ b.cod).flatten) f.cod "" i
          (by rw [List.length_append, hfb]; omega)]
      have e4 : f.ports.getD i ""
          = f.spider_types.getD (f.wires.getD i 0) "" := hfPC i hiL
      rw [hpt2, e4, hTu]
    · have hj : i - W1.length < W2.length := by omega
      have hj2 : i - W1.length < g.wires.length - g.dom.length := by
        rw [hW2len] at hj
        exact hj
      have hdj : g.dom.length + (i - W1.length) < g.wires.length := by omega
      have hgwb := hgbound _
        (getD_mem_nat g.wires (g.dom.length + (i - W1.length)) hdj)
      have hwv : (W1 ++ W2).getD i 0
          = Fl.getD
              (f.n_spiders
                + g.wires.getD (g.dom.length + (i - W1.length)) 0) 0 := by
        rw [List.getD_append_right _ _ _ _ (by omega)]
        have h1 : W2.getD (i - W1.length) 0
            = (Fl.drop f.n_spiders).getD
                ((g.wires.drop g.dom.length).getD (i - W1.length) 0) 0 := by
          rw [hW2, getD_merge_nat _ (i - W1.length) (by rw [← hW2]; exact hj),
            List.getElem_map,
            ← getD_merge_nat (g.wires.drop g.dom.length) (i - W1.length)
              (by rw [List.length_drop]; omega)]
        rw [h1, getD_drop_nat g.wires g.dom.length (i - W1.length)]
        exact hτR _
      rw [hwv, hlk _ (by omega), Option.getD_some]
      have hTv : (f.spider_types ++ g.spider_types).getD
            (f.n_spiders + g.wires.getD (g.dom.length + (i - W1.length)) 0) ""
          = g.spider_types.getD
              (g.wires.getD (g.dom.length + (i - W1.length)) 0) "" := by
        have hm : f.spider_types.length = f.n_spiders := rfl
        rw [List.getD_append_right f.spider_types g.spider_types ""
          (f.n_spiders + g.wires.getD (g.dom.length + (i - W1.length)) 0)
          (by omega)]
        have e : f.n_spiders + g.wires.getD (g.dom.length + (i - W1.length)) 0
            - f.spider_types.length
            = g.wires.getD (g.dom.length + (i - W1.length)) 0 := by omega
        rw [e]
      rw [hTv]
      have hpt2 : (Hypergraph.portTypes f.dom g.cod (f.boxes ++ g.boxes)).getD i ""
          = g.ports.getD (g.dom.length + (i - W1.length)) "" := by
        have h1 : (Hypergraph.portTypes f.dom g.cod (f.boxes ++ g.boxes)).getD i ""
            = ((g.boxes.map fun b => b.dom ++ b.cod).flatten ++ g.cod).getD
                (i - W1.length) "" := by
          rw [hports_eq2, List.getD_append_right
            (f.dom ++ (f.boxes.map fun b => b.dom ++ b.cod).flatten)
            ((g.boxes.map fun b => b.dom ++ b.cod).flatten ++ g.cod) "" i
            (by rw [List.length_append, hfb]; omega)]
          have harith : i
              - (f.dom ++ (f.boxes.map fun b => b.dom ++ b.cod).flatten).length
              = i - W1.length := by
            rw [List.length_append, hfb]
            omega
          rw [harith]
        have h2 : g.ports.getD (g.dom.length + (i - W1.length)) ""
            = ((g.boxes.map fun b => b.dom ++ b.cod).flatten ++ g.cod).getD
                (i - W1.length) "" := by
          have hgp : g.ports = g.dom
              ++ ((g.boxes.map fun b => b.dom ++ b.cod).flatten ++ g.cod) := by
            show (g.dom ++ (g.boxes.map fun b => b.dom ++ b.cod).flatten)
                ++ g.cod = _
            rw [List.append_assoc]
          rw [hgp, List.getD_append_right g.dom
            ((g.boxes.map fun b => b.dom ++ b.cod).flatten ++ g.cod) ""
            (g.dom.length + (i - W1.length)) (Nat.le_add_right _ _)]
          have harith : g.dom.length + (i - W1.length) - g.dom.length
              = i - W1.length := by omega
          rw [harith]
        rw [h1, h2]
      rw [hpt2]
      exact hgPC (g.dom.length + (i - W1.length)) hdj
  obtain ⟨h, hmk⟩ := mkH_ok_of_preCheck (some (f.offsets ++ g.offsets))
    hWlen hkeysW hpreW
  obtain ⟨hd, hc, hb2, _⟩ := mkH_ok_elim hmk
  exact ⟨h, by rw [htdef]; exact hmk, hd, hc, hb2⟩

/-- C1: sequential composition fails with an AxiomError exactly when the
middle boundaries disagree; on valid hypergraphs with matching boundary it
succeeds and the result keeps the outer boundary and concatenates the
boxes. -/
theorem C1_then :
    ∀ f g : Hypergraph, f.Valid → g.Valid →
      (f.cod ≠ g.dom → Hypergraph.thenH f g = .error .axiomError)
      ∧ (f.cod = g.dom →
          ∃ h, Hypergraph.thenH f g = .ok h
            ∧ h.dom = f.dom ∧ h.cod = g.cod
            ∧ h.boxes = f.boxes ++ g.boxes) := by
  intro f g hf hg
  constructor
  · intro hne
    rw [Hypergraph.thenH, if_pos hne]
  · intro hcd
    exact thenH_ok f g hf hg hcd

/-- Witness for C1 at a concrete composable pair of valid hypergraphs. -/
theorem C1_then_witness :
    ∃ h, Hypergraph.thenH Hypergraph.exFb Hypergraph.exGb = .ok h
      ∧ h.dom = Hypergraph.exFb.dom ∧ h.cod = Hypergraph.exGb.cod
      ∧ h.boxes = Hypergraph.exFb.boxes ++ Hypergraph.exGb.boxes :=
  (C1_then Hypergraph.exFb Hypergraph.exGb (by decide) (by decide)).2 rfl

/-! ### Claim C3: identity laws -/

theorem firstOccs_append (l1 l2 : List Nat) :
    firstOccs (l1 ++ l2)
      = firstOccs l1 ++ (firstOccs l2).filter (fun v => decide (v ∉ l1)) := by
  induction l1 with
  | nil =>
    simp only [List.nil_append, firstOccs]
    rw [List.filter_eq_self.2 (by intro a _; simp)]
  | cons a l1 ih =>
    show a :: (firstOccs (l1 ++ l2)).filter (fun t => t ≠ a) = _
    rw [ih, List.filter_append, List.filter_filter]
    have hfe : (firstOccs l2).filter
        (fun v => decide (v ≠ a) && decide (v ∉ l1))
        = (firstOccs l2).filter (fun v => decide (v ∉ a :: l1)) := by
      apply List.filter_congr
      intro x _
      by_cases h1 : x = a <;> by_cases h2 : x ∈ l1 <;>
        simp [h1, h2, List.mem_cons]
    rw [hfe]
    rfl

theorem firstOccs_append_subset {l1 l2 : List Nat}
    (h : ∀ v ∈ l2, v ∈ l1) : firstOccs (l1 ++ l2) = firstOccs l1 := by
  rw [firstOccs_append, List.filter_eq_nil_iff.2
    (by
      intro a ha
      simp only [decide_eq_true_eq, Decidable.not_not]
      exact h a (mem_firstOccs.1 ha)), List.append_nil]

theorem indexOf_firstOccs_firstpos {l : List Nat} {j : Nat} (hj : j < l.length)
    (hfirst : ∀ i, i < j → l.getD i 0 ≠ l.getD j 0) :
    (firstOccs l).indexOf (l.getD j 0) = (firstOccs (l.take j)).length := by
  have hnotmem : l.getD j 0 ∉ l.take j := by
    intro hmem
    rcases List.mem_iff_getElem.1 hmem with ⟨i, hi, heq⟩
    have hi2 : i < j := by
      rw [List.length_take] at hi
      exact lt_of_lt_of_le hi (min_le_left _ _)
    apply hfirst i hi2
    rw [← heq, ← getD_take_nat l j i hi2,
      getD_merge_nat (l.take j) i hi]
  have hkey : firstOccs l = firstOccs (l.take j)
      ++ (firstOccs (l.drop j)).filter
        (fun v => decide (v ∉ l.take j)) := by
    conv_lhs => rw [← List.take_append_drop j l]
    exact firstOccs_append _ _
  rw [hkey]
  rw [List.indexOf_append_of_not_mem
    (by intro hc; exact hnotmem (mem_firstOccs.1 hc))]
  have hdrop : l.drop j = l.getD j 0 :: l.drop (j + 1) := by
    rw [getD_merge_nat l j hj]
    exact List.drop_eq_getElem_cons hj
  rw [hdrop]
  show (firstOccs (l.take j)).length
      + ((l.getD j 0 :: (firstOccs (l.drop (j + 1))).filter
          (fun t => t ≠ l.getD j 0)).filter
        (fun v => decide (v ∉ l.take j))).indexOf (l.getD j 0)
    = (firstOccs (l.take j)).length
  rw [List.filter_cons, if_pos (by simpa using hnotmem),
    List.indexOf_cons_self]
  omega

theorem firstOccs_take_mono (l : List Nat) {i j : Nat} (hij : i ≤ j) :
    (firstOccs (l.take i)).length ≤ (firstOccs (l.take j)).length := by
  have hsp : l.take j = l.take i ++ (l.take j).drop i := by
    conv_lhs => rw [← List.take_append_drop i (l.take j)]
    rw [List.take_take, min_eq_left hij]
  rw [hsp, firstOccs_append, List.length_append]
  omega

theorem firstOccs_take_succ {l : List Nat} {i : Nat} (hi : i < l.length)
    (hfirst : ∀ i', i' < i → l.getD i' 0 ≠ l.getD i 0) :
    (firstOccs (l.take (i + 1))).length
      = (firstOccs (l.take i)).length + 1 := by
  have hnotmem : l.getD i 0 ∉ l.take i := by
    intro hmem
    rcases List.mem_iff_getElem.1 hmem with ⟨i', hi', heq⟩
    have hi2 : i' < i := by
      rw [List.length_take] at hi'
      exact lt_of_lt_of_le hi' (min_le_left _ _)
    apply hfirst i' hi2
    rw [← heq, ← getD_take_nat l i i' hi2,
      getD_merge_nat (l.take i) i' hi']
  have htake : l.take (i + 1) = l.take i ++ [l.getD i 0] := by
    rw [List.take_succ, List.getElem?_eq_getElem hi]
    rw [getD_merge_nat l i hi]
    rfl
  rw [htake, firstOccs_append]
  show (firstOccs (l.take i)
      ++ [l.getD i 0].filter (fun v => decide (v ∉ l.take i))).length = _
  rw [List.filter_cons, if_pos (by simpa using hnotmem)]
  rw [List.length_append]
  rfl

theorem strictMono_id_on_segment (g : Nat → Nat) (a b : Nat)
    (hmono : ∀ v w, a ≤ v → v < w → w < b → g v < g w)
    (hlow : ∀ v, a ≤ v → v < b → a ≤ g v)
    (hhigh : ∀ v, a ≤ v → v < b → g v < b) :
    ∀ v, a ≤ v → v < b → g v = v := by
  have hlb : ∀ d, a + d < b → a + d ≤ g (a + d) := by
    intro d
    induction d with
    | zero =>
      intro h
      simpa using hlow a (le_refl a) (by simpa using h)
    | succ dd ih =>
      intro h
      have h1 : a + dd < b := by omega
      have h2 := ih h1
      have h3 := hmono (a + dd) (a + (dd + 1)) (by omega) (by omega) h
      omega
  have hub : ∀ d, d < b - a → g (b - 1 - d) ≤ b - 1 - d := by
    intro d
    induction d with
    | zero =>
      intro h
      have := hhigh (b - 1) (by omega) (by omega)
      simp only [Nat.sub_zero]
      omega
    | succ dd ih =>
      intro h
      have h1 : dd < b - a := by omega
      have h2 := ih h1
      have h3 := hmono (b - 1 - (dd + 1)) (b - 1 - dd) (by omega) (by omega)
        (by omega)
      omega
  intro v hav hvb
  have h1 := hlb (v - a) (by omega)
  have h2 := hub (b - 1 - v) (by omega)
  have e1 : a + (v - a) = v := by omega
  have e2 : b - 1 - (b - 1 - v) = v := by omega
  rw [e1] at h1
  rw [e2] at h2
  omega

theorem canonical_map_forced {w : List Nat} {ψ : Nat → Nat}
    (hcw : CanonicalW w) (hcm : CanonicalW (w.map ψ))
    (hinj : ∀ a ∈ w, ∀ b ∈ w, ψ a = ψ b → a = b) :
    w.map ψ = w := by
  have hfo : firstOccs (w.map ψ) = (firstOccs w).map ψ :=
    firstOccs_map_injOn hinj
  have hcw2 : firstOccs w = List.range (firstOccs w).length := hcw
  have hcm2 : firstOccs (w.map ψ)
      = List.range (firstOccs (w.map ψ)).length := hcm
  rw [hfo, hcw2] at hcm2
  rw [List.length_map, List.length_range] at hcm2
  have hpt : ∀ i, i < (firstOccs w).length → ψ i = i := by
    intro i hik
    have hq := congrArg (fun x => x[i]?) hcm2
    simp only at hq
    rw [List.getElem?_map, List.getElem?_range hik] at hq
    simpa using hq
  have hvals : ∀ s ∈ w, ψ s = s := by
    intro s hs
    apply hpt
    have hm : s ∈ firstOccs w := mem_firstOccs.2 hs
    rw [hcw2, List.mem_range] at hm
    exact hm
  rw [List.map_congr_left hvals, List.map_id']

theorem relabelingOf_of_memKeys {w keys : List Nat} {k n : Nat}
    (hval : ∀ v, v ∈ w ↔ v < k) (hkmem : ∀ v, v ∈ keys ↔ v < n)
    (hkn : k ≤ n) :
    relabelingOf w keys = firstOccs w ++ List.range' k (n - k)
    ∧ (firstOccs w).length = k := by
  have hfo : ∀ v, v ∈ firstOccs w ↔ v < k := by
    intro v
    rw [mem_firstOccs]
    exact hval v
  have hperm : (firstOccs w).Perm (List.range k) := by
    apply (List.perm_ext_iff_of_nodup (nodup_firstOccs w)
      (List.nodup_range k)).2
    intro v
    rw [List.mem_range]
    exact hfo v
  have hlen : (firstOccs w).length = k := by
    rw [hperm.length_eq, List.length_range]
  refine ⟨?_, hlen⟩
  rw [relabelingOf]
  congr 1
  have hFnodup : ((firstOccs keys).filter
      (fun s => decide (s ∉ firstOccs w))).Nodup :=
    (nodup_firstOccs keys).filter _
  have hFmem : ∀ v, v ∈ (firstOccs keys).filter
      (fun s => decide (s ∉ firstOccs w)) ↔ (k ≤ v ∧ v < n) := by
    intro v
    rw [List.mem_filter, mem_firstOccs, hkmem]
    simp only [decide_eq_true_eq]
    rw [hfo]
    omega
  refine List.eq_of_perm_of_sorted ?_
    (List.sorted_insertionSort (fun x y => x ≤ y) _)
    (sorted_le_range' k (n - k))
  refine (List.perm_insertionSort _ _).trans ?_
  apply (List.perm_ext_iff_of_nodup hFnodup (List.nodup_range' _ _)).2
  intro v
  rw [List.mem_range'_1, hFmem]
  omega

theorem range_append_range' {k m : Nat} (h : k ≤ m) :
    List.range k ++ List.range' k (m - k) = List.range m := by
  rw [List.range_eq_range' m, List.range_eq_range' k]
  have h2 := List.range'_append 0 k (m - k) 1
  rw [Nat.zero_add, Nat.one_mul] at h2
  have h3 : m - k + k = m := by omega
  rw [h3] at h2
  exact h2

theorem getD_range_any (m i d : Nat) (h : i < m) :
    (List.range m).getD i d = i := by
  rw [List.getD_eq_getElem?_getD,
    List.getElem?_eq_getElem (by simpa using h)]
  simp [List.getElem_range]

theorem getD_map_nat (l : List Nat) (g : Nat → Nat) (i : Nat)
    (h : i < l.length) : (l.map g).getD i 0 = g (l.getD i 0) := by
  rw [getD_merge_nat _ i (by rw [List.length_map]; exact h),
    List.getElem_map, ← getD_merge_nat l i h]

theorem map_getD_range {α : Type} (l : List α) (d : α) :
    (List.range l.length).map (fun i => l.getD i d) = l := by
  apply List.ext_getElem
  · rw [List.length_map, List.length_range]
  · intro i h1 h2
    rw [List.getElem_map, List.getElem_range, List.getD_eq_getElem?_getD,
      List.getElem?_eq_getElem h2]
    rfl

theorem firstOccs_take_canonical {w : List Nat} (hc : CanonicalW w)
    (j : Nat) :
    firstOccs (w.take j) = List.range (firstOccs (w.take j)).length := by
  have hsp : firstOccs w = firstOccs (w.take j)
      ++ (firstOccs (w.drop j)).filter (fun v => decide (v ∉ w.take j)) := by
    conv_lhs => rw [← List.take_append_drop j w]
    exact firstOccs_append _ _
  have hsK : (firstOccs (w.take j)).length ≤ (firstOccs w).length := by
    have := congrArg List.length hsp
    rw [List.length_append] at this
    omega
  have htk : firstOccs (w.take j)
      = (firstOccs w).take (firstOccs (w.take j)).length := by
    rw [hsp, List.take_left]
  conv_lhs => rw [htk, hc]
  rw [List.take_range, min_eq_left hsK]

theorem dom_boundary_type (f : Hypergraph) (hf : f.Valid) {i : Nat}
    (hi : i < f.dom.length) :
    f.dom.getD i ""
      = f.spider_types.getD ((f.wires.take f.dom.length).getD i 0) "" := by
  have hfPC := valid_preCheck f hf
  have hflen : f.wires.length = f.ports.length := hf.1
  have hfb := boxTypes_flatten_length f.boxes
  have hplen : f.ports.length
      = f.dom.length
        + (f.boxes.map fun b => b.dom.length + b.cod.length).sum
        + f.cod.length := Hypergraph.portTypes_length _ _ _
  have hiw : i < f.wires.length := by omega
  have e1 : f.ports.getD i ""
      = f.spider_types.getD (f.wires.getD i 0) "" := hfPC i hiw
  have e2 : f.ports.getD i "" = f.dom.getD i "" := by
    have hfp : f.ports = (f.dom
        ++ (f.boxes.map fun b => b.dom ++ b.cod).flatten) ++ f.cod := rfl
    rw [hfp, List.getD_append _ _ _ _
        (by rw [List.length_append]; omega),
      List.getD_append _ _ _ _ hi]
  rw [← e2, e1, getD_take_nat f.wires f.dom.length i hi]

theorem cod_boundary_type (f : Hypergraph) (hf : f.Valid) {i : Nat}
    (hi : i < f.cod.length) :
    f.cod.getD i ""
      = f.spider_types.getD
          ((f.wires.drop (f.wires.length - f.cod.length)).getD i 0) "" := by
  have hfPC := valid_preCheck f hf
  have hflen : f.wires.length = f.ports.length := hf.1
  have hfb := boxTypes_flatten_length f.boxes
  have hplen : f.ports.length
      = f.dom.length
        + (f.boxes.map fun b => b.dom.length + b.cod.length).sum
        + f.cod.length := Hypergraph.portTypes_length _ _ _
  have hidx : f.wires.length - f.cod.length + i < f.wires.length := by omega
  have e1 : f.ports.getD (f.wires.length - f.cod.length + i) ""
      = f.spider_types.getD
          (f.wires.getD (f.wires.length - f.cod.length + i) 0) "" :=
    hfPC (f.wires.length - f.cod.length + i) hidx
  have e2 : f.ports.getD (f.wires.length - f.cod.length + i) ""
      = f.cod.getD i "" := by
    have hfp : f.ports = (f.dom
        ++ (f.boxes.map fun b => b.dom ++ b.cod).flatten) ++ f.cod := rfl
    rw [hfp, List.getD_append_right _ _ _ _
      (by rw [List.length_append, hfb]; omega)]
    congr 1
    rw [List.length_append, hfb]
    omega
  rw [← e2, e1, getD_drop_nat f.wires (f.wires.length - f.cod.length) i]

theorem mkH_self (f : Hypergraph) (hf : f.Valid) {ST : List (Nat × Ob)}
    (hkeys : ∀ v, v ∈ ST.map Prod.fst ↔ v < f.n_spiders)
    (huni : ∀ s, s < f.n_spiders →
      dlookup ST s = some (f.spider_types.getD s "")) :
    Hypergraph.mkH f.dom f.cod f.boxes f.wires ST (some f.offsets)
      = .ok f := by
  have hcan : CanonicalW f.wires := hf.2.1
  have hKn : (firstOccs f.wires).length ≤ f.n_spiders := hf.2.2.1
  have hvalw : ∀ v, v ∈ f.wires ↔ v < (firstOccs f.wires).length := by
    intro v
    rw [← mem_firstOccs]
    constructor
    · intro hv
      rw [hcan, List.mem_range] at hv
      exact hv
    · intro hv
      rw [hcan]
      exact List.mem_range.2 hv
  obtain ⟨hrel, _⟩ := relabelingOf_of_memKeys hvalw hkeys hKn
  have hrlb : relabelingOf f.wires (ST.map Prod.fst)
      = List.range f.n_spiders := by
    set K := (firstOccs f.wires).length with hKdef
    rw [hrel, hcan]
    exact range_append_range' hKn
  have hfPC := valid_preCheck f hf
  have hwlen : f.wires.length
      = (Hypergraph.portTypes f.dom f.cod f.boxes).length := hf.1
  have hkeysW : ∀ v ∈ f.wires, (dlookup ST v).isSome := by
    intro v hv
    have hvk := (hvalw v).1 hv
    rw [huni v (by omega)]
    rfl
  have hpre : ∀ i, i < f.wires.length →
      (Hypergraph.portTypes f.dom f.cod f.boxes).getD i ""
      = (dlookup ST (f.wires.getD i 0)).getD "" := by
    intro i hi
    have hvk := (hvalw _).1 (getD_mem_nat f.wires i hi)
    rw [huni _ (by omega), Option.getD_some]
    exact hfPC i hi
  obtain ⟨h, hmk⟩ := mkH_ok_of_preCheck (some f.offsets) hwlen hkeysW hpre
  obtain ⟨hd, hc, hb, hw, hty, _, _, hoff⟩ := mkH_ok_elim hmk
  have hwf : h.wires = f.wires := by
    rw [hw, hrlb]
    have hpt : ∀ s ∈ f.wires, (List.range f.n_spiders).indexOf s = s := by
      intro s hs
      exact indexOf_range (by have := (hvalw s).1 hs; omega)
    rw [List.map_congr_left hpt, List.map_id']
  have hall : ∀ s ∈ relabelingOf f.wires (ST.map Prod.fst),
      (dlookup ST s).isSome := by
    intro s hs
    rw [hrlb, List.mem_range] at hs
    rw [huni s hs]
    rfl
  have htyf : h.spider_types = f.spider_types := by
    rw [typesOf_of_all_some hall] at hty
    have hinj := Option.some.inj hty
    refine hinj.symm.trans ?_
    rw [hrlb]
    have hpt : ∀ s ∈ List.range f.n_spiders,
        (dlookup ST s).getD "" = f.spider_types.getD s "" := by
      intro s hs
      rw [huni s (List.mem_range.1 hs)]
      rfl
    rw [List.map_congr_left hpt]
    exact map_getD_range f.spider_types ""
  have hofff : h.offsets = f.offsets := by
    rw [hoff]
    rfl
  rw [hmk]
  exact congrArg Except.ok (hypergraph_eq_of_fields hd hc hb hwf htyf hofff)

theorem poFold_right (m : Nat) :
    ∀ (u pre : List Nat),
      (∀ v ∈ u, v < m) → (∀ v ∈ pre, v < m) →
      (u.zip (List.range' pre.length u.length)).foldl
        (fun labels p =>
          let la := labels.getD p.1 p.1
          let lbv := labels.getD (m + p.2) (m + p.2)
          labels.map (fun x => if x = lbv then la else x))
        (List.range m ++ (pre ++ List.range' (m + pre.length) u.length))
      = List.range m ++ (pre ++ u) := by
  intro u
  induction u with
  | nil =>
    intro pre _ _
    rfl
  | cons a u ih =>
    intro pre hu hpre
    have ha : a < m := hu a (List.mem_cons_self _ _)
    have hu' : ∀ v ∈ u, v < m := fun v hv => hu v (List.mem_cons_of_mem _ hv)
    rw [show List.range' pre.length (a :: u).length
        = pre.length :: List.range' (pre.length + 1) u.length from
      List.range'_succ pre.length u.length 1]
    rw [List.zip_cons_cons, List.foldl_cons]
    set L := List.range m
        ++ (pre ++ List.range' (m + pre.length) (a :: u).length) with hL
    have hla : L.getD a a = a := by
      rw [hL, List.getD_append _ _ _ _ (by rw [List.length_range]; exact ha)]
      exact getD_range_any m a a ha
    have hlbv : L.getD (m + pre.length) (m + pre.length) = m + pre.length := by
      rw [hL, List.getD_append_right _ _ _ _
        (by rw [List.length_range]; omega)]
      have hidx1 : m + pre.length - (List.range m).length = pre.length := by
        rw [List.length_range]
        omega
      rw [hidx1, List.getD_append_right _ _ _ _ (le_refl pre.length)]
      have hidx2 : pre.length - pre.length = 0 := by omega
      rw [hidx2, show List.range' (m + pre.length) (a :: u).length
          = (m + pre.length) :: List.range' (m + pre.length + 1) u.length from
        List.range'_succ _ u.length 1]
      rfl
    have hstart : (fun (labels : List Nat) (p : Nat × Nat) =>
        let la := labels.getD p.1 p.1
        let lbv := labels.getD (m + p.2) (m + p.2)
        labels.map fun x => if x = lbv then la else x) L (a, pre.length)
        = List.range m
          ++ (pre ++ (a :: List.range' (m + pre.length + 1) u.length)) := by
      show L.map (fun x =>
          if x = L.getD (m + pre.length) (m + pre.length)
          then L.getD a a else x) = _
      rw [hla, hlbv, hL, List.map_append, List.map_append]
      congr 1
      · have hpt : ∀ x ∈ List.range m,
            (if x = m + pre.length then a else x) = x := by
          intro x hx
          rw [List.mem_range] at hx
          rw [if_neg (by omega)]
        rw [List.map_congr_left hpt, List.map_id']
      congr 1
      · have hpt : ∀ x ∈ pre, (if x = m + pre.length then a else x) = x := by
          intro x hx
          have := hpre x hx
          rw [if_neg (by omega)]
        rw [List.map_congr_left hpt, List.map_id']
      · rw [show List.range' (m + pre.length) (a :: u).length
            = (m + pre.length) :: List.range' (m + pre.length + 1) u.length
          from List.range'_succ _ u.length 1]
        rw [List.map_cons, if_pos rfl]
        have hpt : ∀ x ∈ List.range' (m + pre.length + 1) u.length,
            (if x = m + pre.length then a else x) = x := by
          intro x hx
          rw [List.mem_range'_1] at hx
          rw [if_neg (by omega)]
        rw [List.map_congr_left hpt, List.map_id']
    have ih2 := ih (pre ++ [a]) hu'
      (by
        intro v hv
        rcases List.mem_append.1 hv with hv | hv
        · exact hpre v hv
        · rw [List.mem_singleton.1 hv]
          exact ha)
    have hl1 : (pre ++ [a]).length = pre.length + 1 := by
      rw [List.length_append]
      rfl
    rw [hl1] at ih2
    rw [List.append_assoc, List.append_assoc] at ih2
    simp only [List.singleton_append] at ih2
    refine Eq.trans (congrArg (fun z => List.foldl
      (fun (labels : List Nat) (p : Nat × Nat) =>
        let la := labels.getD p.1 p.1
        let lbv := labels.getD (m + p.2) (m + p.2)
        labels.map fun x => if x = lbv then la else x) z
      (u.zip (List.range' (pre.length + 1) u.length))) ?_) ih2
    exact hstart

theorem poLabels_right (m k : Nat) (sb : List Nat) (hlen : sb.length = k)
    (hb : ∀ v ∈ sb, v < m) :
    poLabels m k sb (List.range k) = List.range m ++ sb := by
  have h := poFold_right m sb []
    hb (fun v hv => absurd hv (List.not_mem_nil v))
  simp only [List.nil_append, List.length_nil, Nat.add_zero] at h
  rw [poLabels]
  rw [show List.range k = List.range' 0 sb.length from by
    rw [hlen]; exact List.range_eq_range' k]
  rw [show List.range (m + k) = List.range m ++ List.range' m sb.length from by
    rw [hlen]
    have h0 := range_append_range' (k := m) (m := m + k) (by omega)
    have e : m + k - m = k := by omega
    rw [e] at h0
    rw [h0]]
  exact h

theorem poFinal_right (m k : Nat) (sb : List Nat) (hlen : sb.length = k)
    (hb : ∀ v ∈ sb, v < m) :
    poFinal m k sb (List.range k) = List.range m ++ sb := by
  rw [poFinal, poLabels_right m k sb hlen hb]
  have hfo : firstOccs (List.range m ++ sb) = List.range m := by
    rw [firstOccs_append_subset (fun v hv => List.mem_range.2 (hb v hv)),
      firstOccs_of_nodup (List.nodup_range m)]
  rw [hfo, List.map_append]
  congr 1
  · have hpt : ∀ s ∈ List.range m, (List.range m).indexOf s = s := by
      intro s hs
      exact indexOf_range (List.mem_range.1 hs)
    rw [List.map_congr_left hpt, List.map_id']
  · have hpt : ∀ s ∈ sb, (List.range m).indexOf s = s := by
      intro s hs
      exact indexOf_range (hb s hs)
    rw [List.map_congr_left hpt, List.map_id']

theorem thenH_id_right (f : Hypergraph) (hf : f.Valid) :
    Hypergraph.thenH f
      ⟨f.cod, f.cod, [],
       List.range f.cod.length ++ List.range f.cod.length, f.cod, []⟩
      = .ok f := by
  have hfbound := valid_wire_bound f hf
  have hflen0 : f.wires.length = f.ports.length := hf.1
  have hplen : f.ports.length
      = f.dom.length
        + (f.boxes.map fun b => b.dom.length + b.cod.length).sum
        + f.cod.length := Hypergraph.portTypes_length _ _ _
  set I : Hypergraph := ⟨f.cod, f.cod, [],
    List.range f.cod.length ++ List.range f.cod.length, f.cod, []⟩ with hI
  set sb := f.wires.drop (f.wires.length - f.cod.length) with hsbdef
  have hsb_len : sb.length = f.cod.length := by
    rw [hsbdef, List.length_drop]
    omega
  have hsbv : ∀ v ∈ sb, v < f.n_spiders :=
    fun v hv => hfbound v (List.mem_of_mem_drop hv)
  set ob := I.wires.take I.dom.length with hobdef
  set Fl := poFinal f.n_spiders I.n_spiders sb ob with hFldef
  set W1 := (f.wires.take (f.wires.length - f.cod.length)).map
    (fun i => (Fl.take f.n_spiders).getD i 0) with hW1
  set W2 := (I.wires.drop I.dom.length).map
    (fun i => (Fl.drop f.n_spiders).getD i 0) with hW2
  set ST := f.spider_types.enum.map
      (fun p => ((Fl.take f.n_spiders).getD p.1 0, p.2))
    ++ I.spider_types.enum.map
      (fun p => ((Fl.drop f.n_spiders).getD p.1 0, p.2)) with hST
  have htdef : Hypergraph.thenH f I
      = Hypergraph.mkH f.dom I.cod (f.boxes ++ I.boxes) (W1 ++ W2) ST
          (some (f.offsets ++ I.offsets)) := by
    rw [Hypergraph.thenH, if_neg (fun hc => hc rfl)]
    rfl
  have hobr : ob = List.range f.cod.length := by
    rw [hobdef]
    show (List.range f.cod.length ++ List.range f.cod.length).take
        f.cod.length = _
    exact List.take_left' (List.length_range _)
  have hFlval : Fl = List.range f.n_spiders ++ sb := by
    rw [hFldef, hobr]
    exact poFinal_right f.n_spiders f.cod.length sb hsb_len hsbv
  have hFlTake : Fl.take f.n_spiders = List.range f.n_spiders := by
    rw [hFlval]
    exact List.take_left' (List.length_range _)
  have hFlDrop : Fl.drop f.n_spiders = sb := by
    rw [hFlval]
    exact List.drop_left' (List.length_range _)
  have hW1f : W1 = f.wires.take (f.wires.length - f.cod.length) := by
    rw [hW1, hFlTake]
    have hpt : ∀ i ∈ f.wires.take (f.wires.length - f.cod.length),
        (List.range f.n_spiders).getD i 0 = i := by
      intro i hi
      exact getD_range_any _ _ 0 (hfbound i (List.mem_of_mem_take hi))
    rw [List.map_congr_left hpt, List.map_id']
  have hW2f : W2 = sb := by
    rw [hW2, hFlDrop]
    have hIw : I.wires.drop I.dom.length = List.range f.cod.length := by
      show (List.range f.cod.length ++ List.range f.cod.length).drop
          f.cod.length = _
      exact List.drop_left' (List.length_range _)
    rw [hIw, show List.range f.cod.length = List.range sb.length from by
      rw [hsb_len]]
    exact map_getD_range sb 0
  have hwires : W1 ++ W2 = f.wires := by
    rw [hW1f, hW2f, hsbdef]
    exact List.take_append_drop _ f.wires
  have hSTkeys : ∀ v, v ∈ ST.map Prod.fst ↔ v < f.n_spiders := by
    intro v
    rw [hST, List.map_append, List.map_map, List.map_map]
    constructor
    · intro hv
      rcases List.mem_append.1 hv with hv | hv
      · rcases List.mem_map.1 hv with ⟨q, hq, rfl⟩
        obtain ⟨a, t⟩ := q
        obtain ⟨ha, _⟩ := List.mem_enum hq
        show (Fl.take f.n_spiders).getD a 0 < f.n_spiders
        rw [hFlTake, getD_range_any f.n_spiders a 0 ha]
        exact ha
      · rcases List.mem_map.1 hv with ⟨q, hq, rfl⟩
        obtain ⟨a, t⟩ := q
        obtain ⟨ha, _⟩ := List.mem_enum hq
        have ha2 : a < sb.length := by
          rw [hsb_len]
          exact ha
        show (Fl.drop f.n_spiders).getD a 0 < f.n_spiders
        rw [hFlDrop]
        exact hsbv _ (getD_mem_nat sb a ha2)
    · intro hv
      have hv2 : v < f.spider_types.length := hv
      have hmem1 : (v, f.spider_types[v]) ∈ f.spider_types.enum := by
        have := List.getElem_enum f.spider_types v
          (by rw [List.enum_length]; exact hv2)
        rw [← this]
        exact List.getElem_mem _
      refine List.mem_append_left _ (List.mem_map.2
        ⟨(v, f.spider_types[v]), hmem1, ?_⟩)
      show (Fl.take f.n_spiders).getD v 0 = v
      rw [hFlTake]
      exact getD_range_any _ _ 0 hv
  have hSTuni : ∀ s, s < f.n_spiders →
      dlookup ST s = some (f.spider_types.getD s "") := by
    intro s hs
    apply dlookup_eq_of_uniform ((hSTkeys s).2 hs)
    intro p hp hkey
    rw [hST] at hp
    rcases List.mem_append.1 hp with hp | hp
    · rcases List.mem_map.1 hp with ⟨q, hq, rfl⟩
      obtain ⟨a, t⟩ := q
      obtain ⟨ha, ht⟩ := List.mem_enum hq
      have hkey2 : (Fl.take f.n_spiders).getD a 0 = s := hkey
      rw [hFlTake, getD_range_any f.n_spiders a 0 ha] at hkey2
      show t = f.spider_types.getD s ""
      rw [ht, ← hkey2]
      exact (getD_merge_str f.spider_types a ha).symm
    · rcases List.mem_map.1 hp with ⟨q, hq, rfl⟩
      obtain ⟨a, t⟩ := q
      obtain ⟨ha, ht⟩ := List.mem_enum hq
      have ha2 : a < f.cod.length := ha
      have hkey2 : (Fl.drop f.n_spiders).getD a 0 = s := hkey
      rw [hFlDrop] at hkey2
      show t = f.spider_types.getD s ""
      have htt : t = f.cod.getD a "" := by
        rw [ht]
        exact (getD_merge_str f.cod a ha2).symm
      rw [htt, ← hkey2, hsbdef]
      exact cod_boundary_type f hf ha2
  rw [htdef, hwires,
    show f.boxes ++ I.boxes = f.boxes from List.append_nil f.boxes,
    show f.offsets ++ I.offsets = f.offsets from List.append_nil f.offsets]
  exact mkH_self f hf hSTkeys hSTuni

theorem poInv_init (k n : Nat) : PoInv k n [] (List.range (k + n)) := by
  refine ⟨?_, List.length_range _, ?_, ?_, ?_, ?_, ?_, ?_⟩
  · intro v hv
    exact absurd hv (List.not_mem_nil v)
  · intro x _ hx
    exact getD_range_any (k + n) x 0 (by omega)
  · intro x hx
    simp only [List.length_nil] at hx
    exact absurd hx (Nat.not_lt_zero x)
  · intro v hv _
    exact getD_range_any (k + n) (k + v) 0 (by omega)
  · intro v hv
    exact absurd hv (List.not_mem_nil v)
  · intro v w hv hw heq
    rw [getD_range_any (k + n) (k + v) 0 (by omega),
      getD_range_any (k + n) (k + w) 0 (by omega)] at heq
    omega
  · intro v hv
    right
    exact getD_range_any (k + n) (k + v) 0 (by omega)

theorem poInv_step {k n : Nat} {pre L : List Nat} {b : Nat}
    (hinv : PoInv k n pre L) (hb : b < n) (hlen : pre.length < k) :
    PoInv k n (pre ++ [b])
      (L.map (fun x =>
        if x = L.getD (k + b) (k + b) then L.getD pre.length pre.length
        else x)) := by
  obtain ⟨h0, hL, hB, hC, hD, hE, hF, hG⟩ := hinv
  have hla : L.getD pre.length pre.length = pre.length := by
    have h1 : L.getD pre.length pre.length = L.getD pre.length 0 := by
      rw [List.getD_eq_getElem?_getD, List.getD_eq_getElem?_getD,
        List.getElem?_eq_getElem (by omega : pre.length < L.length)]
      rfl
    rw [h1]
    exact hB pre.length (le_refl _) hlen
  have hlbv0 : L.getD (k + b) (k + b) = L.getD (k + b) 0 := by
    rw [List.getD_eq_getElem?_getD, List.getD_eq_getElem?_getD,
      List.getElem?_eq_getElem (by omega : k + b < L.length)]
    rfl
  have hlbv_cases : L.getD (k + b) 0 < pre.length
      ∨ L.getD (k + b) 0 = k + b := hG b hb
  have hstep : ∀ z, z < k + n →
      (L.map (fun x =>
        if x = L.getD (k + b) (k + b) then L.getD pre.length pre.length
        else x)).getD z 0
      = if L.getD z 0 = L.getD (k + b) 0 then pre.length
        else L.getD z 0 := by
    intro z hz
    have hz2 : z < L.length := by omega
    rw [getD_map_nat L _ z hz2, hlbv0, hla]
  have hlen1 : (pre ++ [b]).length = pre.length + 1 := by
    rw [List.length_append]
    rfl
  refine ⟨?_, by rw [List.length_map]; exact hL, ?_, ?_, ?_, ?_, ?_, ?_⟩
  · intro v hv
    rcases List.mem_append.1 hv with hv | hv
    · exact h0 v hv
    · rw [List.mem_singleton.1 hv]
      exact hb
  · intro x hx1 hx2
    rw [hlen1] at hx1
    rw [hstep x (by omega), hB x (by omega) hx2,
      if_neg (by rcases hlbv_cases with h | h <;> omega)]
  · intro x hx
    rw [hlen1] at hx
    by_cases hxj : x < pre.length
    · rw [show (pre ++ [b]).getD x 0 = pre.getD x 0 from
        List.getD_append _ _ _ _ hxj]
      have hpx : pre.getD x 0 < n := h0 _ (getD_mem_nat pre x hxj)
      rw [hstep x (by omega), hstep (k + pre.getD x 0) (by omega), hC x hxj]
    · have hxj2 : x = pre.length := by omega
      subst hxj2
      rw [show (pre ++ [b]).getD pre.length 0 = b from by
        rw [List.getD_append_right _ _ _ _ (le_refl _)]
        have he : pre.length - pre.length = 0 := by omega
        rw [he]
        rfl]
      rw [hstep pre.length (by omega), hstep (k + b) (by omega),
        hB pre.length (le_refl _) hlen]
      rw [if_neg (by rcases hlbv_cases with h | h <;> omega), if_pos rfl]
  · intro v hv hvmem
    have hv1 : v ∉ pre := fun hc => hvmem (List.mem_append_left _ hc)
    have hv2 : v ≠ b := fun hc => hvmem (by
      rw [hc]
      exact List.mem_append_right _ (List.mem_singleton_self b))
    rw [hstep (k + v) (by omega), hD v hv hv1,
      if_neg (by
        rcases hlbv_cases with h | h
        · omega
        · intro hc
          rw [h] at hc
          exact hv2 (by omega))]
  · intro v hvmem
    rw [hlen1]
    rcases List.mem_append.1 hvmem with hv | hv
    · have hvn : v < n := h0 v hv
      rw [hstep (k + v) (by omega)]
      have hbd := hE v hv
      by_cases hcase : L.getD (k + v) 0 = L.getD (k + b) 0
      · rw [if_pos hcase]
        omega
      · rw [if_neg hcase]
        omega
    · rw [List.mem_singleton.1 hv]
      rw [hstep (k + b) (by omega), if_pos rfl]
      omega
  · intro v w hv hw heq
    rw [hstep (k + v) (by omega), hstep (k + w) (by omega)] at heq
    have hvne : L.getD (k + v) 0 ≠ pre.length := by
      rcases hG v hv with h | h <;> omega
    have hwne : L.getD (k + w) 0 ≠ pre.length := by
      rcases hG w hw with h | h <;> omega
    by_cases h1 : L.getD (k + v) 0 = L.getD (k + b) 0
    · by_cases h2 : L.getD (k + w) 0 = L.getD (k + b) 0
      · exact hF v w hv hw (h1.trans h2.symm)
      · rw [if_pos h1, if_neg h2] at heq
        exact absurd heq.symm hwne
    · by_cases h2 : L.getD (k + w) 0 = L.getD (k + b) 0
      · rw [if_neg h1, if_pos h2] at heq
        exact absurd heq hvne
      · rw [if_neg h1, if_neg h2] at heq
        exact hF v w hv hw heq
  · intro v hv
    rw [hlen1, hstep (k + v) (by omega)]
    by_cases h1 : L.getD (k + v) 0 = L.getD (k + b) 0
    · rw [if_pos h1]
      left
      omega
    · rw [if_neg h1]
      rcases hG v hv with h | h
      · left
        omega
      · right
        exact h

theorem poFold_left {k n : Nat} :
    ∀ (u pre L : List Nat),
      pre.length + u.length = k →
      (∀ v ∈ u, v < n) →
      PoInv k n pre L →
      PoInv k n (pre ++ u)
        (((List.range' pre.length u.length).zip u).foldl
          (fun labels p =>
            let la := labels.getD p.1 p.1
            let lbv := labels.getD (k + p.2) (k + p.2)
            labels.map (fun x => if x = lbv then la else x)) L) := by
  intro u
  induction u with
  | nil =>
    intro pre L _ _ hinv
    rw [List.append_nil]
    exact hinv
  | cons b u ih =>
    intro pre L hlen hu hinv
    have hb : b < n := hu b (List.mem_cons_self _ _)
    have hu' : ∀ v ∈ u, v < n := fun v hv => hu v (List.mem_cons_of_mem _ hv)
    have hplen : pre.length < k := by
      have h1 : (b :: u).length = u.length + 1 := rfl
      omega
    rw [show List.range' pre.length (b :: u).length
        = pre.length :: List.range' (pre.length + 1) u.length from
      List.range'_succ pre.length u.length 1]
    rw [List.zip_cons_cons, List.foldl_cons]
    have hl1 : (pre ++ [b]).length = pre.length + 1 := by
      rw [List.length_append]
      rfl
    have ih2 := ih (pre ++ [b])
      (L.map (fun x =>
        if x = L.getD (k + b) (k + b) then L.getD pre.length pre.length
        else x))
      (by
        rw [hl1]
        have h1 : (b :: u).length = u.length + 1 := rfl
        omega)
      hu' (poInv_step hinv hb hplen)
    rw [hl1] at ih2
    rw [List.append_assoc] at ih2
    simp only [List.singleton_append] at ih2
    exact ih2

theorem poLabels_left {k n : Nat} {ob : List Nat} (hlen : ob.length = k)
    (hb : ∀ v ∈ ob, v < n) :
    PoInv k n ob (poLabels k n (List.range k) ob) := by
  have h := poFold_left ob [] (List.range (k + n))
    (by simp only [List.length_nil]; omega) hb (poInv_init k n)
  simp only [List.nil_append, List.length_nil] at h
  rw [poLabels]
  rw [show List.range k = List.range' 0 ob.length from by
    rw [hlen]; exact List.range_eq_range' k]
  exact h

theorem poFinal_left {k n : Nat} {ob : List Nat} (hlen : ob.length = k)
    (hb : ∀ v ∈ ob, v < n)
    (hkob : firstOccs ob = List.range (firstOccs ob).length) :
    (∀ v, v < n → (poFinal k n (List.range k) ob).getD (k + v) 0 = v)
    ∧ (∀ x, x < k →
        (poFinal k n (List.range k) ob).getD x 0 = ob.getD x 0) := by
  obtain ⟨_, hL, hB, hC, hD, hE, hF, hG⟩ := poLabels_left hlen hb
  set L := poLabels k n (List.range k) ob with hLdef
  have hkobn : (firstOccs ob).length ≤ n := by
    by_contra hcon
    push_neg at hcon
    have hmem : n ∈ firstOccs ob := by
      rw [hkob]
      exact List.mem_range.2 (by omega)
    have := hb n (mem_firstOccs.1 hmem)
    omega
  have hdecomp : L = ob.map (fun v => L.getD (k + v) 0)
      ++ (List.range n).map (fun v => L.getD (k + v) 0) := by
    apply List.ext_getElem
    · rw [hL, List.length_append, List.length_map, List.length_map,
        List.length_range, hlen]
    · intro y hy1 hy2
      rw [← getD_merge_nat L y hy1, ← getD_merge_nat _ y hy2]
      by_cases hyk : y < k
      · rw [List.getD_append _ _ _ _
          (by rw [List.length_map, hlen]; exact hyk)]
        rw [getD_map_nat ob _ y (by rw [hlen]; exact hyk)]
        exact hC y (by rw [hlen]; exact hyk)
      · rw [List.getD_append_right _ _ _ _
          (by rw [List.length_map, hlen]; omega)]
        have hidx : y - (ob.map (fun v => L.getD (k + v) 0)).length
            = y - k := by
          rw [List.length_map, hlen]
        rw [hidx]
        have hyn : y - k < n := by
          rw [hL] at hy1
          omega
        rw [getD_map_nat (List.range n) _ (y - k)
          (by rw [List.length_range]; exact hyn)]
        rw [getD_range_any n (y - k) 0 hyn]
        have he : y = k + (y - k) := by omega
        conv_lhs => rw [he]
  have hginjOn : ∀ a ∈ ob, ∀ c ∈ ob,
      (fun v => L.getD (k + v) 0) a = (fun v => L.getD (k + v) 0) c →
      a = c := by
    intro a ha c hc heq
    exact hF a c (hb a ha) (hb c hc) heq
  have hnd : ((List.range n).map (fun v => L.getD (k + v) 0)).Nodup := by
    apply List.Nodup.map_on
    · intro a ha c hc heq
      exact hF a c (List.mem_range.1 ha) (List.mem_range.1 hc) heq
    · exact List.nodup_range n
  have hfoL : firstOccs L = (List.range n).map (fun v => L.getD (k + v) 0) := by
    conv_lhs => rw [hdecomp]
    rw [firstOccs_append, firstOccs_map_injOn hginjOn,
      firstOccs_of_nodup hnd]
    rw [List.map_filter (fun v => L.getD (k + v) 0) (List.range n)]
    have hfilter : (List.range n).filter
        ((fun x => decide (x ∉ ob.map (fun v => L.getD (k + v) 0)))
          ∘ (fun v => L.getD (k + v) 0))
        = (List.range n).filter (fun s => decide (¬ s < (firstOccs ob).length)) := by
      apply List.filter_congr
      intro v hv
      have hvn := List.mem_range.1 hv
      have hiff : L.getD (k + v) 0 ∈ ob.map (fun v => L.getD (k + v) 0)
          ↔ v ∈ ob := by
        constructor
        · intro hm
          rcases List.mem_map.1 hm with ⟨u, hu, hequ⟩
          have he : u = v := hF u v (hb u hu) hvn hequ
          rwa [← he]
        · exact fun hm => List.mem_map_of_mem _ hm
      have hmem_ob : v ∈ ob ↔ v < (firstOccs ob).length := by
        rw [← mem_firstOccs, hkob, List.mem_range, List.length_range]
      simp only [Function.comp]
      rw [decide_eq_decide, not_iff_not]
      exact hiff.trans hmem_ob
    rw [hfilter, filter_range_not_lt hkobn]
    rw [← List.map_append]
    have hsplit : firstOccs ob ++ List.range' (firstOccs ob).length
        (n - (firstOccs ob).length) = List.range n := by
      set K := (firstOccs ob).length with hK
      rw [hkob]
      exact range_append_range' hkobn
    rw [hsplit]
  have hidx : ∀ v, v < n →
      (firstOccs L).indexOf (L.getD (k + v) 0) = v := by
    intro v hv
    rw [hfoL]
    have hv2 : v < ((List.range n).map (fun v => L.getD (k + v) 0)).length := by
      rw [List.length_map, List.length_range]
      exact hv
    have hval : ((List.range n).map (fun v => L.getD (k + v) 0))[v]
        = L.getD (k + v) 0 := by
      rw [List.getElem_map, List.getElem_range]
    rw [← hval]
    exact List.indexOf_getElem hnd v hv2
  constructor
  · intro v hv
    rw [poFinal_getD k n _ _ (by omega : k + v < k + n)]
    exact hidx v hv
  · intro x hx
    rw [poFinal_getD k n _ _ (by omega : x < k + n)]
    have hxo : x < ob.length := by omega
    rw [hC x hxo]
    exact hidx (ob.getD x 0) (hb _ (getD_mem_nat ob x hxo))

theorem thenH_id_left (f : Hypergraph) (hf : f.Valid) :
    Hypergraph.thenH
      ⟨f.dom, f.dom, [],
       List.range f.dom.length ++ List.range f.dom.length, f.dom, []⟩ f
      = .ok f := by
  have hfbound := valid_wire_bound f hf
  have hflen0 : f.wires.length = f.ports.length := hf.1
  have hplen : f.ports.length
      = f.dom.length
        + (f.boxes.map fun b => b.dom.length + b.cod.length).sum
        + f.cod.length := Hypergraph.portTypes_length _ _ _
  set I : Hypergraph := ⟨f.dom, f.dom, [],
    List.range f.dom.length ++ List.range f.dom.length, f.dom, []⟩ with hI
  set sb := I.wires.drop (I.wires.length - I.cod.length) with hsbdef
  set ob := f.wires.take f.dom.length with hobdef
  have hob_len : ob.length = f.dom.length := by
    rw [hobdef, List.length_take]
    exact min_eq_left (by omega)
  have hobv : ∀ v ∈ ob, v < f.n_spiders :=
    fun v hv => hfbound v (List.mem_of_mem_take hv)
  have hIlen : (List.range f.dom.length ++ List.range f.dom.length).length
      - f.dom.length = f.dom.length := by
    rw [List.length_append, List.length_range]
    omega
  have hsbr : sb = List.range f.dom.length := by
    rw [hsbdef]
    show (List.range f.dom.length ++ List.range f.dom.length).drop
        ((List.range f.dom.length ++ List.range f.dom.length).length
          - f.dom.length) = _
    rw [hIlen]
    exact List.drop_left' (List.length_range _)
  set Fl := poFinal I.n_spiders f.n_spiders sb ob with hFldef
  set W1 := (I.wires.take (I.wires.length - I.cod.length)).map
    (fun i => (Fl.take f.dom.length).getD i 0) with hW1
  set W2 := (f.wires.drop f.dom.length).map
    (fun i => (Fl.drop f.dom.length).getD i 0) with hW2
  set ST := I.spider_types.enum.map
      (fun p => ((Fl.take f.dom.length).getD p.1 0, p.2))
    ++ f.spider_types.enum.map
      (fun p => ((Fl.drop f.dom.length).getD p.1 0, p.2)) with hST
  have htdef : Hypergraph.thenH I f
      = Hypergraph.mkH I.dom f.cod (I.boxes ++ f.boxes) (W1 ++ W2) ST
          (some (I.offsets ++ f.offsets)) := by
    rw [Hypergraph.thenH, if_neg (fun hc => hc rfl)]
    rfl
  have hkob : firstOccs ob = List.range (firstOccs ob).length := by
    rw [hobdef]
    exact firstOccs_take_canonical hf.2.1 f.dom.length
  have hFlr : Fl = poFinal f.dom.length f.n_spiders
      (List.range f.dom.length) ob := by
    rw [hFldef, hsbr]
    rfl
  obtain ⟨hR, hLft⟩ := poFinal_left hob_len hobv hkob
  have hτR : ∀ v, v < f.n_spiders → Fl.getD (f.dom.length + v) 0 = v := by
    intro v hv
    rw [hFlr]
    exact hR v hv
  have hτL : ∀ x, x < f.dom.length → Fl.getD x 0 = ob.getD x 0 := by
    intro x hx
    rw [hFlr]
    exact hLft x hx
  have hFllen : Fl.length = f.dom.length + f.n_spiders := by
    rw [hFlr]
    exact poFinal_length _ _ _ _
  have hTake_getD : ∀ i, i < f.dom.length →
      (Fl.take f.dom.length).getD i 0 = ob.getD i 0 := by
    intro i hi
    rw [getD_take_nat Fl f.dom.length i hi]
    exact hτL i hi
  have hDrop_getD : ∀ i, i < f.n_spiders →
      (Fl.drop f.dom.length).getD i 0 = i := by
    intro i hi
    rw [getD_drop_nat Fl f.dom.length i]
    exact hτR i hi
  have hItake : I.wires.take (I.wires.length - I.cod.length)
      = List.range f.dom.length := by
    show (List.range f.dom.length ++ List.range f.dom.length).take
        ((List.range f.dom.length ++ List.range f.dom.length).length
          - f.dom.length) = _
    rw [hIlen]
    exact List.take_left' (List.length_range _)
  have hW1f : W1 = ob := by
    rw [hW1, hItake]
    have hpt : ∀ i ∈ List.range f.dom.length,
        (Fl.take f.dom.length).getD i 0 = ob.getD i 0 := by
      intro i hi
      exact hTake_getD i (List.mem_range.1 hi)
    rw [List.map_congr_left hpt,
      show List.range f.dom.length = List.range ob.length from by
        rw [hob_len]]
    exact map_getD_range ob 0
  have hW2f : W2 = f.wires.drop f.dom.length := by
    rw [hW2]
    have hpt : ∀ i ∈ f.wires.drop f.dom.length,
        (Fl.drop f.dom.length).getD i 0 = i := by
      intro i hi
      exact hDrop_getD i (hfbound i (List.mem_of_mem_drop hi))
    rw [List.map_congr_left hpt, List.map_id']
  have hwires : W1 ++ W2 = f.wires := by
    rw [hW1f, hW2f, hobdef]
    exact List.take_append_drop _ f.wires
  have hSTkeys : ∀ v, v ∈ ST.map Prod.fst ↔ v < f.n_spiders := by
    intro v
    rw [hST, List.map_append, List.map_map, List.map_map]
    constructor
    · intro hv
      rcases List.mem_append.1 hv with hv | hv
      · rcases List.mem_map.1 hv with ⟨q, hq, rfl⟩
        obtain ⟨a, t⟩ := q
        obtain ⟨ha, _⟩ := List.mem_enum hq
        have ha2 : a < f.dom.length := ha
        show (Fl.take f.dom.length).getD a 0 < f.n_spiders
        rw [hTake_getD a ha2]
        exact hobv _ (getD_mem_nat ob a (by omega))
      · rcases List.mem_map.1 hv with ⟨q, hq, rfl⟩
        obtain ⟨a, t⟩ := q
        obtain ⟨ha, _⟩ := List.mem_enum hq
        have ha2 : a < f.n_spiders := ha
        show (Fl.drop f.dom.length).getD a 0 < f.n_spiders
        rw [hDrop_getD a ha2]
        exact ha2
    · intro hv
      have hv2 : v < f.spider_types.length := hv
      have hmem1 : (v, f.spider_types[v]) ∈ f.spider_types.enum := by
        have := List.getElem_enum f.spider_types v
          (by rw [List.enum_length]; exact hv2)
        rw [← this]
        exact List.getElem_mem _
      refine List.mem_append_right _ (List.mem_map.2
        ⟨(v, f.spider_types[v]), hmem1, ?_⟩)
      show (Fl.drop f.dom.length).getD v 0 = v
      exact hDrop_getD v hv
  have hSTuni : ∀ s, s < f.n_spiders →
      dlookup ST s = some (f.spider_types.getD s "") := by
    intro s hs
    apply dlookup_eq_of_uniform ((hSTkeys s).2 hs)
    intro p hp hkey
    rw [hST] at hp
    rcases List.mem_append.1 hp with hp | hp
    · rcases List.mem_map.1 hp with ⟨q, hq, rfl⟩
      obtain ⟨a, t⟩ := q
      obtain ⟨ha, ht⟩ := List.mem_enum hq
      have ha2 : a < f.dom.length := ha
      have hkey2 : (Fl.take f.dom.length).getD a 0 = s := hkey
      rw [hTake_getD a ha2] at hkey2
      show t = f.spider_types.getD s ""
      have htt : t = f.dom.getD a "" := by
        rw [ht]
        exact (getD_merge_str f.dom a ha2).symm
      rw [htt, ← hkey2, hobdef]
      exact dom_boundary_type f hf ha2
    · rcases List.mem_map.1 hp with ⟨q, hq, rfl⟩
      obtain ⟨a, t⟩ := q
      obtain ⟨ha, ht⟩ := List.mem_enum hq
      have ha2 : a < f.n_spiders := ha
      have hkey2 : (Fl.drop f.dom.length).getD a 0 = s := hkey
      rw [hDrop_getD a ha2] at hkey2
      show t = f.spider_types.getD s ""
      rw [ht, ← hkey2]
      exact (getD_merge_str f.spider_types a ha).symm
  rw [htdef, hwires,
    show I.boxes ++ f.boxes = f.boxes from List.nil_append f.boxes,
    show I.offsets ++ f.offsets = f.offsets from List.nil_append f.offsets]
  exact mkH_self f hf hSTkeys hSTuni

theorem idH_eval (t : Ty) :
    Hypergraph.idH t = .ok ⟨t, t, [],
      List.range t.length ++ List.range t.length, t, []⟩ := by
  set w := List.range t.length ++ List.range t.length with hw
  set pts := Hypergraph.portTypes t t [] with hptsdef
  set st := w.zip pts with hst
  have hptseq : pts = (t ++ []) ++ t := rfl
  have hptslen : pts.length = t.length + t.length := by
    rw [hptseq, List.length_append, List.length_append, List.length_nil]
    omega
  have hwlen : w.length = pts.length := by
    rw [hw, List.length_append, List.length_range, hptslen]
  have hkeys_eq : st.map Prod.fst = w := by
    rw [hst]
    exact List.map_fst_zip w pts (le_of_eq hwlen)
  have hvalw : ∀ v ∈ w, v < t.length := by
    intro v hv
    rcases List.mem_append.1 hv with hv | hv <;> exact List.mem_range.1 hv
  have hfo : firstOccs w = List.range t.length := by
    rw [hw, firstOccs_append_subset (fun v hv => hv),
      firstOccs_of_nodup (List.nodup_range _)]
  have hwgetD : ∀ i, i < w.length →
      w.getD i 0 = if i < t.length then i else i - t.length := by
    intro i hi
    have hi2 : i < t.length + t.length := by
      rw [hw, List.length_append, List.length_range] at hi
      exact hi
    by_cases hik : i < t.length
    · rw [if_pos hik, hw,
        List.getD_append _ _ _ _ (by rw [List.length_range]; exact hik)]
      exact getD_range_any t.length i 0 hik
    · rw [if_neg hik, hw,
        List.getD_append_right _ _ _ _ (by rw [List.length_range]; omega)]
      have he : i - (List.range t.length).length = i - t.length := by
        rw [List.length_range]
      rw [he]
      exact getD_range_any t.length (i - t.length) 0 (by omega)
  have hptsgetD : ∀ i, i < w.length →
      pts.getD i "" = t.getD (if i < t.length then i else i - t.length) "" := by
    intro i hi
    have hi2 : i < t.length + t.length := by
      rw [hw, List.length_append, List.length_range] at hi
      exact hi
    by_cases hik : i < t.length
    · rw [if_pos hik, hptseq, List.getD_append _ _ _ _
        (by rw [List.length_append, List.length_nil]; omega)]
      rw [List.getD_append _ _ _ _ hik]
    · rw [if_neg hik, hptseq, List.getD_append_right _ _ _ _
        (by rw [List.length_append, List.length_nil]; omega)]
      have he : i - (t ++ []).length = i - t.length := by
        rw [List.length_append, List.length_nil]
        omega
      rw [he]
  have hlookup : ∀ s, s < t.length → dlookup st s = some (t.getD s "") := by
    intro s hs
    apply dlookup_eq_of_uniform
    · rw [hkeys_eq, hw]
      exact List.mem_append_left _ (List.mem_range.2 hs)
    · intro p hp hkey
      rw [hst] at hp
      rcases List.mem_iff_getElem.1 hp with ⟨i, hi, rfl⟩
      have hiz : i < (w.zip pts).length := hi
      rw [List.length_zip] at hiz
      have hiw : i < w.length := lt_of_lt_of_le hiz inf_le_left
      have hip : i < pts.length := lt_of_lt_of_le hiz inf_le_right
      have h1 : ((w.zip pts)[i]).1 = w[i] := by
        rw [List.getElem_zip]
      have h2 : ((w.zip pts)[i]).2 = pts[i] := by
        rw [List.getElem_zip]
      rw [h1, ← getD_merge_nat w i hiw, hwgetD i hiw] at hkey
      rw [h2, ← getD_merge_str pts i hip, hptsgetD i hiw, ← hkey]
  have hkeysW : ∀ v ∈ w, (dlookup st v).isSome := by
    intro v hv
    rw [hlookup v (hvalw v hv)]
    rfl
  have hpre : ∀ i, i < w.length →
      (Hypergraph.portTypes t t []).getD i ""
      = (dlookup st (w.getD i 0)).getD "" := by
    intro i hi
    rw [hwgetD i hi, hptsgetD i hi]
    have hi2 : i < t.length + t.length := by
      rw [hw, List.length_append, List.length_range] at hi
      exact hi
    by_cases hik : i < t.length
    · rw [if_pos hik, hlookup i hik, Option.getD_some]
    · rw [if_neg hik, hlookup (i - t.length) (by omega),
        Option.getD_some]
  obtain ⟨h, hmk⟩ := mkH_ok_of_preCheck none hwlen hkeysW hpre
  obtain ⟨hd, hc, hb, hwq, hty, _, _, hoff⟩ := mkH_ok_elim hmk
  have hrlb : relabelingOf w (st.map Prod.fst) = List.range t.length := by
    rw [hkeys_eq, relabelingOf, hfo]
    have hnil : (List.range t.length).filter
        (fun s => decide (s ∉ List.range t.length)) = [] := by
      rw [List.filter_eq_nil_iff]
      intro a ha
      simp [ha]
    rw [hnil]
    exact List.append_nil _
  have hwires : h.wires = w := by
    rw [hwq, hrlb]
    have hpt : ∀ s ∈ w, (List.range t.length).indexOf s = s :=
      fun s hs => indexOf_range (hvalw s hs)
    rw [List.map_congr_left hpt, List.map_id']
  have hall : ∀ s ∈ relabelingOf w (st.map Prod.fst),
      (dlookup st s).isSome := by
    intro s hs
    rw [hrlb, List.mem_range] at hs
    rw [hlookup s hs]
    rfl
  have htyf : h.spider_types = t := by
    rw [typesOf_of_all_some hall] at hty
    have hinj := Option.some.inj hty
    refine hinj.symm.trans ?_
    rw [hrlb]
    have hpt : ∀ s ∈ List.range t.length,
        (dlookup st s).getD "" = t.getD s "" := by
      intro s hs
      rw [hlookup s (List.mem_range.1 hs)]
      rfl
    rw [List.map_congr_left hpt]
    exact map_getD_range t ""
  have hofff : h.offsets = [] := by
    rw [hoff]
    rfl
  rw [Hypergraph.idH]
  show Hypergraph.mkH t t [] w st = Except.ok _
  rw [hmk]
  exact congrArg Except.ok (hypergraph_eq_of_fields hd hc hb hwires htyf hofff)

/-- C3: the identity hypergraph is a left and right unit for sequential
composition: for every valid hypergraph `f`, `id(f.dom).then(f)` and
`f.then(id(f.cod))` both succeed and return `f` itself on the nose — in
particular the results are isomorphic to `f`, so the isomorphism-based
`__eq__` also holds. -/
theorem C3_identity (f : Hypergraph) (hf : f.Valid) :
    (∃ I, Hypergraph.idH f.dom = .ok I ∧ Hypergraph.thenH I f = .ok f)
    ∧ (∃ I, Hypergraph.idH f.cod = .ok I
        ∧ Hypergraph.thenH f I = .ok f) := by
  constructor
  · exact ⟨_, idH_eval f.dom, thenH_id_left f hf⟩
  · exact ⟨_, idH_eval f.cod, thenH_id_right f hf⟩

/-- Witness for C3 at a concrete valid hypergraph. -/
theorem C3_identity_witness :
    (∃ I, Hypergraph.idH Hypergraph.exFb.dom = .ok I
      ∧ Hypergraph.thenH I Hypergraph.exFb = .ok Hypergraph.exFb)
    ∧ (∃ I, Hypergraph.idH Hypergraph.exFb.cod = .ok I
      ∧ Hypergraph.thenH Hypergraph.exFb I = .ok Hypergraph.exFb) :=
  C3_identity Hypergraph.exFb (by decide)

/-! ### Claim C2: the bijectivity rewriting pass -/

theorem mem_posOf {w : List Nat} {s r : Nat} :
    r ∈ Hypergraph.posOf w s ↔ r < w.length ∧ w.getD r 0 = s :=
  mem_posOfVal

theorem length_posOf (w : List Nat) (s : Nat) :
    (Hypergraph.posOf w s).length = w.count s :=
  length_posOfVal w s

theorem sorted_posOf (w : List Nat) (s : Nat) :
    List.Sorted (· < ·) (Hypergraph.posOf w s) :=
  selPos_sorted s true _ 0

theorem nodup_posOf (w : List Nat) (s : Nat) :
    (Hypergraph.posOf w s).Nodup :=
  (sorted_posOf w s).nodup

theorem countP_bool_split (s : Nat) :
    ∀ l : List (Nat × Bool),
      l.countP (fun q => decide (q.1 = s) && decide (q.2 = true))
        + l.countP (fun q => decide (q.1 = s) && decide (q.2 = false))
      = l.countP (fun q => decide (q.1 = s)) := by
  intro l
  induction l with
  | nil => rfl
  | cons q l ih =>
    rw [List.countP_cons, List.countP_cons, List.countP_cons]
    obtain ⟨v, b⟩ := q
    by_cases hv : v = s <;> cases b <;> simp [hv] at ih ⊢ <;> omega

theorem count_zip_fst (w : List Nat) (rs : List Bool) (s : Nat)
    (hlen : w.length ≤ rs.length) :
    (w.zip rs).countP (fun q => decide (q.1 = s)) = w.count s := by
  conv_rhs => rw [← List.map_fst_zip w rs hlen]
  rw [List.count_eq_countP, List.countP_map]
  apply List.countP_congr
  intro q _
  simp [Function.comp]

theorem degree_eq_count (h : Hypergraph) (hv : h.Valid) {s : Nat}
    (hs : s < h.n_spiders) :
    (h.spider_wires.getD s ([], [])).1.length
      + (h.spider_wires.getD s ([], [])).2.length = h.wires.count s := by
  have hchar := Hypergraph.spider_wires_char h hv.1
  have hsw : h.spider_wires.getD s ([], [])
      = (Hypergraph.selPos s true (h.wires.zip h.roles) 0,
         Hypergraph.selPos s false (h.wires.zip h.roles) 0) := by
    rw [hchar, List.getD_eq_getElem?_getD, List.getElem?_eq_getElem
      (by rw [List.length_map, List.length_range]; exact hs)]
    simp only [Option.getD_some]
    rw [List.getElem_map, List.getElem_range]
  rw [hsw]
  show (Hypergraph.selPos s true (h.wires.zip h.roles) 0).length
    + (Hypergraph.selPos s false (h.wires.zip h.roles) 0).length = _
  rw [Hypergraph.selPos_length, Hypergraph.selPos_length, countP_bool_split]
  apply count_zip_fst
  rw [roles_length h]
  exact le_of_eq hv.1

theorem mbFind_none_iff (h : Hypergraph) (hv : h.Valid) :
    Hypergraph.mbFind h = none ↔ Hypergraph.is_bijective h = true := by
  rw [Hypergraph.mbFind, List.find?_eq_none, Hypergraph.is_bijective,
    List.all_eq_true]
  constructor
  · intro hno s hsmem
    have hs := List.mem_range.1 hsmem
    have h2 := hno s (List.mem_reverse.2 hsmem)
    have h3 : ¬ ((!(((h.spider_wires.getD s ([], [])).1.length
        + (h.spider_wires.getD s ([], [])).2.length == 0)
       || ((h.spider_wires.getD s ([], [])).1.length
        + (h.spider_wires.getD s ([], [])).2.length == 2))) = true) := h2
    rw [degree_eq_count h hv hs] at h3
    cases hc : (h.wires.count s == 0 || h.wires.count s == 2)
    · exact absurd (by rw [hc]; rfl) h3
    · rfl
  · intro hall s hsmem
    have hs := List.mem_range.1 (List.mem_reverse.1 hsmem)
    have h2 := hall s (List.mem_range.2 hs)
    show ¬ _
    intro hc
    have hc2 : (!(((h.spider_wires.getD s ([], [])).1.length
        + (h.spider_wires.getD s ([], [])).2.length == 0)
       || ((h.spider_wires.getD s ([], [])).1.length
        + (h.spider_wires.getD s ([], [])).2.length == 2))) = true := hc
    rw [degree_eq_count h hv hs] at hc2
    have h2b : (h.wires.count s == 0 || h.wires.count s == 2) = true := h2
    rw [h2b] at hc2
    simp at hc2

theorem mbFind_some_spec (h : Hypergraph) (hv : h.Valid) {s : Nat}
    (hf : Hypergraph.mbFind h = some s) :
    s < h.n_spiders ∧ ¬ (h.wires.count s = 0 ∨ h.wires.count s = 2) := by
  have hmem := List.mem_of_find?_eq_some hf
  have hs : s < h.n_spiders := List.mem_range.1 (List.mem_reverse.1 hmem)
  have hp := List.find?_some hf
  have hp2 : (!(((h.spider_wires.getD s ([], [])).1.length
      + (h.spider_wires.getD s ([], [])).2.length == 0)
     || ((h.spider_wires.getD s ([], [])).1.length
      + (h.spider_wires.getD s ([], [])).2.length == 2))) = true := hp
  rw [degree_eq_count h hv hs] at hp2
  refine ⟨hs, ?_⟩
  intro hc
  rcases hc with hc | hc <;> rw [hc] at hp2 <;> simp at hp2

theorem badCount_le (h : Hypergraph) :
    Hypergraph.badCount h ≤ h.n_spiders := by
  rw [Hypergraph.badCount]
  exact (List.length_filter_le _ _).trans (le_of_eq (List.length_range _))

theorem badCount_zero_bijective (h : Hypergraph)
    (hz : Hypergraph.badCount h = 0) :
    Hypergraph.is_bijective h = true := by
  rw [Hypergraph.badCount, List.length_eq_zero] at hz
  rw [Hypergraph.is_bijective, List.all_eq_true]
  intro s hsmem
  by_contra hc
  have hmem : s ∈ (List.range h.n_spiders).filter
      (fun v => !(h.wires.count v == 0 || h.wires.count v == 2)) := by
    rw [List.mem_filter]
    refine ⟨hsmem, ?_⟩
    cases hb : (h.wires.count s == 0 || h.wires.count s == 2)
    · rfl
    · exact absurd hb hc
  rw [hz] at hmem
  exact absurd hmem (List.not_mem_nil s)

theorem count_eq_of_pointwise {l1 l2 : List Nat} {u : Nat}
    (hlen : l1.length = l2.length)
    (hpt : ∀ r, r < l1.length → (l1.getD r 0 = u ↔ l2.getD r 0 = u)) :
    l1.count u = l2.count u := by
  rw [← length_posOf l1 u, ← length_posOf l2 u]
  apply List.Perm.length_eq
  apply (List.perm_ext_iff_of_nodup (nodup_posOf _ _) (nodup_posOf _ _)).2
  intro r
  rw [mem_posOf, mem_posOf, ← hlen]
  constructor
  · rintro ⟨h1, h2⟩
    exact ⟨h1, (hpt r h1).1 h2⟩
  · rintro ⟨h1, h2⟩
    exact ⟨h1, (hpt r h1).2 h2⟩

theorem count_map_injOn {g : Nat → Nat} {P : Nat → Prop}
    (hinj : ∀ a b, P a → P b → g a = g b → a = b) {v : Nat} (hv : P v) :
    ∀ {l : List Nat}, (∀ x ∈ l, P x) →
      (l.map g).count (g v) = l.count v := by
  intro l
  induction l with
  | nil => intro _; rfl
  | cons a l ih =>
    intro hl
    rw [List.map_cons, List.count_cons, List.count_cons,
      ih (fun x hx => hl x (List.mem_cons_of_mem _ hx))]
    congr 1
    by_cases hav : v = a
    · rw [hav]
      simp
    · have hga : g v ≠ g a :=
        fun hc => hav (hinj v a hv (hl a (List.mem_cons_self _ _)) hc)
      rw [if_neg (by simpa using Ne.symm hga), if_neg (by simpa using Ne.symm hav)]

theorem setFold_spec (n : Nat) :
    ∀ (ps : List Nat) (w0 : List Nat) (base : Nat),
      ps.Nodup → (∀ x ∈ ps, x < w0.length) →
      ((ps.enumFrom base).foldl (fun w q => w.set q.2 (n + q.1)) w0).length
        = w0.length
      ∧ ∀ r, r < w0.length →
        ((ps.enumFrom base).foldl (fun w q => w.set q.2 (n + q.1)) w0).getD r 0
          = if r ∈ ps then n + base + ps.indexOf r else w0.getD r 0 := by
  intro ps
  induction ps with
  | nil =>
    intro w0 base _ _
    refine ⟨rfl, ?_⟩
    intro r _
    rw [if_neg (List.not_mem_nil r)]
    rfl
  | cons x ps ih =>
    intro w0 base hnd hbd
    have hx : x < w0.length := hbd x (List.mem_cons_self _ _)
    have hxps : x ∉ ps := (List.nodup_cons.1 hnd).1
    have hnd' : ps.Nodup := (List.nodup_cons.1 hnd).2
    have hbd' : ∀ y ∈ ps, y < (w0.set x (n + base)).length := by
      intro y hy
      rw [List.length_set]
      exact hbd y (List.mem_cons_of_mem _ hy)
    obtain ⟨ihlen, ihget⟩ := ih (w0.set x (n + base)) (base + 1) hnd' hbd'
    rw [show (x :: ps).enumFrom base = (base, x) :: ps.enumFrom (base + 1)
      from rfl, List.foldl_cons]
    constructor
    · show ((ps.enumFrom (base + 1)).foldl _ (w0.set x (n + base))).length
        = w0.length
      rw [ihlen, List.length_set]
    · intro r hr
      show ((ps.enumFrom (base + 1)).foldl _ (w0.set x (n + base))).getD r 0
        = _
      rw [ihget r (by rw [List.length_set]; exact hr)]
      by_cases hrx : r = x
      · subst hrx
        rw [if_neg hxps, if_pos (List.mem_cons_self _ _),
          List.indexOf_cons_self]
        have hgd : (w0.set r (n + base)).getD r 0 = n + base := by
          rw [getD_merge_nat _ r (by rw [List.length_set]; exact hr)]
          exact List.getElem_set_eq (by rw [List.length_set]; exact hr)
        rw [hgd]
        omega
      · by_cases hrps : r ∈ ps
        · rw [if_pos hrps, if_pos (List.mem_cons_of_mem _ hrps),
            List.indexOf_cons_ne _ (fun hc => hrx hc.symm)]
          omega
        · rw [if_neg hrps, if_neg (by
            intro hc
            rcases List.mem_cons.1 hc with hc | hc
            · exact hrx hc
            · exact hrps hc)]
          rw [getD_merge_nat _ r (by rw [List.length_set]; exact hr),
            List.getElem_set_ne (fun hc => hrx hc.symm), ← getD_merge_nat w0 r hr]

theorem spider_wires_getD (h : Hypergraph) (hv : h.Valid) {s : Nat}
    (hs : s < h.n_spiders) :
    h.spider_wires.getD s ([], [])
      = (Hypergraph.selPos s true (h.wires.zip h.roles) 0,
         Hypergraph.selPos s false (h.wires.zip h.roles) 0) := by
  rw [Hypergraph.spider_wires_char h hv.1, List.getD_eq_getElem?_getD,
    List.getElem?_eq_getElem
      (by rw [List.length_map, List.length_range]; exact hs)]
  simp only [Option.getD_some]
  rw [List.getElem_map, List.getElem_range]

theorem mem_selPos_zip (h : Hypergraph) (hv : h.Valid) (s : Nat)
    (side : Bool) (r : Nat) :
    r ∈ Hypergraph.selPos s side (h.wires.zip h.roles) 0
      ↔ r < h.wires.length ∧ h.wires.getD r 0 = s
          ∧ h.roles.getD r false = side := by
  have hrl : h.roles.length = h.wires.length := by
    rw [roles_length h, hv.1]
  rw [mem_selPos]
  constructor
  · rintro ⟨j, hj, hjs, rfl⟩
    have hjz := hj
    rw [List.length_zip] at hjz
    have hjw : j < h.wires.length := lt_of_lt_of_le hjz inf_le_left
    have hjr : j < h.roles.length := lt_of_lt_of_le hjz inf_le_right
    rw [List.getElem?_eq_getElem hj] at hjs
    have hze : (h.wires.zip h.roles)[j] = (h.wires[j], h.roles[j]) :=
      List.getElem_zip
    rw [hze] at hjs
    have hv1 : h.wires[j] = s := congrArg Prod.fst (Option.some.inj hjs)
    have hv2 : h.roles[j] = side := congrArg Prod.snd (Option.some.inj hjs)
    refine ⟨by omega, ?_, ?_⟩
    · rw [Nat.zero_add, getD_merge_nat _ j hjw]
      exact hv1
    · rw [Nat.zero_add, List.getD_eq_getElem?_getD,
        List.getElem?_eq_getElem hjr]
      exact hv2
  · rintro ⟨hr, hrs, hside⟩
    have hrz : r < (h.wires.zip h.roles).length := by
      rw [List.length_zip]
      omega
    refine ⟨r, hrz, ?_, by omega⟩
    rw [List.getElem?_eq_getElem hrz]
    have hrr : r < h.roles.length := by omega
    have hze : (h.wires.zip h.roles)[r] = (h.wires[r], h.roles[r]) :=
      List.getElem_zip
    rw [hze]
    rw [getD_merge_nat _ r hr] at hrs
    rw [List.getD_eq_getElem?_getD, List.getElem?_eq_getElem hrr] at hside
    rw [hrs]
    rw [show h.roles[r] = side from hside]

theorem union_eq_posOf (h : Hypergraph) (hv : h.Valid) {s : Nat}
    (hs : s < h.n_spiders) :
    ((h.spider_wires.getD s ([], [])).1
      ++ (h.spider_wires.getD s ([], [])).2).insertionSort (· ≤ ·)
      = Hypergraph.posOf h.wires s := by
  rw [spider_wires_getD h hv hs]
  refine List.eq_of_perm_of_sorted ?_ (List.sorted_insertionSort _ _)
    ((sorted_posOf _ _).imp le_of_lt)
  refine (List.perm_insertionSort _ _).trans ?_
  have hnd1 : (Hypergraph.selPos s true (h.wires.zip h.roles) 0
      ++ Hypergraph.selPos s false (h.wires.zip h.roles) 0).Nodup := by
    apply List.Nodup.append
      ((selPos_sorted s true _ 0).nodup) ((selPos_sorted s false _ 0).nodup)
    intro a ha hb
    have h1 := (mem_selPos_zip h hv s true a).1 ha
    have h2 := (mem_selPos_zip h hv s false a).1 hb
    rw [h1.2.2] at h2
    exact absurd h2.2.2 (by simp)
  apply (List.perm_ext_iff_of_nodup hnd1 (nodup_posOf _ _)).2
  intro r
  rw [List.mem_append, mem_posOf, mem_selPos_zip h hv s true r,
    mem_selPos_zip h hv s false r]
  constructor
  · rintro (⟨h1, h2, _⟩ | ⟨h1, h2, _⟩) <;> exact ⟨h1, h2⟩
  · rintro ⟨h1, h2⟩
    cases hro : h.roles.getD r false
    · right
      exact ⟨h1, h2, rfl⟩
    · left
      exact ⟨h1, h2, rfl⟩

theorem getD_take_str (l : Ty) (m i : Nat) (h : i < m) :
    (l.take m).getD i "" = l.getD i "" := by
  rw [List.getD_eq_getElem?_getD, List.getD_eq_getElem?_getD,
    List.getElem?_take, if_pos h]

theorem getD_drop_str (l : Ty) (m i : Nat) :
    (l.drop m).getD i "" = l.getD (m + i) "" := by
  rw [List.getD_eq_getElem?_getD, List.getD_eq_getElem?_getD,
    List.getElem?_drop]

theorem getD_eraseIdx_str (l : Ty) (i j : Nat) (hi : i < l.length) :
    (l.eraseIdx i).getD j ""
      = if j < i then l.getD j "" else l.getD (j + 1) "" := by
  have hlen : (l.eraseIdx i).length = l.length - 1 := by
    rw [List.length_eraseIdx]
    simp [hi]
  by_cases hj : j < (l.eraseIdx i).length
  · by_cases hji : j < i
    · rw [if_pos hji, getD_merge_str _ j hj,
        List.getElem_eraseIdx_of_lt l i j hj hji,
        ← getD_merge_str l j (by omega)]
    · rw [if_neg hji, getD_merge_str _ j hj,
        List.getElem_eraseIdx_of_ge l i j hj (by omega),
        ← getD_merge_str l (j + 1) (by omega)]
  · have h1 : (l.eraseIdx i).getD j "" = "" := by
      rw [List.getD_eq_getElem?_getD, List.getElem?_eq_none (by omega)]
      rfl
    rw [h1]
    by_cases hji : j < i
    · exact absurd hji (by omega)
    · rw [if_neg hji, List.getD_eq_getElem?_getD,
        List.getElem?_eq_none (by omega)]
      rfl

theorem sum_take_le (l : List Nat) (d : Nat) : (l.take d).sum ≤ l.sum := by
  conv_rhs => rw [← List.take_append_drop d l]
  rw [List.sum_append]
  omega

theorem boxWires_sum_take (h : Hypergraph) (hv : h.Valid) (d : Nat) :
    ((h.box_wires.take d).map (fun q => q.1.length + q.2.length)).sum
      = ((h.boxes.take d).map
          (fun b => b.dom.length + b.cod.length)).sum := by
  have h1 := hv.1
  rw [Hypergraph.ports, Hypergraph.portTypes_length] at h1
  have hble : h.dom.length
      + (h.boxes.map (fun b => b.dom.length + b.cod.length)).sum
      ≤ h.wires.length := by omega
  have hpairs := Hypergraph.boxWiresAux_lengths h.boxes h.wires
    h.dom.length hble
  have h3 := congrArg
    (fun l : List (Nat × Nat) => ((l.take d).map (fun p => p.1 + p.2)).sum)
    hpairs
  simp only at h3
  rw [← List.map_take, ← List.map_take, List.map_map, List.map_map] at h3
  have e1 : ((fun p : Nat × Nat => p.1 + p.2)
      ∘ (fun p : List Nat × List Nat => (p.1.length, p.2.length)))
      = fun q : List Nat × List Nat => q.1.length + q.2.length := rfl
  have e2 : ((fun p : Nat × Nat => p.1 + p.2)
      ∘ (fun b : Box => (b.dom.length, b.cod.length)))
      = fun b : Box => b.dom.length + b.cod.length := rfl
  rw [e1, e2] at h3
  exact h3

theorem flatten_boxes_split (boxes : List Box) (nb : Box) (d : Nat) :
    ((boxes.take d ++ [nb] ++ boxes.drop d).map
      (fun b => b.dom ++ b.cod)).flatten
    = ((boxes.take d).map (fun b => b.dom ++ b.cod)).flatten
      ++ (nb.dom ++ nb.cod)
      ++ ((boxes.drop d).map (fun b => b.dom ++ b.cod)).flatten := by
  rw [List.map_append, List.flatten_append, List.map_append,
    List.flatten_append]
  rw [show (([nb] : List Box).map (fun b => b.dom ++ b.cod)).flatten
    = nb.dom ++ nb.cod from by simp]

theorem getD_replicate_str (n j : Nat) (t : Ob) (h : j < n) :
    (List.replicate n t).getD j "" = t := by
  rw [List.getD_eq_getElem?_getD, List.getElem?_eq_getElem (by simpa using h)]
  simp

theorem getD_range'_nat (a len j : Nat) (h : j < len) :
    (List.range' a len).getD j 0 = a + j := by
  rw [getD_merge_nat _ j (by rw [List.length_range']; exact h),
    List.getElem_range']
  omega

theorem relabelingOf_range_mem {w : List Nat} {n : Nat}
    (hvals : ∀ v ∈ w, v < n) :
    (∀ v, v ∈ relabelingOf w (List.range n) ↔ v < n)
    ∧ (relabelingOf w (List.range n)).Nodup := by
  constructor
  · intro v
    rw [relabelingOf, List.mem_append]
    constructor
    · rintro (hv | hv)
      · exact hvals v (mem_firstOccs.1 hv)
      · have hm := List.mem_filter.1
          ((List.perm_insertionSort _ _).mem_iff.1 hv)
        have := mem_firstOccs.1 hm.1
        rw [List.mem_range] at this
        exact this
    · intro hv
      by_cases hmem : v ∈ firstOccs w
      · exact .inl hmem
      · right
        apply (List.perm_insertionSort _ _).mem_iff.2
        rw [List.mem_filter]
        refine ⟨?_, by simpa using hmem⟩
        rw [firstOccs_of_nodup (List.nodup_range n)]
        exact List.mem_range.2 hv
  · rw [relabelingOf]
    apply List.Nodup.append (nodup_firstOccs w)
      ((List.perm_insertionSort _ _).nodup_iff.2
        ((nodup_firstOccs _).filter _))
    intro a ha hb
    have hm := List.mem_filter.1 ((List.perm_insertionSort _ _).mem_iff.1 hb)
    simp only [decide_eq_true_eq] at hm
    exact hm.2 ha

set_option maxHeartbeats 1600000 in
theorem mbStep_ok (h : Hypergraph) (hv : h.Valid) {s : Nat}
    (hs : s < h.n_spiders) :
    ∃ h', Hypergraph.mbStep h s = .ok h' ∧ h'.Valid
      ∧ ∃ g : Nat → Nat,
        (∀ u, u < h.n_spiders → u ≠ s →
          g u < h'.n_spiders ∧ h'.wires.count (g u) = h.wires.count u)
        ∧ (∀ u u', u < h.n_spiders → u' < h.n_spiders → u ≠ s → u' ≠ s →
            g u = g u' → u = u')
        ∧ (∀ v', v' < h'.n_spiders → h'.wires.count v' ≠ 0 →
            (∃ u, u < h.n_spiders ∧ u ≠ s ∧ v' = g u)
            ∨ h'.wires.count v' = 2) := by
  have hnty : h.spider_types.length = h.n_spiders := rfl
  have hvalw := valid_wire_bound h hv
  have hPC := valid_preCheck h hv
  have hwplen : h.wires.length = h.dom.length
      + (h.boxes.map (fun b => b.dom.length + b.cod.length)).sum
      + h.cod.length := by
    have h1 := hv.1
    rw [Hypergraph.ports, Hypergraph.portTypes_length] at h1
    exact h1
  -- mirror the let chain of the rewrite step
  set p0 := h.spider_wires.getD s ([], []) with hp0
  set nLegs := p0.1.length + p0.2.length with hNL
  set typ0 := h.spider_types.getD s "" with htyp0
  set union0 := (p0.1 ++ p0.2).insertionSort (· ≤ ·) with hunion0
  set wSet := union0.enum.foldl
    (fun w q => w.set q.2 (h.n_spiders + q.1)) h.wires with hwSet
  set stP := (h.spider_types ++ List.replicate nLegs typ0).eraseIdx s
    with hstP
  obtain ⟨d0, hstepdef⟩ : ∃ dd, Hypergraph.mbStep h s
      = Hypergraph.mkH h.dom h.cod
          (h.boxes.take dd
            ++ [Hypergraph.spiderFactory p0.1.length p0.2.length typ0]
            ++ h.boxes.drop dd)
          ((wSet.take (h.dom.length
              + (((h.box_wires.take dd).map
                fun q => q.1.length + q.2.length).sum))
            ++ List.range' h.n_spiders nLegs
            ++ wSet.drop (h.dom.length
              + (((h.box_wires.take dd).map
                fun q => q.1.length + q.2.length).sum))).map
            (fun w => if w > s then w - 1 else w))
          stP.enum
          (some (h.offsets.take dd ++ [none] ++ h.offsets.drop dd)) := by
    unfold Hypergraph.mbStep
    exact ⟨_, rfl⟩
  set boxesN := h.boxes.take d0
    ++ [Hypergraph.spiderFactory p0.1.length p0.2.length typ0]
    ++ h.boxes.drop d0 with hboxesN
  set offsN := h.offsets.take d0 ++ [none] ++ h.offsets.drop d0 with hoffsN
  set i0 := h.dom.length
    + (((h.box_wires.take d0).map fun q => q.1.length + q.2.length).sum)
    with hi0
  set wIns := wSet.take i0 ++ List.range' h.n_spiders nLegs
    ++ wSet.drop i0 with hwIns
  set wFin := wIns.map (fun w => if w > s then w - 1 else w) with hwFin
  -- the union is the sorted position list of the rewritten spider
  have hUnion : union0 = Hypergraph.posOf h.wires s := by
    rw [hunion0, hp0]
    exact union_eq_posOf h hv hs
  have hNLcount : nLegs = h.wires.count s := by
    rw [hNL, hp0]
    exact degree_eq_count h hv hs
  have hUlen : union0.length = h.wires.count s := by
    rw [hUnion, length_posOf]
  have hUnodup : union0.Nodup := by
    rw [hUnion]
    exact nodup_posOf _ _
  have hUmem : ∀ r, r ∈ union0
      ↔ r < h.wires.length ∧ h.wires.getD r 0 = s := by
    intro r
    rw [hUnion]
    exact mem_posOf
  have hUbd : ∀ x ∈ union0, x < h.wires.length :=
    fun x hx => ((hUmem x).1 hx).1
  -- the position-set fold
  obtain ⟨hwSetLenA, hwSetGetA⟩ :=
    setFold_spec h.n_spiders union0 h.wires 0 hUnodup hUbd
  have hwSetLen2 : wSet.length = h.wires.length := by
    rw [hwSet]
    exact hwSetLenA
  have hwSetGet2 : ∀ r, r < h.wires.length → wSet.getD r 0
      = if r ∈ union0 then h.n_spiders + union0.indexOf r
        else h.wires.getD r 0 := by
    intro r hr
    rw [hwSet]
    exact hwSetGetA r hr
  -- the insertion point is inside the box region
  have hi0sum : i0 ≤ h.dom.length
      + (h.boxes.map (fun b => b.dom.length + b.cod.length)).sum := by
    rw [hi0, boxWires_sum_take h hv d0]
    have hle := sum_take_le
      ((h.boxes.map (fun b => b.dom.length + b.cod.length))) d0
    rw [← List.map_take] at hle
    omega
  have hi0w : i0 ≤ h.wires.length := by omega
  have hi0p : i0 ≤ h.ports.length := by
    have := hv.1
    omega
  -- length bookkeeping
  have hstPlen : stP.length = h.n_spiders - 1 + nLegs := by
    have h1 : (h.spider_types ++ List.replicate nLegs typ0).length
        = h.n_spiders + nLegs := by
      rw [List.length_append, List.length_replicate, hnty]
    rw [hstP, List.length_eraseIdx, h1, if_pos (by omega)]
    omega
  have hwInsLen : wIns.length = h.wires.length + nLegs := by
    rw [hwIns, List.length_append, List.length_append, List.length_take,
      List.length_drop, List.length_range', hwSetLen2,
      min_eq_left hi0w]
    omega
  -- the port types of the new hypergraph
  have hflatlen : ∀ d : Nat,
      (((h.boxes.take d).map (fun b => b.dom ++ b.cod)).flatten).length
      = ((h.boxes.take d).map (fun b => b.dom.length + b.cod.length)).sum := by
    intro d
    rw [List.length_flatten, List.map_map]
    congr 1
    apply List.map_congr_left
    intro b _
    simp [Function.comp]
  have hpsplit : h.ports
      = (h.dom ++ ((h.boxes.take d0).map (fun b => b.dom ++ b.cod)).flatten)
        ++ (((h.boxes.drop d0).map (fun b => b.dom ++ b.cod)).flatten
          ++ h.cod) := by
    show (h.dom ++ (h.boxes.map (fun b => b.dom ++ b.cod)).flatten)
        ++ h.cod = _
    conv_lhs => rw [← List.take_append_drop d0 h.boxes]
    rw [List.map_append, List.flatten_append]
    simp only [List.append_assoc]
  have htklen : (h.dom
      ++ ((h.boxes.take d0).map (fun b => b.dom ++ b.cod)).flatten).length
      = i0 := by
    rw [List.length_append, hflatlen d0, hi0, boxWires_sum_take h hv d0]
  have htk : h.ports.take i0
      = h.dom ++ ((h.boxes.take d0).map (fun b => b.dom ++ b.cod)).flatten := by
    conv_lhs => rw [hpsplit]
    exact List.take_left' htklen
  have hdr : h.ports.drop i0
      = ((h.boxes.drop d0).map (fun b => b.dom ++ b.cod)).flatten
        ++ h.cod := by
    conv_lhs => rw [hpsplit]
    exact List.drop_left' htklen
  have hportsSplit : Hypergraph.portTypes h.dom h.cod boxesN
      = (h.ports.take i0
          ++ (List.replicate p0.1.length typ0
            ++ List.replicate p0.2.length typ0))
        ++ h.ports.drop i0 := by
    show (h.dom ++ (boxesN.map (fun b => b.dom ++ b.cod)).flatten)
        ++ h.cod = _
    rw [hboxesN, flatten_boxes_split]
    rw [htk, hdr]
    rw [show (Hypergraph.spiderFactory p0.1.length p0.2.length typ0).dom
      = List.replicate p0.1.length typ0 from rfl]
    rw [show (Hypergraph.spiderFactory p0.1.length p0.2.length typ0).cod
      = List.replicate p0.2.length typ0 from rfl]
    simp only [List.append_assoc]
  -- values of the modified wires lists
  have hwSetVals : ∀ r, r < h.wires.length →
      wSet.getD r 0 < h.n_spiders + nLegs ∧ wSet.getD r 0 ≠ s := by
    intro r hr
    rw [hwSetGet2 r hr]
    by_cases hrU : r ∈ union0
    · rw [if_pos hrU]
      have hlt : union0.indexOf r < union0.length :=
        List.indexOf_lt_length.2 hrU
      rw [hUlen, ← hNLcount] at hlt
      exact ⟨by omega, by omega⟩
    · rw [if_neg hrU]
      have h1 := hvalw _ (getD_mem_nat _ r hr)
      have h2 : h.wires.getD r 0 ≠ s :=
        fun hc => hrU ((hUmem r).2 ⟨hr, hc⟩)
      exact ⟨by omega, h2⟩
  have hwInsVals : ∀ x ∈ wIns, x < h.n_spiders + nLegs ∧ x ≠ s := by
    intro x hx
    rw [hwIns] at hx
    rcases List.mem_append.1 hx with hx | hx
    · rcases List.mem_append.1 hx with hx | hx
      · rcases List.mem_iff_getElem.1 (List.mem_of_mem_take hx)
          with ⟨r, hrb, rfl⟩
        have hrb2 : r < h.wires.length := by
          rw [← hwSetLen2]
          exact hrb
        have := hwSetVals r hrb2
        rw [getD_merge_nat wSet r hrb] at this
        exact this
      · have := List.mem_range'_1.1 hx
        exact ⟨by omega, by omega⟩
    · rcases List.mem_iff_getElem.1 (List.mem_of_mem_drop hx)
        with ⟨r, hrb, rfl⟩
      have hrb2 : r < h.wires.length := by
        rw [← hwSetLen2]
        exact hrb
      have := hwSetVals r hrb2
      rw [getD_merge_nat wSet r hrb] at this
      exact this
  have hwFinVals : ∀ v ∈ wFin, v < stP.length := by
    intro v hv2
    rw [hwFin] at hv2
    rcases List.mem_map.1 hv2 with ⟨y, hy, rfl⟩
    obtain ⟨h1, h2⟩ := hwInsVals y hy
    show (if y > s then y - 1 else y) < stP.length
    rw [hstPlen]
    by_cases hgt : y > s
    · rw [if_pos hgt]
      omega
    · rw [if_neg hgt]
      omega
  -- the erased type table
  have hstPget : ∀ u, u < h.n_spiders + nLegs → u ≠ s →
      stP.getD (if u > s then u - 1 else u) ""
        = (h.spider_types ++ List.replicate nLegs typ0).getD u "" := by
    intro u hu hus
    have hsl : s < (h.spider_types ++ List.replicate nLegs typ0).length := by
      rw [List.length_append, List.length_replicate, hnty]
      omega
    by_cases hugt : u > s
    · rw [if_pos hugt, hstP, getD_eraseIdx_str _ s _ hsl,
        if_neg (by omega)]
      have he : u - 1 + 1 = u := by omega
      rw [he]
    · rw [if_neg hugt, hstP, getD_eraseIdx_str _ s _ hsl,
        if_pos (by omega)]
  -- the per-port type agreement before insertion
  have hportPre : ∀ r, r < h.wires.length →
      h.ports.getD r ""
        = stP.getD (if wSet.getD r 0 > s then wSet.getD r 0 - 1
            else wSet.getD r 0) "" := by
    intro r hr
    by_cases hrU : r ∈ union0
    · have hwv : wSet.getD r 0 = h.n_spiders + union0.indexOf r := by
        rw [hwSetGet2 r hr, if_pos hrU]
      have hidx : union0.indexOf r < nLegs := by
        rw [hNLcount, ← hUlen]
        exact List.indexOf_lt_length.2 hrU
      rw [hwv]
      have hgt : h.n_spiders + union0.indexOf r > s := by omega
      rw [if_pos hgt]
      have hsP := hstPget (h.n_spiders + union0.indexOf r)
        (by omega) (by omega)
      rw [if_pos hgt] at hsP
      rw [hsP, List.getD_append_right h.spider_types
        (List.replicate nLegs typ0) "" _ (by omega)]
      have he : h.n_spiders + union0.indexOf r - h.spider_types.length
          = union0.indexOf r := by
        rw [hnty]
        omega
      rw [he, getD_replicate_str nLegs _ typ0 hidx]
      have hws : h.wires.getD r 0 = s := ((hUmem r).1 hrU).2
      rw [hPC r hr, hws]
    · have hwv : wSet.getD r 0 = h.wires.getD r 0 := by
        rw [hwSetGet2 r hr, if_neg hrU]
      have hune : h.wires.getD r 0 ≠ s :=
        fun hc => hrU ((hUmem r).2 ⟨hr, hc⟩)
      have hub : h.wires.getD r 0 < h.n_spiders :=
        hvalw _ (getD_mem_nat _ r hr)
      rw [hwv, hstPget (h.wires.getD r 0) (by omega) hune,
        List.getD_append h.spider_types (List.replicate nLegs typ0) "" _
          (by rw [hnty]; omega)]
      exact hPC r hr
  -- the constructor's inputs
  have hAplen : (h.ports.take i0).length = i0 := by
    rw [List.length_take]
    exact min_eq_left hi0p
  have hWAlen : (wSet.take i0).length = i0 := by
    rw [List.length_take, hwSetLen2]
    exact min_eq_left hi0w
  have hlenN : wFin.length
      = (Hypergraph.portTypes h.dom h.cod boxesN).length := by
    have hPlen2 : (Hypergraph.portTypes h.dom h.cod boxesN).length
        = h.ports.length + nLegs := by
      rw [hportsSplit, List.length_append, List.length_append, hAplen,
        List.length_append, List.length_replicate, List.length_replicate,
        List.length_drop]
      omega
    rw [hwFin, List.length_map, hwInsLen, hPlen2, hv.1]
  have hkeysN : ∀ v ∈ wFin, (dlookup stP.enum v).isSome := by
    intro v hv2
    rw [dlookup_enum_isSome_iff]
    exact hwFinVals v hv2
  have hq2len : ∀ q, q < wFin.length → q < wIns.length := by
    intro q hq
    rw [hwFin, List.length_map] at hq
    exact hq
  have hpreN : ∀ q, q < wFin.length →
      (Hypergraph.portTypes h.dom h.cod boxesN).getD q ""
      = (dlookup stP.enum (wFin.getD q 0)).getD "" := by
    intro q hq
    have hq2 : q < wIns.length := hq2len q hq
    have hqtot : q < h.wires.length + nLegs := by
      rw [← hwInsLen]
      exact hq2
    rw [dlookup_enum_getD, hwFin, getD_map_nat wIns _ q hq2, hportsSplit]
    by_cases hqi : q < i0
    · have hpts : ((h.ports.take i0
          ++ (List.replicate p0.1.length typ0
            ++ List.replicate p0.2.length typ0))
          ++ h.ports.drop i0).getD q "" = h.ports.getD q "" := by
        rw [List.getD_append _ _ _ _
            (by rw [List.length_append, hAplen]; omega),
          List.getD_append _ _ _ _ (by rw [hAplen]; omega)]
        exact getD_take_str h.ports i0 q hqi
      have hwv : wIns.getD q 0 = wSet.getD q 0 := by
        rw [hwIns, List.getD_append _ _ _ _
            (by rw [List.length_append, hWAlen, List.length_range']; omega),
          List.getD_append _ _ _ _ (by rw [hWAlen]; omega)]
        exact getD_take_nat wSet i0 q hqi
      rw [hpts, hwv]
      exact hportPre q (by omega)
    · by_cases hqm : q < i0 + nLegs
      · have hpts : ((h.ports.take i0
            ++ (List.replicate p0.1.length typ0
              ++ List.replicate p0.2.length typ0))
            ++ h.ports.drop i0).getD q "" = typ0 := by
          rw [List.getD_append _ _ _ _ (by
              rw [List.length_append, hAplen, List.length_append,
                List.length_replicate, List.length_replicate]
              omega),
            List.getD_append_right _ _ _ _ (by rw [hAplen]; omega), hAplen]
          rw [← List.replicate_add]
          exact getD_replicate_str _ _ typ0 (by omega)
        have hwv : wIns.getD q 0 = h.n_spiders + (q - i0) := by
          rw [hwIns, List.getD_append _ _ _ _ (by
              rw [List.length_append, hWAlen, List.length_range']
              omega),
            List.getD_append_right _ _ _ _ (by rw [hWAlen]; omega), hWAlen]
          exact getD_range'_nat h.n_spiders nLegs (q - i0) (by omega)
        rw [hpts, hwv]
        have hgt : h.n_spiders + (q - i0) > s := by omega
        show typ0 = stP.getD (if h.n_spiders + (q - i0) > s
            then h.n_spiders + (q - i0) - 1
            else h.n_spiders + (q - i0)) ""
        have hsP := hstPget (h.n_spiders + (q - i0)) (by omega) (by omega)
        rw [hsP, List.getD_append_right h.spider_types
          (List.replicate nLegs typ0) "" _ (by rw [hnty]; omega)]
        have he : h.n_spiders + (q - i0) - h.spider_types.length
            = q - i0 := by
          rw [hnty]
          omega
        rw [he, getD_replicate_str nLegs _ typ0 (by omega)]
      · have hpts : ((h.ports.take i0
            ++ (List.replicate p0.1.length typ0
              ++ List.replicate p0.2.length typ0))
            ++ h.ports.drop i0).getD q ""
            = h.ports.getD (q - nLegs) "" := by
          rw [List.getD_append_right
            (h.ports.take i0 ++ (List.replicate p0.1.length typ0
              ++ List.replicate p0.2.length typ0)) (h.ports.drop i0) "" q
            (by
              rw [List.length_append, hAplen, List.length_append,
                List.length_replicate, List.length_replicate]
              omega)]
          have he : q - (h.ports.take i0
              ++ (List.replicate p0.1.length typ0
                ++ List.replicate p0.2.length typ0)).length
              = q - (i0 + nLegs) := by
            rw [List.length_append, hAplen, List.length_append,
              List.length_replicate, List.length_replicate]
          rw [he, getD_drop_str h.ports i0 (q - (i0 + nLegs))]
          have he2 : i0 + (q - (i0 + nLegs)) = q - nLegs := by omega
          rw [he2]
        have hwv : wIns.getD q 0 = wSet.getD (q - nLegs) 0 := by
          rw [hwIns, List.getD_append_right
            (wSet.take i0 ++ List.range' h.n_spiders nLegs)
            (wSet.drop i0) 0 q
            (by
              rw [List.length_append, hWAlen, List.length_range']
              omega)]
          have he : q - (wSet.take i0
              ++ List.range' h.n_spiders nLegs).length
              = q - (i0 + nLegs) := by
            rw [List.length_append, hWAlen, List.length_range']
          rw [he, getD_drop_nat wSet i0 (q - (i0 + nLegs))]
          have he2 : i0 + (q - (i0 + nLegs)) = q - nLegs := by omega
          rw [he2]
        rw [hpts, hwv]
        exact hportPre (q - nLegs) (by omega)
  obtain ⟨h', hmk⟩ := mkH_ok_of_preCheck (some offsN) hlenN hkeysN hpreN
  refine ⟨h', by rw [hstepdef]; exact hmk, mkH_valid hmk, ?_⟩
  obtain ⟨hd', hc', hb', hw', hty', _, _, hoff'⟩ := mkH_ok_elim hmk
  rw [List.enum_map_fst] at hw' hty'
  have hstPlen2 : List.range stP.length = List.range stP.length := rfl
  obtain ⟨hrmem, hrnodup⟩ := relabelingOf_range_mem hwFinVals
  have hrlen := relabelingOf_range_length hwFinVals
  obtain ⟨hip1, hip2⟩ := perm_range_props hrnodup hrlen hrmem
  have hn' : h'.n_spiders = stP.length := by
    show h'.spider_types.length = _
    rw [typesOf_length hty', hrlen]
  have hidxinj : ∀ a b, a < stP.length → b < stP.length →
      (relabelingOf wFin (List.range stP.length)).indexOf a
        = (relabelingOf wFin (List.range stP.length)).indexOf b → a = b := by
    intro a b ha hb heq
    have h1 := (hip1 a ha).1
    have h2 := (hip1 b hb).1
    rw [← h1, ← h2, heq]
  have hcount' : ∀ x, x < stP.length →
      h'.wires.count
        ((relabelingOf wFin (List.range stP.length)).indexOf x)
      = wFin.count x := by
    intro x hx
    rw [hw']
    exact count_map_injOn (P := fun v => v < stP.length)
      hidxinj hx hwFinVals
  have hshiftinj : ∀ a b,
      (a < h.n_spiders + nLegs ∧ a ≠ s) → (b < h.n_spiders + nLegs ∧ b ≠ s) →
      (if a > s then a - 1 else a) = (if b > s then b - 1 else b) →
      a = b := by
    rintro a b ⟨_, ha2⟩ ⟨_, hb2⟩ heq
    by_cases h1 : a > s <;> by_cases h2 : b > s
    · rw [if_pos h1, if_pos h2] at heq
      omega
    · rw [if_pos h1, if_neg h2] at heq
      omega
    · rw [if_neg h1, if_pos h2] at heq
      omega
    · rw [if_neg h1, if_neg h2] at heq
      omega
  have hcountFin : ∀ x, x < h.n_spiders + nLegs → x ≠ s →
      wFin.count (if x > s then x - 1 else x) = wIns.count x := by
    intro x hx hxs
    rw [hwFin]
    exact count_map_injOn
      (P := fun v => v < h.n_spiders + nLegs ∧ v ≠ s)
      hshiftinj ⟨hx, hxs⟩ hwInsVals
  have hcountIns : ∀ x, wIns.count x
      = wSet.count x + (List.range' h.n_spiders nLegs).count x := by
    intro x
    have hsp : wSet.count x
        = (wSet.take i0).count x + (wSet.drop i0).count x := by
      conv_lhs => rw [← List.take_append_drop i0 wSet]
      rw [List.count_append]
    rw [hwIns, List.count_append, List.count_append]
    omega
  have hcountRange : ∀ x, (List.range' h.n_spiders nLegs).count x
      = if h.n_spiders ≤ x ∧ x < h.n_spiders + nLegs then 1 else 0 := by
    intro x
    by_cases hx : h.n_spiders ≤ x ∧ x < h.n_spiders + nLegs
    · rw [if_pos hx]
      exact List.count_eq_one_of_mem (List.nodup_range' _ _)
        (List.mem_range'_1.2 (by omega))
    · rw [if_neg hx]
      apply List.count_eq_zero.2
      intro hc
      exact hx (by
        have := List.mem_range'_1.1 hc
        omega)
  have hcountSetOld : ∀ u, u < h.n_spiders → u ≠ s →
      wSet.count u = h.wires.count u := by
    intro u hu hus
    apply count_eq_of_pointwise hwSetLen2
    intro r hr
    rw [hwSetLen2] at hr
    rw [hwSetGet2 r hr]
    by_cases hrU : r ∈ union0
    · rw [if_pos hrU]
      constructor
      · intro hc
        omega
      · intro hc
        have hws := ((hUmem r).1 hrU).2
        exact absurd (hc.symm.trans hws) hus
    · rw [if_neg hrU]
  have hcountSetFresh : ∀ j, j < nLegs →
      wSet.count (h.n_spiders + j) = 1 := by
    intro j hj
    have hjU : j < union0.length := by
      rw [hUlen, ← hNLcount]
      omega
    rw [← length_posOf]
    have hperm : (Hypergraph.posOf wSet (h.n_spiders + j)).Perm
        [union0.getD j 0] := by
      apply (List.perm_ext_iff_of_nodup (nodup_posOf _ _)
        (List.nodup_singleton _)).2
      intro r
      rw [mem_posOf, List.mem_singleton]
      constructor
      · rintro ⟨hr, hval⟩
        rw [hwSetLen2] at hr
        rw [hwSetGet2 r hr] at hval
        by_cases hrU : r ∈ union0
        · rw [if_pos hrU] at hval
          have hidx : union0.indexOf r = j := by omega
          have h2 : union0.indexOf r < union0.length :=
            List.indexOf_lt_length.2 hrU
          have h3 := List.getElem_indexOf h2
          rw [← hidx, getD_merge_nat union0 _ h2]
          exact h3.symm
        · rw [if_neg hrU] at hval
          have := hvalw _ (getD_mem_nat _ r hr)
          omega
      · intro hre
        subst hre
        have hmem : union0.getD j 0 ∈ union0 := getD_mem_nat union0 j hjU
        have hbd : union0.getD j 0 < h.wires.length := hUbd _ hmem
        refine ⟨by rw [hwSetLen2]; exact hbd, ?_⟩
        rw [hwSetGet2 _ hbd, if_pos hmem]
        have hio : union0.indexOf (union0.getD j 0) = j := by
          rw [getD_merge_nat union0 j hjU]
          exact List.indexOf_getElem hUnodup j hjU
        rw [hio]
    rw [hperm.length_eq]
    rfl
  refine ⟨fun u => (relabelingOf wFin (List.range stP.length)).indexOf
    (if u > s then u - 1 else u), ?_, ?_, ?_⟩
  · intro u hu hus
    have hsh : (if u > s then u - 1 else u) < stP.length := by
      rw [hstPlen]
      by_cases h1 : u > s
      · rw [if_pos h1]
        omega
      · rw [if_neg h1]
        omega
    constructor
    · rw [hn']
      exact (hip1 _ hsh).2
    · show h'.wires.count
          ((relabelingOf wFin (List.range stP.length)).indexOf
            (if u > s then u - 1 else u))
        = h.wires.count u
      rw [hcount' _ hsh, hcountFin u (by omega) hus, hcountIns,
        hcountRange, if_neg (by omega), hcountSetOld u hu hus]
      omega
  · intro u u' hu hu' hus hu's heq
    have hsh : (if u > s then u - 1 else u) < stP.length := by
      rw [hstPlen]
      by_cases h1 : u > s
      · rw [if_pos h1]
        omega
      · rw [if_neg h1]
        omega
    have hsh' : (if u' > s then u' - 1 else u') < stP.length := by
      rw [hstPlen]
      by_cases h1 : u' > s
      · rw [if_pos h1]
        omega
      · rw [if_neg h1]
        omega
    have h2 := hidxinj _ _ hsh hsh' heq
    exact hshiftinj u u' ⟨by omega, hus⟩ ⟨by omega, hu's⟩ h2
  · intro v' hv' hcnt
    have hpos : 0 < h'.wires.count v' := Nat.pos_of_ne_zero hcnt
    have hv'mem : v' ∈ h'.wires := List.count_pos_iff.1 hpos
    rw [hw'] at hv'mem
    rcases List.mem_map.1 hv'mem with ⟨x, hx, rfl⟩
    rw [hwFin] at hx
    rcases List.mem_map.1 hx with ⟨y, hy, rfl⟩
    obtain ⟨hy1, hy2⟩ := hwInsVals y hy
    by_cases hyn : y < h.n_spiders
    · left
      exact ⟨y, hyn, hy2, rfl⟩
    · right
      have hyj : y = h.n_spiders + (y - h.n_spiders) := by omega
      have hj : y - h.n_spiders < nLegs := by omega
      show h'.wires.count
          ((relabelingOf wFin (List.range stP.length)).indexOf
            (if y > s then y - 1 else y)) = 2
      have hsh : (if y > s then y - 1 else y) < stP.length := by
        rw [hstPlen]
        by_cases h1 : y > s
        · rw [if_pos h1]
          omega
        · rw [if_neg h1]
          omega
      rw [hcount' _ hsh, hcountFin y (by omega) hy2, hcountIns,
        hcountRange, if_pos (by omega)]
      conv_lhs => rw [hyj]
      rw [hcountSetFresh (y - h.n_spiders) hj]

theorem badCount_lt {h h' : Hypergraph} {s : Nat} (g : Nat → Nat)
    (hs : s < h.n_spiders)
    (hbad : ¬ (h.wires.count s = 0 ∨ h.wires.count s = 2))
    (hg1 : ∀ u, u < h.n_spiders → u ≠ s →
      g u < h'.n_spiders ∧ h'.wires.count (g u) = h.wires.count u)
    (hg2 : ∀ u u', u < h.n_spiders → u' < h.n_spiders → u ≠ s → u' ≠ s →
      g u = g u' → u = u')
    (hg3 : ∀ v', v' < h'.n_spiders → h'.wires.count v' ≠ 0 →
      (∃ u, u < h.n_spiders ∧ u ≠ s ∧ v' = g u) ∨ h'.wires.count v' = 2) :
    Hypergraph.badCount h' + 1 ≤ Hypergraph.badCount h := by
  rw [Hypergraph.badCount, Hypergraph.badCount]
  have hmem : ∀ k (hh : Hypergraph) , k ∈ (List.range hh.n_spiders).filter
      (fun v => !(hh.wires.count v == 0 || hh.wires.count v == 2))
      ↔ k < hh.n_spiders
        ∧ ¬ (hh.wires.count k = 0 ∨ hh.wires.count k = 2) := by
    intro k hh
    rw [List.mem_filter, List.mem_range]
    simp
  have hsmem : s ∈ (List.range h.n_spiders).filter
      (fun v => !(h.wires.count v == 0 || h.wires.count v == 2)) :=
    (hmem s h).2 ⟨hs, hbad⟩
  have hsubset : ((List.range h'.n_spiders).filter
        (fun v => !(h'.wires.count v == 0 || h'.wires.count v == 2)))
      ⊆ (((List.range h.n_spiders).filter
        (fun v => !(h.wires.count v == 0
          || h.wires.count v == 2))).erase s).map g := by
    intro v' hv'
    obtain ⟨hv'n, hv'bad⟩ := (hmem v' h').1 hv'
    have hc0 : h'.wires.count v' ≠ 0 := fun hc => hv'bad (Or.inl hc)
    rcases hg3 v' hv'n hc0 with ⟨u, hu, hus, rfl⟩ | hc2
    · apply List.mem_map.2
      refine ⟨u, ?_, rfl⟩
      apply (List.mem_erase_of_ne hus).2
      apply (hmem u h).2
      refine ⟨hu, ?_⟩
      rw [← (hg1 u hu hus).2]
      exact hv'bad
    · exact absurd (Or.inr hc2) hv'bad
  have hnodup : ((List.range h'.n_spiders).filter
      (fun v => !(h'.wires.count v == 0
        || h'.wires.count v == 2))).Nodup :=
    (List.nodup_range _).filter _
  have hsub := (List.subperm_of_subset hnodup hsubset).length_le
  rw [List.length_map,
    List.length_erase_of_mem hsmem] at hsub
  have hpos : 0 < ((List.range h.n_spiders).filter
      (fun v => !(h.wires.count v == 0
        || h.wires.count v == 2))).length :=
    List.length_pos_of_mem hsmem
  omega

theorem mbFuel_ok : ∀ (fuel : Nat) (h : Hypergraph), h.Valid →
    Hypergraph.badCount h ≤ fuel →
    ∃ h', Hypergraph.mbFuel fuel h = .ok h' ∧ h'.Valid
      ∧ Hypergraph.is_bijective h' = true := by
  intro fuel
  induction fuel with
  | zero =>
    intro h hv hb
    exact ⟨h, rfl, hv, badCount_zero_bijective h (Nat.le_zero.1 hb)⟩
  | succ n ih =>
    intro h hv hb
    cases hf : Hypergraph.mbFind h with
    | none =>
      refine ⟨h, ?_, hv, (mbFind_none_iff h hv).1 hf⟩
      rw [show Hypergraph.mbFuel (n + 1) h
        = (match Hypergraph.mbFind h with
           | none => Except.ok h
           | some s => Hypergraph.mbStep h s >>= Hypergraph.mbFuel n)
        from rfl, hf]
    | some s =>
      obtain ⟨hsn, hbad⟩ := mbFind_some_spec h hv hf
      obtain ⟨h1, hstep, hv1, g, hg1, hg2, hg3⟩ := mbStep_ok h hv hsn
      have hlt := badCount_lt g hsn hbad hg1 hg2 hg3
      obtain ⟨h2, hrec, hv2, hbij⟩ := ih h1 hv1 (by omega)
      refine ⟨h2, ?_, hv2, hbij⟩
      calc Hypergraph.mbFuel (n + 1) h
          = Hypergraph.mbStep h s >>= Hypergraph.mbFuel n := by
            rw [show Hypergraph.mbFuel (n + 1) h
              = (match Hypergraph.mbFind h with
                 | none => Except.ok h
                 | some u => Hypergraph.mbStep h u >>= Hypergraph.mbFuel n)
              from rfl, hf]
        _ = Except.ok h1 >>= Hypergraph.mbFuel n := by rw [hstep]
        _ = Hypergraph.mbFuel n h1 := rfl
        _ = Except.ok h2 := hrec

/-- C2: `make_bijective` terminates on every valid hypergraph and returns a
hypergraph in which every spider has degree 0 or 2 (`is_bijective` holds);
in particular, for the atomic type `x`, `spiders(3, 2, x).make_bijective()`
yields exactly one spider box and its wires equal
`(0, 1, 2) + (0, 1, 2) + (3, 4) + (3, 4)`. -/
theorem C2_make_bijective :
    (∀ h : Hypergraph, h.Valid →
      ∃ h', Hypergraph.make_bijective h = .ok h'
        ∧ Hypergraph.is_bijective h' = true)
    ∧ (∃ h0 h1, Hypergraph.spiders 3 2 ["x"] = .ok h0
        ∧ Hypergraph.make_bijective h0 = .ok h1
        ∧ h1.boxes = [Hypergraph.spiderFactory 3 2 "x"]
        ∧ h1.wires = [0, 1, 2, 0, 1, 2, 3, 4, 3, 4]) := by
  constructor
  · intro h hv
    obtain ⟨h', hok, _, hbij⟩ := mbFuel_ok h.n_spiders h hv (badCount_le h)
    exact ⟨h', hok, hbij⟩
  · exact ⟨_, _, rfl, rfl, by decide, by decide⟩

/-- Witness for C2 at a concrete valid hypergraph. -/
theorem C2_make_bijective_witness :
    Hypergraph.exFb.Valid
      ∧ ∃ h', Hypergraph.make_bijective Hypergraph.exFb = .ok h'
          ∧ Hypergraph.is_bijective h' = true :=
  ⟨by decide, C2_make_bijective.1 Hypergraph.exFb (by decide)⟩

/-! ### Claim C8: the bijection property -/

theorem isPair_of_count_two {w : List Nat} {i : Nat} (hi : i < w.length)
    (hc : w.count (w.getD i 0) = 2) :
    ∃ a b, Hypergraph.IsPair w a b ∧ (i = a ∨ i = b) := by
  obtain ⟨a, b, hab, hblen, hva, hvb, huniq⟩ := count_two_pair hc
  have hcase := huniq i hi rfl
  refine ⟨a, b, ⟨hab, hblen, hvb.trans hva.symm, ?_⟩, hcase⟩
  intro r hr hrv
  exact huniq r hr (hrv.trans hva)

theorem isPair_unique {w : List Nat} {a b x y : Nat}
    (h1 : Hypergraph.IsPair w a b) (h2 : Hypergraph.IsPair w x y)
    (hv : w.getD x 0 = w.getD a 0) : x = a ∧ y = b := by
  obtain ⟨hab, hblen, hvb, huniq⟩ := h1
  obtain ⟨hxy, hylen, hvy, _⟩ := h2
  have hx := huniq x (by omega) hv
  have hy := huniq y hylen (hvy.trans hv)
  omega

theorem isPair_unique_pos {w : List Nat} {a b x y : Nat}
    (h1 : Hypergraph.IsPair w a b) (h2 : Hypergraph.IsPair w x y)
    (hshare : x = a ∨ x = b ∨ y = a ∨ y = b) : x = a ∧ y = b := by
  apply isPair_unique h1 h2
  rcases hshare with rfl | rfl | h | h
  · rfl
  · exact h1.2.2.1
  · rw [← h2.2.2.1, h]
  · rw [← h2.2.2.1, h]
    exact h1.2.2.1

theorem bdContrib_fst {w : List Nat} {a b : Nat} (h : Hypergraph.IsPair w a b) :
    Hypergraph.bdContrib w a = [(a, b), (b, a)] := by
  obtain ⟨hab, hblen, hv, huniq⟩ := h
  rw [Hypergraph.bdContrib]
  have hdropD : ∀ m, (w.drop (a + 1)).getD m 0 = w.getD (a + 1 + m) 0 := by
    intro m
    rw [List.getD_eq_getElem?_getD, List.getD_eq_getElem?_getD, List.getElem?_drop]
  have hk : b - (a + 1) < (w.drop (a + 1)).length := by
    rw [List.length_drop]; omega
  have hfind := findIdx_eq_some_of (p := fun t => t == w.getD a 0) (w.drop (a + 1))
    (b - (a + 1)) hk
    (by
      show ((w.drop (a + 1)).getD (b - (a + 1)) 0 == w.getD a 0) = true
      rw [hdropD]
      have he : a + 1 + (b - (a + 1)) = b := by omega
      rw [he, hv]
      exact beq_self_eq_true _)
    (fun m hm => by
      show ((w.drop (a + 1)).getD m 0 == w.getD a 0) = false
      rw [hdropD]
      apply beq_eq_false_iff_ne.2
      intro heq
      rcases huniq (a + 1 + m) (by omega) heq with h2 | h2 <;> omega)
    0
  rw [Nat.zero_add] at hfind
  rw [hfind]
  show [(a, b - (a + 1) + a + 1), (b - (a + 1) + a + 1, a)] = [(a, b), (b, a)]
  have he2 : b - (a + 1) + a + 1 = b := by omega
  rw [he2]

theorem bdContrib_snd {w : List Nat} {a b : Nat} (h : Hypergraph.IsPair w a b) :
    Hypergraph.bdContrib w b = [] := by
  obtain ⟨hab, hblen, hv, huniq⟩ := h
  rw [Hypergraph.bdContrib]
  have hnone : (w.drop (b + 1)).findIdx? (fun t => t == w.getD b 0) = none := by
    rw [List.findIdx?_eq_none_iff]
    intro x hx
    rcases List.mem_iff_getElem.1 hx with ⟨m, hm, rfl⟩
    apply beq_eq_false_iff_ne.2
    intro heq
    have hm2 : b + 1 + m < w.length := by
      rw [List.length_drop] at hm; omega
    have h1 : (w.drop (b + 1)).getD m 0 = w.getD (b + 1 + m) 0 := by
      rw [List.getD_eq_getElem?_getD, List.getD_eq_getElem?_getD, List.getElem?_drop]
    have hx2 : w.getD (b + 1 + m) 0 = w.getD a 0 := by
      rw [← h1, getD_merge_nat _ m hm, heq, hv]
    rcases huniq (b + 1 + m) hm2 hx2 with h2 | h2 <;> omega
  rw [hnone]

theorem bijection_pairs {w : List Nat}
    (hcnt : ∀ i, i < w.length → w.count (w.getD i 0) = 2) :
    (((Hypergraph.bijectionDict w).map Prod.fst).Nodup)
    ∧ (∀ k, k ∈ (Hypergraph.bijectionDict w).map Prod.fst ↔ k < w.length)
    ∧ (∀ a b, Hypergraph.IsPair w a b →
        (a, b) ∈ Hypergraph.bijectionDict w
          ∧ (b, a) ∈ Hypergraph.bijectionDict w) := by
  have hpairs : ∀ i, i < w.length →
      ∃ a b, Hypergraph.IsPair w a b ∧ (i = a ∨ i = b) :=
    fun i hi => isPair_of_count_two hi (hcnt i hi)
  have hblock : ∀ src, src < w.length →
      Hypergraph.bdContrib w src = []
      ∨ ∃ q, Hypergraph.IsPair w src q
          ∧ Hypergraph.bdContrib w src = [(src, q), (q, src)] := by
    intro src hsrc
    obtain ⟨a, b, hP, hcase⟩ := hpairs src hsrc
    rcases hcase with rfl | rfl
    · exact Or.inr ⟨b, hP, bdContrib_fst hP⟩
    · exact Or.inl (bdContrib_snd hP)
  have hdict := bijectionDict_blocks w
  refine ⟨?_, ?_, ?_⟩
  · rw [hdict, List.map_flatten, List.map_map, List.nodup_flatten]
    constructor
    · intro l hl
      rcases List.mem_map.1 hl with ⟨src, hsrc, rfl⟩
      have hsrc2 : src < w.length := List.mem_range.1 hsrc
      rcases hblock src hsrc2 with hb | ⟨q, hP, hb⟩
      · simp [Function.comp, hb]
      · have hne : src ≠ q := by have := hP.1; omega
        simp [Function.comp, hb, hne]
    · rw [List.pairwise_map]
      refine List.Pairwise.imp_of_mem ?_ (List.pairwise_lt_range w.length)
      intro a b ha hb hab
      have ha2 : a < w.length := List.mem_range.1 ha
      have hb2 : b < w.length := List.mem_range.1 hb
      intro x hx1 hx2
      simp only [Function.comp_apply] at hx1 hx2
      rcases hblock a ha2 with hba | ⟨qa, hPa, hba⟩
      · rw [hba] at hx1
        simp at hx1
      rcases hblock b hb2 with hbb | ⟨qb, hPb, hbb⟩
      · rw [hbb] at hx2
        simp at hx2
      rw [hba] at hx1
      rw [hbb] at hx2
      simp at hx1 hx2
      rcases hx1 with rfl | rfl <;> rcases hx2 with h | h
      · omega
      · obtain ⟨e1, e2⟩ := isPair_unique_pos hPa hPb (Or.inr (Or.inr (Or.inl h.symm)))
        omega
      · obtain ⟨e1, e2⟩ := isPair_unique_pos hPa hPb (Or.inr (Or.inl h.symm))
        omega
      · obtain ⟨e1, e2⟩ := isPair_unique_pos hPa hPb (Or.inr (Or.inr (Or.inr h.symm)))
        omega
  · intro k
    rw [hdict, List.map_flatten, List.map_map]
    constructor
    · intro hk
      rcases List.mem_flatten.1 hk with ⟨l, hl, hkl⟩
      rcases List.mem_map.1 hl with ⟨src, hsrc, rfl⟩
      have hsrc2 : src < w.length := List.mem_range.1 hsrc
      rcases hblock src hsrc2 with hb | ⟨q, hP, hb⟩
      · simp [Function.comp, hb] at hkl
      · simp [Function.comp, hb] at hkl
        rcases hkl with rfl | rfl
        · exact hsrc2
        · exact hP.2.1
    · intro hk
      obtain ⟨a, b, hP, hcase⟩ := hpairs k hk
      have halen : a < w.length := by have := hP.1; have := hP.2.1; omega
      apply List.mem_flatten.2
      refine ⟨(List.map Prod.fst ∘ Hypergraph.bdContrib w) a,
        List.mem_map.2 ⟨a, List.mem_range.2 halen, rfl⟩, ?_⟩
      simp only [Function.comp_apply, bdContrib_fst hP]
      rcases hcase with rfl | rfl
      · simp
      · simp
  · intro a b hP
    have hb := bdContrib_fst hP
    have halen : a < w.length := by have := hP.1; have := hP.2.1; omega
    constructor <;>
    · rw [hdict]
      apply List.mem_flatten.2
      refine ⟨Hypergraph.bdContrib w a,
        List.mem_map.2 ⟨a, List.mem_range.2 halen, rfl⟩, ?_⟩
      rw [hb]
      simp

theorem bijection_sortedKeys {w : List Nat}
    (hcnt : ∀ i, i < w.length → w.count (w.getD i 0) = 2) :
    (firstOccs ((Hypergraph.bijectionDict w).map Prod.fst)).insertionSort (· ≤ ·)
      = List.range w.length := by
  obtain ⟨hnd, hmem, _⟩ := bijection_pairs hcnt
  rw [firstOccs_of_nodup hnd]
  refine List.eq_of_perm_of_sorted ?_
    (List.sorted_insertionSort (fun x y => x ≤ y) _) ?_
  · refine (List.perm_insertionSort _ _).trans ?_
    apply (List.perm_ext_iff_of_nodup hnd (List.nodup_range _)).2
    intro k
    rw [List.mem_range]
    exact hmem k
  · exact List.Pairwise.imp (fun h2 => le_of_lt h2) (List.pairwise_lt_range _)

theorem bijection_lookup {w : List Nat}
    (hcnt : ∀ i, i < w.length → w.count (w.getD i 0) = 2)
    {a b : Nat} (hP : Hypergraph.IsPair w a b) :
    Hypergraph.dlookupN (Hypergraph.bijectionDict w) a = some b
    ∧ Hypergraph.dlookupN (Hypergraph.bijectionDict w) b = some a := by
  obtain ⟨hnd, _, hmem⟩ := bijection_pairs hcnt
  obtain ⟨h1, h2⟩ := hmem a b hP
  exact ⟨dlookupN_of_mem_nodup hnd h1, dlookupN_of_mem_nodup hnd h2⟩

theorem count_two_of_bijective {h : Hypergraph} (hv : h.Valid)
    (hb : h.is_bijective = true) :
    ∀ i, i < h.wires.length → h.wires.count (h.wires.getD i 0) = 2 := by
  intro i hi
  have hmem : h.wires.getD i 0 ∈ h.wires := getD_mem_nat _ i hi
  have hfo : h.wires.getD i 0 ∈ firstOccs h.wires := mem_firstOccs.2 hmem
  have hcan := hv.2.1
  rw [CanonicalW] at hcan
  rw [hcan, List.mem_range] at hfo
  have hlt : h.wires.getD i 0 < h.n_spiders := lt_of_lt_of_le hfo hv.2.2.1
  rw [Hypergraph.is_bijective, List.all_eq_true] at hb
  have hb2 := hb (h.wires.getD i 0) (List.mem_range.2 hlt)
  have hpos : 0 < h.wires.count (h.wires.getD i 0) := List.count_pos_iff.2 hmem
  simp only [Bool.or_eq_true, beq_iff_eq] at hb2
  rcases hb2 with h0 | h2
  · omega
  · exact h2

/-- C8: for every hypergraph that is not bijective, the `bijection` property
fails with a BijectionError; for every valid bijective hypergraph it returns,
without error, the involutive fixed-point-free pairing of ports induced by
the degree-2 spiders: its length is the number of ports, and the entry at
each port is a distinct port of the same spider, with the pairing mapping it
back. -/
theorem C8_bijection :
    ∀ h : Hypergraph,
      (h.is_bijective = false → Hypergraph.bijection h = .error .bijectionError)
      ∧ (h.Valid → h.is_bijective = true →
          ∃ l, Hypergraph.bijection h = .ok l
            ∧ l.length = h.wires.length
            ∧ ∀ i, i < l.length →
                l.getD i 0 < l.length
                ∧ l.getD i 0 ≠ i
                ∧ l.getD (l.getD i 0) 0 = i
                ∧ h.wires.getD (l.getD i 0) 0 = h.wires.getD i 0) := by
  intro h
  constructor
  · intro hbf
    rw [Hypergraph.bijection, if_pos (by simp [hbf])]
  · intro hv hbt
    have hcnt := count_two_of_bijective hv hbt
    have hkeys := bijection_sortedKeys hcnt
    have hgetD : ∀ j, j < h.wires.length →
        ((List.range h.wires.length).map
          (fun k => (Hypergraph.dlookupN (Hypergraph.bijectionDict h.wires) k).getD 0)).getD
            j 0
        = (Hypergraph.dlookupN (Hypergraph.bijectionDict h.wires) j).getD 0 := by
      intro j hj
      rw [List.getD_eq_getElem?_getD, List.getElem?_map, List.getElem?_range hj]
      rfl
    refine ⟨(List.range h.wires.length).map
        (fun k => (Hypergraph.dlookupN (Hypergraph.bijectionDict h.wires) k).getD 0),
      ?_, by simp, ?_⟩
    · rw [Hypergraph.bijection, if_neg (by simp [hbt])]
      show Except.ok (((firstOccs
            ((Hypergraph.bijectionDict h.wires).map Prod.fst)).insertionSort
          (· ≤ ·)).map
        (fun k => (Hypergraph.dlookupN (Hypergraph.bijectionDict h.wires) k).getD 0)) = _
      rw [hkeys]
    · intro i hi
      rw [List.length_map, List.length_range] at hi
      obtain ⟨a, b, hP, hcase⟩ := isPair_of_count_two hi (hcnt i hi)
      obtain ⟨hla, hlb⟩ := bijection_lookup hcnt hP
      have halen : a < h.wires.length := by have := hP.1; have := hP.2.1; omega
      have hblen : b < h.wires.length := hP.2.1
      rcases hcase with rfl | rfl
      · have hval : ((List.range h.wires.length).map
            (fun k =>
              (Hypergraph.dlookupN (Hypergraph.bijectionDict h.wires) k).getD 0)).getD
              i 0 = b := by
          rw [hgetD i hi, hla]
          rfl
        refine ⟨?_, ?_, ?_, ?_⟩
        · rw [hval, List.length_map, List.length_range]
          exact hblen
        · rw [hval]
          have := hP.1
          omega
        · rw [hval, hgetD b hblen, hlb]
          rfl
        · rw [hval]
          exact hP.2.2.1
      · have hval : ((List.range h.wires.length).map
            (fun k =>
              (Hypergraph.dlookupN (Hypergraph.bijectionDict h.wires) k).getD 0)).getD
              i 0 = a := by
          rw [hgetD i hi, hlb]
          rfl
        refine ⟨?_, ?_, ?_, ?_⟩
        · rw [hval, List.length_map, List.length_range]
          exact halen
        · rw [hval]
          have := hP.1
          omega
        · rw [hval, hgetD a halen, hla]
          rfl
        · rw [hval]
          exact hP.2.2.1.symm

/-- Witness for C8 at a concrete valid bijective hypergraph. -/
theorem C8_bijection_witness :
    Hypergraph.exFbGb.Valid
    ∧ ∃ l, Hypergraph.bijection Hypergraph.exFbGb = .ok l
        ∧ l.length = Hypergraph.exFbGb.wires.length
        ∧ ∀ i, i < l.length →
            l.getD i 0 < l.length
            ∧ l.getD i 0 ≠ i
            ∧ l.getD (l.getD i 0) 0 = i
            ∧ Hypergraph.exFbGb.wires.getD (l.getD i 0) 0
                = Hypergraph.exFbGb.wires.getD i 0 :=
  ⟨by decide, (C8_bijection Hypergraph.exFbGb).2 (by decide) (by decide)⟩

end Discopy
